import Mathlib

/-!
# picoshell: the tokenizer `parse_input` (src/parser.c) and the executor (src/picoshell.c)

A shallow embedding of the finite-state-machine parser of picoshell, of `trim`
and of the growable buffers the parser fills, and of the executor
(`resolve_env_variables`, `resolve_path`, `change_dir`, `execute_input`),
followed by the properties of both.

Conventions of the embedding.

* A `char` of the line is a `Char`; `'\x00'` is the terminator `'\0'`.
* A `char *` argument is the list of the bytes of the buffer it points into,
  terminator included; a read or write outside the list is the fault
  `Fault.outOfBounds` (undefined behaviour in C).
* A pointer to a heap object is an `Option`, `none` being `NULL`; a freshly
  `malloc`ed `char` is `none` (indeterminate) until it is written.
* C `int`s that only count upwards (`n_command`, `n_token_char`, the `max_*`
  capacities, the `len` fields) are `Nat`; `n_token`, which is set to `-1`, is
  an `Int`. No line is long enough for these counters to overflow.
* `parse_input` returns `Except Fault (Option ParsedInput)`: `.ok none` is the
  `NULL` result (parse failure), `.error _` is undefined behaviour.
  Only the returned value is modelled: the message `parse_input` prints before
  it returns `NULL` on two adjacent pipes (line 284) is not recorded.
* The environment of the process is a function from names to optional values
  (`getenv`); the answers of the operating system (`access`, `realpath`, `chdir`,
  `fork`, `waitpid`) are the fields of an `OS`; what the interpreter process does
  (printing, creating pipes and children, closing descriptors, waiting) is
  appended to the `log` of the `World`. A child is recorded by the `fork` event
  with what it would pass to `execve`.

Plan of the file.

1. The model: raw memory, `trim`, the data model, the loop, `parse_input`.
2. Reading a result back: `Command.words`, `ParsedInput.stages`.
3. The loop at the level of words (`Scan`) and the shape of the memory during the
   loop (`mk_loop`, `Rep`), the two sides of the simulation `step_sim`.
4. Lemmas, the refinement theorem `parse_trimmed_refines`, the theorems on `trim`.
5. The properties `C1` .. `C10`.
6. Lemmas on the executor and the properties `C11` .. `C20`. (The definitions of
   the executor stand with the other definitions, after those of the parser.)
7. The failures and the number of stages of the parser read on the text of the
   line, the descriptors the parent closes, and the properties `C21` .. `C24`.
-/

namespace Picoshell

/-! ## Faults and raw memory -/

/-- The ways an access can leave the memory the program owns: an index outside an
array, a `NULL` pointer followed, an indeterminate value read. -/
inductive Fault where
  | outOfBounds
  | nullDeref
  | uninitialized
  deriving DecidableEq, Repr

/-- The terminator `'\0'` of a C string. -/
def NUL : Char := '\x00'

/-- `isspace` of `<ctype.h>` in the "C" locale (the program never calls
`setlocale`): space, `\t`, `\n`, `\v`, `\f`, `\r`. -/
def isspace (c : Char) : Bool :=
  c == ' ' || c == '\t' || c == '\n' || c == '\x0b' || c == '\x0c' || c == '\r'

/-- `strlen(buf + ptr)`: the number of bytes before the first `'\0'`; running off
the buffer without meeting one is a fault. -/
def strlen_from : List Char → Except Fault Nat
  | [] => .error .outOfBounds
  | c :: cs => if c = NUL then .ok 0 else (strlen_from cs).map (· + 1)

/-- `strlen(buf + ptr)`. -/
def strlen (buf : List Char) (ptr : Nat) : Except Fault Nat :=
  strlen_from (buf.drop ptr)

/-- The C string at `buf + ptr`: the bytes before the first `'\0'`. -/
def c_str (buf : List Char) (ptr : Nat) : List Char :=
  (buf.drop ptr).takeWhile (· != NUL)

/-! ## `trim` (parser.c, lines 29-44) -/

/-- The loop of `left_trim` on the bytes from `ptr` on:
`while (isspace(*ptr) && *ptr != '\0') ptr++;`. -/
def left_trim_loop : List Char → Nat → Except Fault Nat
  | [], _ => .error .outOfBounds
  | c :: cs, ptr => if isspace c && c != NUL then left_trim_loop cs (ptr + 1) else .ok ptr

/-- `left_trim(ptr)`: the new pointer, as an offset into `buf`. -/
def left_trim (buf : List Char) (ptr : Nat) : Except Fault Nat :=
  left_trim_loop (buf.drop ptr) ptr

/-- The loop of `right_trim`, `while (isspace(ptr[--pos]));`, in absolute
indices: `k` is `ptr + pos` before the decrement, the result is `ptr + pos` after
the loop. With `k = 0` the next read is one byte before the buffer. -/
def right_trim_loop (buf : List Char) : Nat → Except Fault Nat
  | 0 => .error .outOfBounds
  | k + 1 =>
    match buf[k]? with
    | none => .error .outOfBounds
    | some c => if isspace c then right_trim_loop buf k else .ok k

/-- `right_trim(ptr)`: the buffer after `ptr[pos + 1] = '\0'`. -/
def right_trim (buf : List Char) (ptr : Nat) : Except Fault (List Char) := do
  let pos ← strlen buf ptr
  let k ← right_trim_loop buf (ptr + pos)
  if k + 1 < buf.length then .ok (buf.set (k + 1) NUL) else .error .outOfBounds

/-- `trim(ptr)` is `right_trim(left_trim(ptr))`: the buffer as it is left and the
returned pointer. -/
def trim (buf : List Char) : Except Fault (List Char × Nat) := do
  let ptr ← left_trim buf 0
  let buf' ← right_trim buf ptr
  .ok (buf', ptr)

/-! ## The data model (parser.h) -/

/-- The states of the parser. -/
inductive ParserState where
  | IN_WORD_QUOTED
  | IN_WORD
  | WHITESPACE
  | PIPE
  deriving DecidableEq, Repr

/-- `struct Token`: `buffer` is the allocation, `max_len` the recorded size. -/
structure Token where
  buffer : List (Option Char)
  max_len : Nat
  deriving DecidableEq, Repr

/-- `struct Command`: `tokens` is the array of token pointers. -/
structure Command where
  max_tokens : Nat
  len : Nat
  tokens : List (Option Token)
  deriving DecidableEq, Repr

/-- `struct ParsedInput`. -/
structure ParsedInput where
  max_commands : Nat
  len : Nat
  commands : List Command
  deriving DecidableEq, Repr

/-- `realloc` to `n` cells: the old cells up to `n` are kept, the new ones hold
`fill`. -/
def realloc {α : Type} (xs : List α) (n : Nat) (fill : α) : List α :=
  xs.take n ++ List.replicate (n - xs.length) fill

/-- `new_token()`. -/
def new_token : Token :=
  { buffer := List.replicate 100 none, max_len := 100 }

/-- `resize_token(token, new_max_len)`. -/
def resize_token (token : Token) (new_max_len : Nat) : Token :=
  { buffer := realloc token.buffer new_max_len none, max_len := new_max_len }

/-- `new_command()`. -/
def new_command : Command :=
  { max_tokens := 10, len := 0, tokens := List.replicate 10 (some new_token) }

/-- `resize_command(command, new_max_tokens)`: the array is reallocated and the new
cells receive fresh tokens (the array has `max_tokens` cells when it is called). -/
def resize_command (command : Command) (new_max_tokens : Nat) : Command :=
  { command with
    tokens := realloc command.tokens new_max_tokens (some new_token)
    max_tokens := new_max_tokens }

/-- `new_parsed_input()`. -/
def new_parsed_input : ParsedInput :=
  { max_commands := 10, len := 0, commands := List.replicate 10 new_command }

/-- `resize_parsed_input(parsed_input, new_max_commands)`: the array is reallocated
and the new cells receive fresh commands. -/
def resize_parsed_input (parsed_input : ParsedInput) (new_max_commands : Nat) : ParsedInput :=
  { parsed_input with
    commands := realloc parsed_input.commands new_max_commands new_command
    max_commands := new_max_commands }

/-! ## Checked accesses -/

/-- `parsed_input->commands[n_command]`. -/
def get_command (parsed_input : ParsedInput) (n_command : Nat) : Except Fault Command :=
  match parsed_input.commands[n_command]? with
  | some command => .ok command
  | none => .error .outOfBounds

/-- `parsed_input->commands[n_command] = command` (the cell exists). -/
def set_command (parsed_input : ParsedInput) (n_command : Nat) (command : Command) :
    ParsedInput :=
  { parsed_input with commands := parsed_input.commands.set n_command command }

/-- The pointer `command->tokens[i]`, which may be `NULL`. -/
def get_slot (command : Command) (i : Int) : Except Fault (Option Token) :=
  if i < 0 then .error .outOfBounds
  else match command.tokens[i.toNat]? with
    | some slot => .ok slot
    | none => .error .outOfBounds

/-- The token `*command->tokens[i]`. -/
def get_token (command : Command) (i : Int) : Except Fault Token := do
  match (← get_slot command i) with
  | some token => .ok token
  | none => .error .nullDeref

/-- `command->tokens[i] = slot` (the cell exists). -/
def set_slot (command : Command) (i : Int) (slot : Option Token) : Command :=
  { command with tokens := command.tokens.set i.toNat slot }

/-- `parsed_input->commands[n_command]->tokens[n_token]->buffer[n_token_char] = c`. -/
def write_char (parsed_input : ParsedInput) (n_command : Nat) (n_token : Int)
    (n_token_char : Nat) (c : Char) : Except Fault ParsedInput := do
  let command ← get_command parsed_input n_command
  let token ← get_token command n_token
  if n_token_char < token.buffer.length then
    let token' := { token with buffer := token.buffer.set n_token_char (some c) }
    .ok (set_command parsed_input n_command (set_slot command n_token (some token')))
  else .error .outOfBounds

/-- The three statements that end a command (lines 198-201, 216-219, 255-258):
`free_token(tokens[n_token + 1]); tokens[n_token + 1] = NULL; len = n_token + 1`.
`free_token` dereferences its argument, hence the read of the token; `n_token` is
at least `-1`, so that `n_token + 1` is a natural number. -/
def close_command (parsed_input : ParsedInput) (n_command : Nat) (n_token : Int) :
    Except Fault ParsedInput := do
  let command ← get_command parsed_input n_command
  let _ ← get_token command (n_token + 1)
  let command' := { set_slot command (n_token + 1) none with len := (n_token + 1).toNat }
  .ok (set_command parsed_input n_command command')

/-! ## The loop of `parse_input` (parser.c, lines 161-307) -/

/-- The local variables of `parse_input` that live across iterations. -/
structure Loop where
  parsed_input : ParsedInput
  next_state : ParserState
  n_command : Nat
  n_token : Int
  n_token_char : Nat
  deriving DecidableEq, Repr

/-- Lines 163-165: `if (n_command == parsed_input->max_commands - 1)` the array of
commands is doubled. -/
def grow_commands (s : Loop) : Loop :=
  if s.n_command + 1 = s.parsed_input.max_commands then
    { s with
      parsed_input := resize_parsed_input s.parsed_input (2 * s.parsed_input.max_commands) }
  else s

/-- Lines 167-170: `if (n_token == commands[n_command]->max_tokens - 1)` the array
of tokens of the current command is doubled. -/
def grow_tokens (s : Loop) : Except Fault Loop := do
  let command ← get_command s.parsed_input s.n_command
  if s.n_token + 1 = (command.max_tokens : Int) then
    let command' := resize_command command (2 * command.max_tokens)
    .ok { s with parsed_input := set_command s.parsed_input s.n_command command' }
  else .ok s

/-- Lines 172-178: `if (n_token > -1 && n_token_char == tokens[n_token]->max_len - 1)`
the buffer of the current token is doubled. -/
def grow_token (s : Loop) : Except Fault Loop :=
  if s.n_token > -1 then do
    let command ← get_command s.parsed_input s.n_command
    let token ← get_token command s.n_token
    if s.n_token_char + 1 = token.max_len then
      let command' := set_slot command s.n_token (some (resize_token token (2 * token.max_len)))
      .ok { s with parsed_input := set_command s.parsed_input s.n_command command' }
    else .ok s
  else .ok s

/-- Lines 163-178: the three capacity checks at the top of an iteration. -/
def grow (s : Loop) : Except Fault Loop := do
  let s ← grow_tokens (grow_commands s)
  grow_token s

/-- Lines 181-306: the `switch` on `next_state`, after the capacity checks.
`none` is `return NULL`; the `printf` that precedes it in the state `PIPE`
(line 284) is not recorded. -/
def transition (s : Loop) (current_char : Char) : Except Fault (Option Loop) :=
  match s.next_state with
  | .IN_WORD =>
    if current_char = ' ' then do
      let p ← write_char s.parsed_input s.n_command s.n_token s.n_token_char NUL
      .ok (some { s with parsed_input := p, next_state := .WHITESPACE })
    else if current_char = '|' then do
      let p ← write_char s.parsed_input s.n_command s.n_token s.n_token_char NUL
      let p ← close_command p s.n_command s.n_token
      .ok (some { s with parsed_input := p, n_token := -1, n_command := s.n_command + 1,
                         next_state := .PIPE })
    else if current_char = '"' then
      .ok (some { s with next_state := .IN_WORD_QUOTED })
    else if current_char = NUL then do
      let p ← write_char s.parsed_input s.n_command s.n_token s.n_token_char NUL
      let p ← close_command p s.n_command s.n_token
      .ok (some { s with parsed_input := p })
    else do
      let p ← write_char s.parsed_input s.n_command s.n_token s.n_token_char current_char
      .ok (some { s with parsed_input := p, n_token_char := s.n_token_char + 1 })
  | .IN_WORD_QUOTED =>
    if current_char = '"' then
      .ok (some { s with next_state := .IN_WORD })
    else if current_char = NUL then
      .ok none
    else do
      let p ← write_char s.parsed_input s.n_command s.n_token s.n_token_char current_char
      .ok (some { s with parsed_input := p, n_token_char := s.n_token_char + 1 })
  | .WHITESPACE =>
    if current_char = ' ' then
      .ok (some s)
    else if current_char = '|' then do
      let p ← close_command s.parsed_input s.n_command s.n_token
      .ok (some { s with parsed_input := p, n_token := -1, n_command := s.n_command + 1,
                         next_state := .PIPE })
    else if current_char = '"' then
      .ok (some { s with n_token := s.n_token + 1, n_token_char := 0,
                         next_state := .IN_WORD_QUOTED })
    else do
      let p ← write_char s.parsed_input s.n_command (s.n_token + 1) 0 current_char
      .ok (some { s with parsed_input := p, n_token := s.n_token + 1, n_token_char := 1,
                         next_state := .IN_WORD })
  | .PIPE =>
    if current_char = ' ' then
      .ok (some { s with next_state := .WHITESPACE })
    else if current_char = '|' then
      .ok none
    else if current_char = '"' then
      .ok (some { s with n_token := s.n_token + 1, n_token_char := 0,
                         next_state := .IN_WORD_QUOTED })
    else do
      let p ← write_char s.parsed_input s.n_command (s.n_token + 1) 0 current_char
      .ok (some { s with parsed_input := p, n_token := s.n_token + 1, n_token_char := 1,
                         next_state := .IN_WORD })

/-- One iteration of the `for` loop on the character `input[i]`. -/
def step (s : Loop) (current_char : Char) : Except Fault (Option Loop) := do
  let s ← grow s
  transition s current_char

/-- The iterations on the characters `input[i]`, `input[i+1]`, ... -/
def run (s : Loop) : List Char → Except Fault (Option Loop)
  | [] => .ok (some s)
  | c :: cs => do
    match (← step s c) with
    | none => .ok none
    | some s' => run s' cs

/-- The body of `parse_input` after the call of `trim` (lines 146-310), on the
string `input` points to: the loop reads `input[0]`, ..., `input[strlen(input)]`,
the last being the terminator. -/
def parse_trimmed (input : List Char) : Except Fault (Option ParsedInput) :=
  if input.length = 0 then .ok (some new_parsed_input)
  else do
    let s0 : Loop :=
      { parsed_input := new_parsed_input, next_state := .IN_WORD,
        n_command := 0, n_token := 0, n_token_char := 0 }
    match (← run s0 (input ++ [NUL])) with
    | none => .ok none
    | some s => .ok (some { s.parsed_input with len := s.n_command + 1 })

/-- `parse_input(raw_input)`, `raw_input` being the bytes of the line buffer,
terminator included. -/
def parse_input (raw_input : List Char) : Except Fault (Option ParsedInput) := do
  let (buf, ptr) ← trim raw_input
  parse_trimmed (c_str buf ptr)

/-- The text of a line without its leading and trailing `isspace` characters. -/
def trimmed (s : List Char) : List Char :=
  ((s.dropWhile isspace).reverse.dropWhile isspace).reverse

/-- The buffer `readline` hands over for the line `s`. -/
def line_buffer (s : List Char) : List Char := s ++ [NUL]

/-! ## Reading a result back -/

/-- The C string in a token's buffer: the characters before the first `'\0'`;
`none` when an indeterminate cell or the end of the buffer comes first. -/
def cells_str : List (Option Char) → Option (List Char)
  | [] => none
  | none :: _ => none
  | some c :: cs => if c = NUL then some [] else (cells_str cs).map (c :: ·)

/-- The string `token->buffer` holds. -/
def Token.str (token : Token) : Option (List Char) := cells_str token.buffer

/-- All the values of a list of optional values, or `none` when one is missing. -/
def collect {α : Type} : List (Option α) → Option (List α)
  | [] => some []
  | none :: _ => none
  | some x :: xs => (collect xs).map (x :: ·)

/-- The words of a command: the strings of `tokens[0 .. len)`; `none` when one of
these cells is outside the array, is `NULL` or holds no terminated string. -/
def Command.words (command : Command) : Option (List (List Char)) :=
  if command.len ≤ command.tokens.length then
    collect ((command.tokens.take command.len).map (fun slot => slot.bind Token.str))
  else none

/-- The stages of a pipeline: the words of `commands[0 .. len)`. -/
def ParsedInput.stages (parsed_input : ParsedInput) : Option (List (List (List Char))) :=
  if parsed_input.len ≤ parsed_input.commands.length then
    collect ((parsed_input.commands.take parsed_input.len).map Command.words)
  else none

/-- The stages of a parse result: `none` unless a pipeline was returned. -/
def stages_of (r : Except Fault (Option ParsedInput)) : Option (List (List (List Char))) :=
  match r with
  | .ok (some p) => p.stages
  | _ => none

/-- The number of stages of a parse result: `none` unless a pipeline was returned. -/
def stage_count (r : Except Fault (Option ParsedInput)) : Option Nat :=
  match r with
  | .ok (some p) => some p.len
  | _ => none

/-- The recorded token counts `commands[i]->len` of the stages `i < len` of a parse
result: `none` unless a pipeline was returned. -/
def stage_lens (r : Except Fault (Option ParsedInput)) : Option (List Nat) :=
  match r with
  | .ok (some p) => some ((p.commands.take p.len).map Command.len)
  | _ => none

/-- A token of the initial capacity whose buffer holds the characters `w` and the
terminator. -/
def token_of (w : List Char) : Token :=
  { buffer := w.map some ++ some NUL :: List.replicate (99 - w.length) none, max_len := 100 }

/-! ## The loop at the level of words

The same automaton as `transition`, on lists of words instead of buffers: `done`
are the stages already closed, `ws` the words of the current stage that are
complete, `w` the characters of the word being read. It is the reading of the
memory state that the simulation theorem `step_sim` justifies. -/

/-- The word-level state of the loop, one constructor per `ParserState`. -/
inductive Scan where
  | inWord (done : List (List (List Char))) (ws : List (List Char)) (w : List Char)
  | inQuoted (done : List (List (List Char))) (ws : List (List Char)) (w : List Char)
  | white (done : List (List (List Char))) (ws : List (List Char))
  | pipe (done : List (List (List Char)))
  deriving DecidableEq, Repr

/-- One character of the line (not the terminator); `none` is `return NULL`. -/
def Scan.step : Scan → Char → Option Scan
  | .inWord done ws w, c =>
    if c = ' ' then some (.white done (ws ++ [w]))
    else if c = '|' then some (.pipe (done ++ [ws ++ [w]]))
    else if c = '"' then some (.inQuoted done ws w)
    else some (.inWord done ws (w ++ [c]))
  | .inQuoted done ws w, c =>
    if c = '"' then some (.inWord done ws w)
    else some (.inQuoted done ws (w ++ [c]))
  | .white done ws, c =>
    if c = ' ' then some (.white done ws)
    else if c = '|' then some (.pipe (done ++ [ws]))
    else if c = '"' then some (.inQuoted done ws [])
    else some (.inWord done ws [c])
  | .pipe done, c =>
    if c = ' ' then some (.white done [])
    else if c = '|' then none
    else if c = '"' then some (.inQuoted done [] [])
    else some (.inWord done [] [c])

/-- The characters of the line, in order. -/
def Scan.run : Scan → List Char → Option Scan
  | a, [] => some a
  | a, c :: cs => (a.step c).bind (fun a' => Scan.run a' cs)

/-- The iteration on the terminator and the stages `parse_input` then returns:
in `IN_WORD` the command is closed, in `IN_WORD_QUOTED` the result is `NULL`,
in the two other states the terminator starts a word in a command that is never
closed, whose `len` is still `0`. -/
def Scan.finish : Scan → Option (List (List (List Char)))
  | .inWord done ws w => some (done ++ [ws ++ [w]])
  | .inQuoted _ _ _ => none
  | .white done _ => some (done ++ [[]])
  | .pipe done => some (done ++ [[]])

/-- The stages of a non-empty trimmed line, read at the level of words. -/
def split_line (input : List Char) : Option (List (List (List Char))) :=
  (Scan.run (.inWord [] [] []) input).bind Scan.finish

/-! ## The shape of the memory during the loop -/

/-- The command being filled: `ts` are the tokens started so far, followed by
`m` untouched ones. -/
def cur_command (ts : List Token) (m : Nat) : Command :=
  { max_tokens := ts.length + m, len := 0,
    tokens := ts.map some ++ List.replicate m (some new_token) }

/-- A closed command: its tokens `ts`, the `NULL` cell, `m` untouched tokens. -/
def closed_command (ts : List Token) (m : Nat) : Command :=
  { max_tokens := ts.length + 1 + m, len := ts.length,
    tokens := ts.map some ++ none :: List.replicate m (some new_token) }

/-- The pipeline being filled: the closed commands `cs`, the current command `c`
and `k` untouched ones. -/
def mk_input (cs : List Command) (c : Command) (k : Nat) : ParsedInput :=
  { max_commands := cs.length + 1 + k, len := 0,
    commands := cs ++ c :: List.replicate k new_command }

/-- The local variables of the loop for that shape. -/
def mk_loop (cs : List Command) (k : Nat) (ts : List Token) (m : Nat)
    (st : ParserState) (n : Nat) : Loop :=
  { parsed_input := mk_input cs (cur_command ts m) k, next_state := st,
    n_command := cs.length, n_token := (ts.length : Int) - 1, n_token_char := n }

/-- A token whose buffer holds the terminated string `w`. -/
def Token.holds (t : Token) (w : List Char) : Prop :=
  t.buffer.length = t.max_len ∧ t.str = some w

/-- A token whose first `n` cells hold the characters `w` read so far, with room
for one more cell. -/
def Token.opened (t : Token) (w : List Char) (n : Nat) : Prop :=
  t.buffer.length = t.max_len ∧ n = w.length ∧ t.buffer.take n = w.map some ∧
    n < t.max_len ∧ NUL ∉ w

/-- A command closed on the words `stage`. -/
def Command.closed (c : Command) (stage : List (List Char)) : Prop :=
  ∃ ts m, c = closed_command ts m ∧ List.Forall₂ Token.holds ts stage

/-- The memory state `s` of the loop represents the word-level state. -/
def Rep (s : Loop) : Scan → Prop
  | .inWord done ws w => ∃ cs k ts t m n,
      s = mk_loop cs k (ts ++ [t]) m .IN_WORD n ∧
      List.Forall₂ Command.closed cs done ∧ List.Forall₂ Token.holds ts ws ∧
      t.opened w n
  | .inQuoted done ws w => ∃ cs k ts t m n,
      s = mk_loop cs k (ts ++ [t]) m .IN_WORD_QUOTED n ∧
      List.Forall₂ Command.closed cs done ∧ List.Forall₂ Token.holds ts ws ∧
      t.opened w n
  | .white done ws => ∃ cs k ts m n,
      s = mk_loop cs k ts m .WHITESPACE n ∧ 0 < ts.length + m ∧
      List.Forall₂ Command.closed cs done ∧ List.Forall₂ Token.holds ts ws
  | .pipe done => ∃ cs k m n,
      s = mk_loop cs k [] m .PIPE n ∧ 0 < m ∧
      List.Forall₂ Command.closed cs done

/-! ## Lines built from words -/

/-- A plain character: not `isspace`, not a pipe, not a double quote, not the
terminator. -/
def plain_char (c : Char) : Bool :=
  !isspace c && c != '|' && c != '"' && c != NUL

/-- A plain word: non-empty, of plain characters. -/
def plain_word (w : List Char) : Bool :=
  !w.isEmpty && w.all plain_char

/-- The words `(g, w)` of the list, each after `g + 1` spaces. -/
def spaced : List (Nat × List Char) → List Char
  | [] => []
  | (g, w) :: rest => List.replicate (g + 1) ' ' ++ w ++ spaced rest

/-- The words of a stage given as its first word and the following words, each
with the number of extra spaces before it. -/
def stage_words (st : List Char × List (Nat × List Char)) : List (List Char) :=
  st.1 :: st.2.map Prod.snd

/-- The text of a stage: its words joined by one or more spaces. -/
def stage_text (st : List Char × List (Nat × List Char)) : List Char :=
  st.1 ++ spaced st.2

/-- The texts joined by the separator `sep`. -/
def join_with (sep : List Char) : List (List Char) → List Char
  | [] => []
  | [x] => x
  | x :: y :: rest => x ++ sep ++ join_with sep (y :: rest)

/-- The line of a pipeline: the texts of the stages joined by a pipe with `a`
spaces before it and `b` spaces after it. -/
def pipeline_text (a b : Nat) (stages : List (List Char × List (Nat × List Char))) :
    List Char :=
  join_with (List.replicate a ' ' ++ '|' :: List.replicate b ' ') (stages.map stage_text)

/-- The states in which a stage can begin. -/
def Scan.ready (done : List (List (List Char))) (a : Scan) : Prop :=
  a = .inWord done [] [] ∨ a = .pipe done ∨ a = .white done []

/-- A token cut out of the text `t`: a contiguous run of characters of `t`, none
a space or a pipe, and not empty unless `t` begins with a pipe. -/
def cut_from (t : List Char) (tok : List Char) : Prop :=
  (∃ l r, t = l ++ tok ++ r) ∧ (∀ c ∈ tok, c ≠ ' ' ∧ c ≠ '|') ∧
    (t.head? ≠ some '|' → tok ≠ [])

/-- The invariant of the word-level automaton on a text `t` without double quote,
`pre` being the characters already read: all complete words are cut from `t`, and
the word being read is the end of `pre`. -/
def Scan.cuts (t pre : List Char) : Scan → Prop
  | .inWord done ws w =>
      (∀ st ∈ done, ∀ tok ∈ st, cut_from t tok) ∧ (∀ tok ∈ ws, cut_from t tok) ∧
      (∃ l, pre = l ++ w) ∧ (∀ c ∈ w, c ≠ ' ' ∧ c ≠ '|') ∧ (w = [] → pre = [])
  | .inQuoted _ _ _ => False
  | .white done ws =>
      (∀ st ∈ done, ∀ tok ∈ st, cut_from t tok) ∧ (∀ tok ∈ ws, cut_from t tok)
  | .pipe done => ∀ st ∈ done, ∀ tok ∈ st, cut_from t tok

/-- Whether the word-level state is inside double quotes. -/
def Scan.quoted : Scan → Bool
  | .inQuoted _ _ _ => true
  | _ => false

/-! ## The executor (picoshell.c): strings in token buffers -/

/-- The read of `buffer[i]`. -/
def read_cell (buffer : List (Option Char)) (i : Nat) : Except Fault Char :=
  match buffer[i]? with
  | none => .error .outOfBounds
  | some none => .error .uninitialized
  | some (some c) => .ok c

/-- The read of a C string cell by cell, up to its terminator. -/
def read_cells : List (Option Char) → Except Fault (List Char)
  | [] => .error .outOfBounds
  | none :: _ => .error .uninitialized
  | some c :: cs => if c = NUL then .ok [] else (read_cells cs).map (c :: ·)

/-- The read of the C string at `buffer + i` (`strcmp`, `getenv`, `strlen`). -/
def read_str (buffer : List (Option Char)) (i : Nat) : Except Fault (List Char) :=
  read_cells (buffer.drop i)

/-- `strcpy(buffer, src)`: the characters of the C string `src` and the terminator
are written from `buffer[0]` on. -/
def strcpy (buffer : List (Option Char)) (src : List Char) :
    Except Fault (List (Option Char)) :=
  if src.length + 1 ≤ buffer.length then
    .ok ((src ++ [NUL]).map some ++ buffer.drop (src.length + 1))
  else .error .outOfBounds

/-! ## `resolve_env_variables` (picoshell.c, lines 30-47)

The environment is the function `getenv`: `getenv name` is the value of the
variable `name`, a C string, `none` being `NULL`. -/

/-- The body of the loop (lines 35-45) on the token `*command->tokens[i]`. -/
def resolve_token (getenv : List Char → Option (List Char)) (token : Token) :
    Except Fault Token := do
  let first ← read_cell token.buffer 0
  if first = '$' then
    let name ← read_str token.buffer 1
    match getenv name with
    | some env_var =>
      let token :=
        if token.max_len < env_var.length then resize_token token (env_var.length + 1)
        else token
      let buffer ← strcpy token.buffer env_var
      .ok { token with buffer := buffer }
    | none => .ok { token with buffer := token.buffer.set 0 (some NUL) }
  else .ok token

/-- The iterations `i`, `i + 1`, ... of the loop of `resolve_env_variables`, `n`
of them. -/
def resolve_env_from (getenv : List Char → Option (List Char)) :
    Nat → Nat → Command → Except Fault Command
  | 0, _, command => .ok command
  | n + 1, i, command => do
    let token ← get_token command (i : Int)
    let token' ← resolve_token getenv token
    resolve_env_from getenv n (i + 1) (set_slot command (i : Int) (some token'))

/-- `resolve_env_variables(command)`: `for (i = 0; i < command->len; i++)`. -/
def resolve_env_variables (getenv : List Char → Option (List Char)) (command : Command) :
    Except Fault Command :=
  resolve_env_from getenv command.len 0 command

/-! ## `resolve_path` (picoshell.c, lines 49-90) -/

/-- The names of the built-in commands (line 51). -/
def builtins : List (List Char) := ["cd".toList, "exit".toList, "pwd".toList]

/-- The tokens that `strtok(path, ":")` and the following calls `strtok(NULL, ":")`
return, in order, `cur` being the characters of the token being read: the
non-empty runs of characters between colons. -/
def strtok_from (cur : List Char) : List Char → List (List Char)
  | [] => if cur = [] then [] else [cur]
  | c :: cs =>
    if c = ':' then (if cur = [] then strtok_from [] cs else cur :: strtok_from [] cs)
    else strtok_from (cur ++ [c]) cs

/-- The successive results of `strtok` on `path` with the delimiter `":"`. -/
def strtok_all (path : List Char) : List (List Char) := strtok_from [] path

/-- The string built in `full_path` for the directory `ptr` (lines 72-78): `ptr`,
a `'/'` unless `ptr` ends with one, `executable`. The buffer has
`strlen(ptr) + strlen(executable) + 2` bytes. -/
def make_full_path (ptr executable : List Char) : Except Fault (List Char) :=
  match ptr.getLast? with
  | none => .error .outOfBounds
  | some last =>
    let full_path := if last ≠ '/' then ptr ++ ['/'] ++ executable else ptr ++ executable
    if full_path.length + 1 ≤ ptr.length + executable.length + 2 then .ok full_path
    else .error .outOfBounds

/-- The loop `while (ptr != NULL)` of lines 71-85 on the tokens of `PATH`;
`access path` is `access(path, F_OK) == 0`. -/
def search_path (access : List Char → Bool) (executable : List Char) :
    List (List Char) → Except Fault (Option (List Char))
  | [] => .ok none
  | ptr :: rest => do
    let full_path ← make_full_path ptr executable
    if access full_path then .ok (some full_path)
    else search_path access executable rest

/-- `resolve_path(executable)`; `realpath path` is `realpath(path, NULL)`. -/
def resolve_path (getenv : List Char → Option (List Char))
    (realpath : List Char → Option (List Char)) (access : List Char → Bool)
    (executable : List Char) : Except Fault (Option (List Char)) :=
  if executable ∈ builtins then .ok (some executable)
  else if '/' ∈ executable then .ok (realpath executable)
  else
    match getenv "PATH".toList with
    | none => .error .nullDeref
    | some path_original => search_path access executable (strtok_all path_original)

/-! ## The process and the operating system -/

/-- The two ends of a pipe. -/
inductive PipeEnd where
  | read
  | write
  deriving DecidableEq, Repr

/-- A descriptor of a pipe created by `execute_input`. -/
structure Fd where
  pipe : Nat
  side : PipeEnd
  deriving DecidableEq, Repr

/-- What the interpreter does that can be observed from outside, in order. -/
inductive Event where
  | print (text : List Char)
  | perror (text : List Char)
  | pipe (n_pipe : Nat)
  | fork (pid : Nat) (path : List Char) (stdin stdout : Option Nat)
      (argv : Except Fault (List (List Char)))
  | close (slot : Nat)
  | wait (pid : Nat)

/-- The state of the interpreter process: its environment, its working directory
and what it has done so far. -/
structure World where
  env : List Char → Option (List Char)
  cwd : List Char
  log : List Event

/-- The answers of the operating system: `access` and `realpath` in a working
directory, `chdir` (the new working directory, or `errno`), `fork` for the stage
`n_command` (the child's pid, or `none` for `-1`), and whether `waitpid` succeeds. -/
structure OS where
  access : List Char → List Char → Bool
  realpath : List Char → List Char → Option (List Char)
  chdir : List Char → List Char → Except Nat (List Char)
  fork : Nat → Option Nat
  waitpid : Nat → Bool

/-- How an iteration of the loop over the stages ends: `continue` or the end of the
body, `break`, or `exit(status)`. After the loop, `next` stands for the loop that
ran to its end. -/
inductive Step where
  | next
  | stop
  | exit (status : Nat)
  deriving DecidableEq, Repr

/-- `setenv(name, value, 1)`; a `NULL` value is undefined. -/
def setenv (env : List Char → Option (List Char)) (name : List Char)
    (value : Option (List Char)) : Except Fault (List Char → Option (List Char)) :=
  match value with
  | none => .error .nullDeref
  | some v => .ok (fun n => if n = name then some v else env n)

/-! ## `change_dir` (picoshell.c, lines 107-131) -/

/-- `ENOENT` of `<errno.h>` (Linux). -/
def ENOENT : Nat := 2

/-- `EACCES` of `<errno.h>` (Linux). -/
def EACCES : Nat := 13

/-- `ENOTDIR` of `<errno.h>` (Linux). -/
def ENOTDIR : Nat := 20

/-- The `switch (errno)` of lines 116-128: the text printed when `chdir` fails. -/
def cd_message (errno : Nat) (dir : List Char) : List Char :=
  if errno = ENOTDIR then "cd: not a directory: ".toList ++ dir ++ ['\n']
  else if errno = ENOENT then "cd: no such file or directory: ".toList ++ dir ++ ['\n']
  else if errno = EACCES then "cd: permission denied: ".toList ++ dir ++ ['\n']
  else "cd: error ".toList ++ (Nat.repr errno).toList ++ " occurred: ".toList ++ dir ++ ['\n']

/-- `change_dir(dir)`. -/
def change_dir (os : OS) (dir : List Char) (w : World) : Except Fault World :=
  let newpwd := os.realpath w.cwd dir
  let oldpwd := w.env "PWD".toList
  match os.chdir w.cwd dir with
  | .ok cwd => do
    let env ← setenv w.env "OLDPWD".toList oldpwd
    let env ← setenv env "PWD".toList newpwd
    .ok { w with env := env, cwd := cwd }
  | .error errno => .ok { w with log := w.log ++ [.print (cd_message errno dir)] }

/-! ## `execute_input` (picoshell.c, lines 133-262) -/

/-- Lines 150-155: the array `pipefds` after the calls `pipe(pipefds + n_pipe * 2)`
for `n_pipe`, `n_pipe + 1`, ..., `fuel` of them; `pipe` stores the read end, then
the write end. The calls are taken to succeed. -/
def setup_pipes_from : Nat → Nat → List (Option Fd) → List (Option Fd)
  | 0, _, pipefds => pipefds
  | fuel + 1, n_pipe, pipefds =>
    setup_pipes_from fuel (n_pipe + 1)
      ((pipefds.set (n_pipe * 2) (some ⟨n_pipe, .read⟩)).set (n_pipe * 2 + 1)
        (some ⟨n_pipe, .write⟩))

/-- The array `pipefds` of `2 * n_pipes` descriptors after the loop of lines 153-155;
`none` is a cell that was not written. -/
def setup_pipes (n_pipes : Nat) : List (Option Fd) :=
  setup_pipes_from n_pipes 0 (List.replicate (2 * n_pipes) none)

/-- Lines 199-201: the slot of `pipefds` the child of the stage `n_command`
duplicates onto its standard input, if any. -/
def child_stdin (n_command : Nat) : Option Nat :=
  if n_command ≠ 0 then some (2 * n_command - 2) else none

/-- Lines 203-205: the slot of `pipefds` the child of the stage `n_command`
duplicates onto its standard output, if any (`len` is at least 1). -/
def child_stdout (len n_command : Nat) : Option Nat :=
  if n_command + 1 ≠ len then some (2 * n_command + 1) else none

/-- A cell of the array `tokens` the child builds for `execve`: never written,
`NULL`, or a pointer to the buffer of a token. -/
inductive Arg where
  | unwritten
  | null
  | buffer (cells : List (Option Char))
  deriving DecidableEq, Repr

/-- The iterations `i`, `i + 1`, ... of the loop of lines 215-222, `n` of them. -/
def build_argv_from (command : Command) : Nat → Nat → List Arg → Except Fault (List Arg)
  | 0, _, tokens => .ok tokens
  | n + 1, i, tokens => do
    match (← get_slot command (i : Int)) with
    | some token => build_argv_from command n (i + 1) (tokens.set i (.buffer token.buffer))
    | none => .ok (tokens.set i .null)

/-- Lines 213-222: the array of `len + 1` pointers built for `execve`. -/
def build_argv (command : Command) : Except Fault (List Arg) :=
  build_argv_from command (command.len + 1) 0 (List.replicate (command.len + 1) .unwritten)

/-- The strings `execve` finds in `argv`: those before the first `NULL` cell. -/
def execve_argv : List Arg → Except Fault (List (List Char))
  | [] => .error .outOfBounds
  | .unwritten :: _ => .error .uninitialized
  | .null :: _ => .ok []
  | .buffer cells :: rest => do
    let s ← read_cells cells
    let ss ← execve_argv rest
    .ok (s :: ss)

/-- The argument vector the program of a stage receives. -/
def child_argv (command : Command) : Except Fault (List (List Char)) := do
  let tokens ← build_argv command
  execve_argv tokens

/-- Lines 242-247: the descriptors the parent closes after the fork of the stage
`n_command`. -/
def parent_closes (len n_command : Nat) : List Event :=
  (if n_command + 1 < len then [Event.close (2 * n_command + 1)] else []) ++
    (if n_command ≠ 0 then [Event.close (2 * n_command - 2)] else [])

/-- The body of the loop over the stages (lines 159-256) for the stage
`n_command`. The command is read in `parsed_input`; the substitution changes only
this command, which no other stage reads. -/
def execute_stage (os : OS) (parsed_input : ParsedInput) (n_command : Nat) (w : World) :
    Except Fault (World × Step) := do
  let command ← get_command parsed_input n_command
  let command ← resolve_env_variables w.env command
  let first ← get_token command 0
  let name ← read_str first.buffer 0
  if name = "exit".toList then .ok (w, .exit 0)
  else if name = "cd".toList then
    if command.len = 2 then do
      let arg ← get_token command 1
      let dir ← read_str arg.buffer 0
      let w ← change_dir os dir w
      .ok (w, .next)
    else .ok (w, .next)
  else if name = "pwd".toList then
    match w.env "PWD".toList with
    | none => .error .nullDeref
    | some pwd => .ok ({ w with log := w.log ++ [.print (pwd ++ ['\n'])] }, .next)
  else do
    let resolved ← resolve_path w.env (os.realpath w.cwd) (os.access w.cwd) name
    match resolved with
    | none =>
      let text := "psh: no such file or directory ".toList ++ name ++ ['\n']
      .ok ({ w with log := w.log ++ [.print text] }, .stop)
    | some path =>
      match os.fork n_command with
      | none => .ok ({ w with log := w.log ++ [.perror "fork".toList] }, .exit 1)
      | some pid =>
        let child := Event.fork pid path (child_stdin n_command)
          (child_stdout parsed_input.len n_command) (child_argv command)
        let log := w.log ++ [child] ++ parent_closes parsed_input.len n_command
        if os.waitpid pid then .ok ({ w with log := log ++ [.wait pid] }, .next)
        else .ok ({ w with log := log ++ [.perror "waitpid".toList] }, .exit 1)

/-- The loop `for (n_command = ...; n_command < parsed_input->len; n_command++)`
of lines 158-257, `fuel` being the number of iterations left. -/
def execute_stages (os : OS) (parsed_input : ParsedInput) :
    Nat → Nat → World → Except Fault (World × Step)
  | 0, _, w => .ok (w, .next)
  | fuel + 1, n_command, w => do
    let (w, step) ← execute_stage os parsed_input n_command w
    match step with
    | .next => execute_stages os parsed_input fuel (n_command + 1) w
    | .stop => .ok (w, .stop)
    | .exit status => .ok (w, .exit status)

/-- `execute_input(input)` after `parse_input`: the pipes are created, then the
stages are run in order. -/
def execute_parsed (os : OS) (parsed_input : ParsedInput) (w : World) :
    Except Fault (World × Step) :=
  let n_pipes := parsed_input.len - 1
  let w := { w with log := w.log ++ (List.range n_pipes).map Event.pipe }
  execute_stages os parsed_input parsed_input.len 0 w

/-- `execute_input(input)`, `input` being the bytes of the line buffer. The result
`exit status` is the end of the interpreter; otherwise the function returns. The
log holds what `execute_input` itself does, not the message `parse_input` prints
when it rejects two adjacent pipes. -/
def execute_input (os : OS) (input : List Char) (w : World) : Except Fault (World × Step) :=
  match input with
  | [] => .error .outOfBounds
  | c :: _ =>
    if c = NUL then .ok (w, .next)
    else do
      match (← parse_input input) with
      | none => .ok (w, .next)
      | some parsed_input => execute_parsed os parsed_input w

/-! ## Reading the sentinels of a result -/

/-- The position of the sentinel of a command: the index of the first `NULL` cell
of `tokens`, `none` when no cell is `NULL`. -/
def Command.sentinel (command : Command) : Option Nat :=
  if command.tokens.indexOf none < command.tokens.length then
    some (command.tokens.indexOf none)
  else none

/-- For each stage of a parse result, its recorded length and the position of its
sentinel: `none` unless a pipeline was returned. -/
def stage_sentinels (r : Except Fault (Option ParsedInput)) :
    Option (List (Nat × Option Nat)) :=
  match r with
  | .ok (some p) => some ((p.commands.take p.len).map (fun c => (c.len, c.sentinel)))
  | _ => none

/-! ## Examples of environments -/

/-- An environment with `HOME`, `PATH` and `PWD`, and a variable `BIG` whose value
has 100 characters, the initial capacity of a token. -/
def example_env : List Char → Option (List Char) := fun name =>
  if name = "HOME".toList then some "/home/u".toList
  else if name = "PATH".toList then some "/usr/bin:/bin/".toList
  else if name = "PWD".toList then some "/home/u".toList
  else if name = "BIG".toList then some (List.replicate 100 'v')
  else none

/-- An operating system in which every path below `/bin/` exists, except
`/bin/zz`, no directory can be entered, and `fork` and `waitpid` succeed. -/
def example_os : OS :=
  { access := fun _ path => path.take 5 = "/bin/".toList && path != "/bin/zz".toList
    realpath := fun _ path => some path
    chdir := fun _ _ => .error ENOENT
    fork := fun n_command => some (100 + n_command)
    waitpid := fun _ => true }

/-- The process before a line is executed, with `example_env`. -/
def example_world : World := { env := example_env, cwd := "/home/u".toList, log := [] }

/-- The argument vectors of the children created, in order: `none` unless the
execution is defined. -/
def forked_argvs (r : Except Fault (World × Step)) :
    Option (List (Except Fault (List (List Char)))) :=
  match r with
  | .ok (w, _) =>
    some (w.log.filterMap (fun e =>
      match e with
      | .fork _ _ _ _ argv => some argv
      | _ => none))
  | .error _ => none

/-! ## Quotes and pipes of a line

The two notions below are those of the specification of the parser, stated on the
text of a line: a double quote opens a quotation when none is open and closes the
open one otherwise; `quoted` tells whether the text begins inside a quotation. -/

/-- Whether the text has two adjacent pipe characters outside double quotes: a
pipe outside quotes with a pipe right after it. -/
def adjacent_pipes_outside_quotes (quoted : Bool) : List Char → Bool
  | [] => false
  | c :: cs =>
    if c = '"' then adjacent_pipes_outside_quotes (!quoted) cs
    else if c = '|' ∧ quoted = false ∧ cs.head? = some '|' then true
    else adjacent_pipes_outside_quotes quoted cs

/-- The number of pipe characters of the text that lie outside double quotes. -/
def pipes_outside_quotes (quoted : Bool) : List Char → Nat
  | [] => 0
  | c :: cs =>
    if c = '"' then pipes_outside_quotes (!quoted) cs
    else if c = '|' ∧ quoted = false then pipes_outside_quotes quoted cs + 1
    else pipes_outside_quotes quoted cs

/-- The number of stages the word-level state has closed (the value of
`n_command`). -/
def Scan.closed_stages : Scan → Nat
  | .inWord done _ _ => done.length
  | .inQuoted done _ _ => done.length
  | .white done _ => done.length
  | .pipe done => done.length

/-- Whether the word-level state is the one reached right after a pipe (`PIPE`). -/
def Scan.after_pipe : Scan → Bool
  | .pipe _ => true
  | _ => false

/-! ## Reading the log of a run -/

/-- The slots of `pipefds` the parent has closed, in the order of the calls of
`close`. -/
def closed_slots (log : List Event) : List Nat :=
  log.filterMap (fun e =>
    match e with
    | .close slot => some slot
    | _ => none)

/-- Whether every `close` of the log comes after the creation of a child that
duplicates the closed slot onto its standard input or output; `used` are the slots
of the children created before the log begins. -/
def closes_follow_forks : List Nat → List Event → Bool
  | _, [] => true
  | used, e :: es =>
    match e with
    | .fork _ _ stdin stdout _ =>
      closes_follow_forks (stdin.toList ++ stdout.toList ++ used) es
    | .close slot => decide (slot ∈ used) && closes_follow_forks used es
    | _ => closes_follow_forks used es

/-! ## Lists -/

theorem getElem?_append_cons {α : Type} (xs : List α) (y : α) (zs : List α) :
    (xs ++ y :: zs)[xs.length]? = some y := by
  induction xs with
  | nil => simp
  | cons x xs ih => simpa using ih

theorem set_append_cons {α : Type} (xs : List α) (y y' : α) (zs : List α) :
    (xs ++ y :: zs).set xs.length y' = xs ++ y' :: zs := by
  induction xs with
  | nil => rfl
  | cons x xs ih => simp [ih]

theorem realloc_grow {α : Type} (xs : List α) (n : Nat) (fill : α) (h : xs.length ≤ n) :
    realloc xs n fill = xs ++ List.replicate (n - xs.length) fill := by
  unfold realloc
  rw [List.take_of_length_le h]

theorem eq_nil_or_snoc {α : Type} (xs : List α) : xs = [] ∨ ∃ ys y, xs = ys ++ [y] := by
  rcases List.eq_nil_or_concat xs with h | ⟨ys, y, h⟩
  · exact Or.inl h
  · exact Or.inr ⟨ys, y, by rw [h, List.concat_eq_append]⟩

/-! ## Token buffers -/

theorem cells_str_close (w : List Char) : ∀ (cells : List (Option Char)),
    cells.take w.length = w.map some → NUL ∉ w → w.length < cells.length →
    cells_str (cells.set w.length (some NUL)) = some w := by
  induction w with
  | nil =>
    intro cells _ _ hlen
    cases cells with
    | nil => simp at hlen
    | cons c cs => simp [cells_str]
  | cons a w ih =>
    intro cells htake hnul hlen
    cases cells with
    | nil => simp at hlen
    | cons c cs =>
      simp only [List.length_cons, List.take_succ_cons, List.map_cons, List.cons.injEq] at htake
      obtain ⟨hc, htake⟩ := htake
      simp only [List.mem_cons, not_or] at hnul
      simp only [List.length_cons, Nat.add_lt_add_iff_right] at hlen
      subst hc
      have ha : a ≠ NUL := fun h => hnul.1 h.symm
      simp [cells_str, ha, ih cs htake hnul.2 hlen]

theorem take_set_snoc (w : List Char) (c : Char) : ∀ (cells : List (Option Char)),
    cells.take w.length = w.map some → w.length < cells.length →
    (cells.set w.length (some c)).take (w.length + 1) = (w ++ [c]).map some := by
  induction w with
  | nil =>
    intro cells _ hlen
    cases cells with
    | nil => simp at hlen
    | cons x xs => simp
  | cons a w ih =>
    intro cells htake hlen
    cases cells with
    | nil => simp at hlen
    | cons x xs =>
      simp only [List.length_cons, List.take_succ_cons, List.map_cons, List.cons.injEq] at htake
      simp only [List.length_cons, Nat.add_lt_add_iff_right] at hlen
      simp [htake.1, ih xs htake.2 hlen]

theorem cells_str_append (extra : List (Option Char)) : ∀ (cells : List (Option Char))
    (w : List Char), cells_str cells = some w → cells_str (cells ++ extra) = some w := by
  intro cells
  induction cells with
  | nil => intro w h; simp [cells_str] at h
  | cons x xs ih =>
    intro w h
    cases x with
    | none => simp [cells_str] at h
    | some c =>
      by_cases hc : c = NUL
      · simpa [cells_str, hc] using h
      · simp only [cells_str, hc, if_false, Option.map_eq_some'] at h
        obtain ⟨v, hv, rfl⟩ := h
        simp [cells_str, hc, ih v hv]

theorem cells_str_no_nul : ∀ (cells : List (Option Char)) (w : List Char),
    cells_str cells = some w → NUL ∉ w := by
  intro cells
  induction cells with
  | nil => intro w h; simp [cells_str] at h
  | cons x xs ih =>
    intro w h
    cases x with
    | none => simp [cells_str] at h
    | some c =>
      by_cases hc : c = NUL
      · simp [cells_str, hc] at h; subst h; simp
      · simp only [cells_str, hc, if_false, Option.map_eq_some'] at h
        obtain ⟨v, hv, rfl⟩ := h
        simp only [List.mem_cons, not_or]
        exact ⟨fun h => hc h.symm, ih v hv⟩

/-! ## Accesses in a pipeline of known shape -/

theorem get_command_mk (cs : List Command) (c : Command) (k : Nat) :
    get_command (mk_input cs c k) cs.length = .ok c := by
  simp only [get_command, mk_input, getElem?_append_cons]

theorem set_command_mk (cs : List Command) (c c' : Command) (k : Nat) :
    set_command (mk_input cs c k) cs.length c' = mk_input cs c' k := by
  simp [set_command, mk_input, set_append_cons]

theorem cur_command_succ (ts : List Token) (m : Nat) :
    cur_command ts (m + 1) = cur_command (ts ++ [new_token]) m := by
  simp [cur_command, List.replicate_succ]
  omega

theorem get_token_cur (ts : List Token) (t : Token) (m : Nat) :
    get_token (cur_command (ts ++ [t]) m) (ts.length : Int) = .ok t := by
  have h : (List.map some ts ++ some t :: List.replicate m (some new_token))[ts.length]?
      = some (some t) := by
    simpa using getElem?_append_cons (ts.map some) (some t) (List.replicate m (some new_token))
  have h0 : ¬ ((ts.length : Int) < 0) := by omega
  simp only [get_token, get_slot, cur_command, List.map_append, List.map_cons, List.map_nil,
    List.append_assoc, List.singleton_append, Int.toNat_ofNat, h, h0, if_false, bind, Except.bind]

theorem set_slot_cur (ts : List Token) (t t' : Token) (m : Nat) :
    set_slot (cur_command (ts ++ [t]) m) (ts.length : Int) (some t')
      = cur_command (ts ++ [t']) m := by
  have h := set_append_cons (ts.map some) (some t) (some t') (List.replicate m (some new_token))
  simp only [List.length_map] at h
  simp [set_slot, cur_command, h]

theorem close_cur (ts : List Token) (m : Nat) :
    { set_slot (cur_command ts (m + 1)) (ts.length : Int) none with len := ts.length }
      = closed_command ts m := by
  have h := set_append_cons (ts.map some) (some new_token) none (List.replicate m (some new_token))
  simp only [List.length_map] at h
  simp [set_slot, cur_command, closed_command, List.replicate_succ, h]
  omega

theorem write_char_mk (cs : List Command) (k : Nat) (ts : List Token) (t : Token) (m n : Nat)
    (c : Char) (h : n < t.buffer.length) :
    write_char (mk_input cs (cur_command (ts ++ [t]) m) k) cs.length (ts.length : Int) n c
      = .ok (mk_input cs (cur_command (ts ++ [{ t with buffer := t.buffer.set n (some c) }]) m) k) := by
  simp [write_char, get_command_mk, get_token_cur, set_command_mk, set_slot_cur, h, bind,
    Except.bind]

theorem close_command_mk (cs : List Command) (k : Nat) (ts : List Token) (m : Nat) :
    close_command (mk_input cs (cur_command ts (m + 1)) k) cs.length ((ts.length : Int) - 1)
      = .ok (mk_input cs (closed_command ts m) k) := by
  have h1 : get_token (cur_command ts (m + 1)) (ts.length : Int) = .ok new_token := by
    rw [cur_command_succ]; exact get_token_cur ts new_token m
  simp [close_command, get_command_mk, h1, set_command_mk, close_cur, bind, Except.bind]

theorem mk_input_next (cs : List Command) (c : Command) (k : Nat) :
    mk_input cs c (k + 1) = mk_input (cs ++ [c]) (cur_command [] 10) k := by
  simp [mk_input, List.replicate_succ, cur_command, new_command]
  omega

/-! ## The capacity checks -/

theorem resize_parsed_input_mk (cs : List Command) (c : Command) :
    resize_parsed_input (mk_input cs c 0) (2 * (cs.length + 1 + 0)) = mk_input cs c (cs.length + 1) := by
  have h : (cs ++ [c]).length ≤ 2 * (cs.length + 1 + 0) := by
    simp only [List.length_append, List.length_cons, List.length_nil]; omega
  have h2 : 2 * (cs.length + 1 + 0) - (cs ++ [c]).length = cs.length + 1 := by
    simp only [List.length_append, List.length_cons, List.length_nil]; omega
  simp only [resize_parsed_input, mk_input, List.replicate_zero, realloc_grow _ _ _ h, h2]
  simp
  omega

theorem grow_commands_mk (cs : List Command) (k : Nat) (ts : List Token) (m : Nat)
    (st : ParserState) (n : Nat) :
    grow_commands (mk_loop cs k ts m st n)
      = mk_loop cs (if k = 0 then cs.length + 1 else k) ts m st n := by
  by_cases hk : k = 0
  · subst hk
    have := resize_parsed_input_mk cs (cur_command ts m)
    simp only [grow_commands, mk_loop, if_true]
    simp only [mk_input, if_true, this]
    simpa [mk_input] using this
  · have h : ¬ (cs.length + 1 = cs.length + 1 + k) := by omega
    simp [grow_commands, mk_loop, mk_input, hk, h]

theorem resize_command_cur (ts : List Token) :
    resize_command (cur_command ts 0) (2 * (cur_command ts 0).max_tokens)
      = cur_command ts ts.length := by
  have h : (ts.map some).length ≤ 2 * (ts.length + 0) := by
    simp only [List.length_map]; omega
  have h2 : 2 * (ts.length + 0) - (ts.map some).length = ts.length := by
    simp only [List.length_map]; omega
  simp only [resize_command, cur_command, List.replicate_zero, List.append_nil,
    realloc_grow _ _ _ h, h2]
  simp
  omega

theorem grow_tokens_mk (cs : List Command) (k : Nat) (ts : List Token) (m : Nat)
    (st : ParserState) (n : Nat) :
    grow_tokens (mk_loop cs k ts m st n)
      = .ok (mk_loop cs k ts (if m = 0 then ts.length else m) st n) := by
  by_cases hm : m = 0
  · subst hm
    have h : (ts.length : Int) - 1 + 1 = ((cur_command ts 0).max_tokens : Int) := by
      simp [cur_command]
    simp only [grow_tokens, mk_loop, get_command_mk, h, if_true, bind, Except.bind,
      set_command_mk, resize_command_cur]
  · have h : ¬ ((ts.length : Int) - 1 + 1 = ((cur_command ts m).max_tokens : Int)) := by
      simp [cur_command]; omega
    simp only [grow_tokens, mk_loop, get_command_mk, h, hm, if_false, bind, Except.bind]

theorem grow_token_nil (cs : List Command) (k m : Nat) (st : ParserState) (n : Nat) :
    grow_token (mk_loop cs k [] m st n) = .ok (mk_loop cs k [] m st n) := by
  simp [grow_token, mk_loop]

theorem grow_token_snoc (cs : List Command) (k : Nat) (ts : List Token) (t : Token) (m : Nat)
    (st : ParserState) (n : Nat) :
    grow_token (mk_loop cs k (ts ++ [t]) m st n)
      = .ok (mk_loop cs k
          (ts ++ [if n + 1 = t.max_len then resize_token t (2 * t.max_len) else t]) m st n) := by
  have h0 : ((ts ++ [t]).length : Int) - 1 = (ts.length : Int) := by simp
  have h1 : (ts.length : Int) > -1 := by omega
  by_cases hn : n + 1 = t.max_len
  · simp only [grow_token, mk_loop, h0, h1, if_true, get_command_mk, get_token_cur, hn,
      set_slot_cur, set_command_mk, bind, Except.bind]
    simp
  · simp only [grow_token, mk_loop, h0, h1, if_true, get_command_mk, get_token_cur, hn,
      if_false, bind, Except.bind]

theorem grow_nil (cs : List Command) (k m : Nat) (st : ParserState) (n : Nat) (hm : 0 < m) :
    ∃ k', grow (mk_loop cs k [] m st n) = .ok (mk_loop cs (k' + 1) [] m st n) := by
  refine ⟨(if k = 0 then cs.length + 1 else k) - 1, ?_⟩
  have hk : (if k = 0 then cs.length + 1 else k) - 1 + 1 = (if k = 0 then cs.length + 1 else k) := by
    split <;> omega
  have hm' : (if m = 0 then ([] : List Token).length else m) = m := by
    rw [if_neg]; omega
  simp only [grow, grow_commands_mk, grow_tokens_mk, hm', hk, bind, Except.bind, grow_token_nil]

theorem grow_snoc (cs : List Command) (k : Nat) (ts : List Token) (t : Token) (m : Nat)
    (st : ParserState) (n : Nat) :
    ∃ k' m', grow (mk_loop cs k (ts ++ [t]) m st n)
      = .ok (mk_loop cs (k' + 1)
          (ts ++ [if n + 1 = t.max_len then resize_token t (2 * t.max_len) else t])
          (m' + 1) st n) := by
  refine ⟨(if k = 0 then cs.length + 1 else k) - 1,
    (if m = 0 then (ts ++ [t]).length else m) - 1, ?_⟩
  have hk : (if k = 0 then cs.length + 1 else k) - 1 + 1 = (if k = 0 then cs.length + 1 else k) := by
    split <;> omega
  have hm : (if m = 0 then (ts ++ [t]).length else m) - 1 + 1
      = (if m = 0 then (ts ++ [t]).length else m) := by
    split
    · simp
    · omega
  simp only [grow, grow_commands_mk, grow_tokens_mk, hm, hk, bind, Except.bind, grow_token_snoc]

/-! ## Tokens under resizing and writing -/

theorem new_token_opened : new_token.opened [] 0 := by
  simp [Token.opened, new_token]

theorem opened_grow (t : Token) (w : List Char) (n : Nat) (h : t.opened w n) :
    (if n + 1 = t.max_len then resize_token t (2 * t.max_len) else t).opened w n ∧
    n + 1 < (if n + 1 = t.max_len then resize_token t (2 * t.max_len) else t).max_len := by
  obtain ⟨hlen, hn, htake, hlt, hnul⟩ := h
  by_cases hc : n + 1 = t.max_len
  · have hle : t.buffer.length ≤ 2 * t.max_len := by omega
    have hnle : n ≤ t.buffer.length := by omega
    simp only [hc, if_true, Token.opened, resize_token, realloc_grow _ _ _ hle]
    refine ⟨⟨?_, hn, ?_, by omega, hnul⟩, by omega⟩
    · simp only [List.length_append, List.length_replicate]; omega
    · rw [List.take_append_of_le_length hnle]; exact htake
  · simp only [hc, if_false]
    exact ⟨⟨hlen, hn, htake, hlt, hnul⟩, by omega⟩

theorem holds_grow (t : Token) (w : List Char) (n : Nat) (h : t.holds w) :
    (if n + 1 = t.max_len then resize_token t (2 * t.max_len) else t).holds w := by
  obtain ⟨hlen, hstr⟩ := h
  by_cases hc : n + 1 = t.max_len
  · have hle : t.buffer.length ≤ 2 * t.max_len := by omega
    simp only [hc, if_true, Token.holds, Token.str, resize_token, realloc_grow _ _ _ hle]
    refine ⟨?_, cells_str_append _ _ _ hstr⟩
    simp only [List.length_append, List.length_replicate]; omega
  · simp only [hc, if_false]
    exact ⟨hlen, hstr⟩

theorem opened_write (t : Token) (w : List Char) (n : Nat) (c : Char) (h : t.opened w n)
    (hn : n + 1 < t.max_len) (hc : c ≠ NUL) :
    Token.opened { t with buffer := t.buffer.set n (some c) } (w ++ [c]) (n + 1) := by
  obtain ⟨hlen, hw, htake, _, hnul⟩ := h
  subst hw
  refine ⟨by simpa using hlen, by simp, ?_, hn, ?_⟩
  · exact take_set_snoc w c t.buffer htake (by omega)
  · simp only [List.mem_append, List.mem_singleton, not_or]
    exact ⟨hnul, fun h => hc h.symm⟩

theorem opened_close (t : Token) (w : List Char) (n : Nat) (h : t.opened w n) :
    Token.holds { t with buffer := t.buffer.set n (some NUL) } w := by
  obtain ⟨hlen, hw, htake, hlt, hnul⟩ := h
  subst hw
  exact ⟨by simpa using hlen, cells_str_close w t.buffer htake hnul (by omega)⟩

theorem opened_lt (t : Token) (w : List Char) (n : Nat) (h : t.opened w n) :
    n < t.buffer.length := by
  obtain ⟨hlen, _, _, hlt, _⟩ := h
  omega

theorem new_token_write (c : Char) (hc : c ≠ NUL) :
    Token.opened { new_token with buffer := new_token.buffer.set 0 (some c) } [c] 1 := by
  have := opened_write new_token [] 0 c new_token_opened (by simp [new_token]) hc
  simpa using this

theorem forall₂_snoc {α β : Type} (R : α → β → Prop) (xs : List α) (ys : List β) (x : α) (y : β)
    (h : List.Forall₂ R xs ys) (hxy : R x y) : List.Forall₂ R (xs ++ [x]) (ys ++ [y]) := by
  induction h with
  | nil => exact List.Forall₂.cons hxy List.Forall₂.nil
  | cons h1 _ ih => exact List.Forall₂.cons h1 ih

/-! ## Writes in the loop state -/

theorem write_char_cur (cs : List Command) (k : Nat) (ts : List Token) (t : Token) (m n : Nat)
    (c : Char) (h : n < t.buffer.length) :
    write_char (mk_input cs (cur_command (ts ++ [t]) m) k) cs.length
        (((ts ++ [t]).length : Int) - 1) n c
      = .ok (mk_input cs (cur_command (ts ++ [{ t with buffer := t.buffer.set n (some c) }]) m) k) := by
  have h0 : ((ts ++ [t]).length : Int) - 1 = (ts.length : Int) := by simp
  rw [h0]
  exact write_char_mk cs k ts t m n c h

theorem write_char_new (cs : List Command) (k : Nat) (ts : List Token) (m : Nat) (c : Char) :
    write_char (mk_input cs (cur_command ts (m + 1)) k) cs.length ((ts.length : Int) - 1 + 1) 0 c
      = .ok (mk_input cs
          (cur_command (ts ++ [{ new_token with buffer := new_token.buffer.set 0 (some c) }]) m) k) := by
  have h0 : (ts.length : Int) - 1 + 1 = (ts.length : Int) := by omega
  rw [h0, cur_command_succ]
  exact write_char_mk cs k ts new_token m 0 c (by simp [new_token])

theorem mk_loop_next (cs : List Command) (c : Command) (k : Nat) (st : ParserState) (n : Nat) :
    ({ parsed_input := mk_input cs c (k + 1), next_state := st, n_command := cs.length + 1,
       n_token := -1, n_token_char := n } : Loop)
      = { parsed_input := mk_input (cs ++ [c]) (cur_command [] 10) k, next_state := st,
          n_command := (cs ++ [c]).length, n_token := (([] : List Token).length : Int) - 1,
          n_token_char := n } := by
  rw [mk_input_next]; simp

/-! ## The transitions on a state of known shape -/

theorem transition_inWord_space (cs : List Command) (k : Nat) (ts : List Token) (t : Token)
    (m n : Nat) (h : n < t.buffer.length) :
    transition (mk_loop cs k (ts ++ [t]) m .IN_WORD n) ' '
      = .ok (some (mk_loop cs k (ts ++ [{ t with buffer := t.buffer.set n (some NUL) }]) m
          .WHITESPACE n)) := by
  simp only [transition, mk_loop, if_true, write_char_cur _ _ _ _ _ _ _ h, bind, Except.bind]
  simp

theorem transition_inWord_pipe (cs : List Command) (k : Nat) (ts : List Token) (t : Token)
    (m n : Nat) (h : n < t.buffer.length) :
    transition (mk_loop cs (k + 1) (ts ++ [t]) (m + 1) .IN_WORD n) '|'
      = .ok (some (mk_loop
          (cs ++ [closed_command (ts ++ [{ t with buffer := t.buffer.set n (some NUL) }]) m])
          k [] 10 .PIPE n)) := by
  have hne : ¬ ('|' = ' ') := by decide
  have hlen : ((ts ++ [t]).length : Int)
      = ((ts ++ [{ t with buffer := t.buffer.set n (some NUL) }]).length : Int) := by simp
  simp only [transition, mk_loop, hne, if_true, if_false, write_char_cur _ _ _ _ _ _ _ h,
    bind, Except.bind]
  rw [hlen, close_command_mk]
  simp only [mk_loop_next]

theorem transition_inWord_quote (cs : List Command) (k : Nat) (ts : List Token) (m n : Nat) :
    transition (mk_loop cs k ts m .IN_WORD n) '"'
      = .ok (some (mk_loop cs k ts m .IN_WORD_QUOTED n)) := by
  have h1 : ¬ ('"' = ' ') := by decide
  have h2 : ¬ ('"' = '|') := by decide
  simp only [transition, mk_loop, h1, h2, if_true, if_false]

theorem transition_inWord_nul (cs : List Command) (k : Nat) (ts : List Token) (t : Token)
    (m n : Nat) (h : n < t.buffer.length) :
    transition (mk_loop cs k (ts ++ [t]) (m + 1) .IN_WORD n) NUL
      = .ok (some { mk_loop cs k (ts ++ [t]) (m + 1) .IN_WORD n with
          parsed_input := mk_input cs
            (closed_command (ts ++ [{ t with buffer := t.buffer.set n (some NUL) }]) m) k }) := by
  have h1 : ¬ (NUL = ' ') := by decide
  have h2 : ¬ (NUL = '|') := by decide
  have h3 : ¬ (NUL = '"') := by decide
  have hlen : ((ts ++ [t]).length : Int)
      = ((ts ++ [{ t with buffer := t.buffer.set n (some NUL) }]).length : Int) := by simp
  simp only [transition, mk_loop, h1, h2, h3, if_true, if_false,
    write_char_cur _ _ _ _ _ _ _ h, bind, Except.bind]
  rw [hlen, close_command_mk]

theorem transition_inWord_other (cs : List Command) (k : Nat) (ts : List Token) (t : Token)
    (m n : Nat) (c : Char) (h : n < t.buffer.length)
    (h1 : c ≠ ' ') (h2 : c ≠ '|') (h3 : c ≠ '"') (h4 : c ≠ NUL) :
    transition (mk_loop cs k (ts ++ [t]) m .IN_WORD n) c
      = .ok (some (mk_loop cs k (ts ++ [{ t with buffer := t.buffer.set n (some c) }]) m
          .IN_WORD (n + 1))) := by
  simp only [transition, mk_loop, h1, h2, h3, h4, if_false, write_char_cur _ _ _ _ _ _ _ h,
    bind, Except.bind]
  simp

theorem transition_inQuoted_quote (cs : List Command) (k : Nat) (ts : List Token) (m n : Nat) :
    transition (mk_loop cs k ts m .IN_WORD_QUOTED n) '"'
      = .ok (some (mk_loop cs k ts m .IN_WORD n)) := by
  simp only [transition, mk_loop, if_true]

theorem transition_inQuoted_nul (s : Loop) (h : s.next_state = .IN_WORD_QUOTED) :
    transition s NUL = .ok none := by
  have h1 : ¬ (NUL = '"') := by decide
  simp only [transition, h, h1, if_true, if_false]

theorem transition_inQuoted_other (cs : List Command) (k : Nat) (ts : List Token) (t : Token)
    (m n : Nat) (c : Char) (h : n < t.buffer.length) (h3 : c ≠ '"') (h4 : c ≠ NUL) :
    transition (mk_loop cs k (ts ++ [t]) m .IN_WORD_QUOTED n) c
      = .ok (some (mk_loop cs k (ts ++ [{ t with buffer := t.buffer.set n (some c) }]) m
          .IN_WORD_QUOTED (n + 1))) := by
  simp only [transition, mk_loop, h3, h4, if_false, write_char_cur _ _ _ _ _ _ _ h,
    bind, Except.bind]
  simp

theorem transition_white_space (s : Loop) (h : s.next_state = .WHITESPACE) :
    transition s ' ' = .ok (some s) := by
  simp only [transition, h, if_true]

theorem transition_white_pipe (cs : List Command) (k : Nat) (ts : List Token) (m n : Nat) :
    transition (mk_loop cs (k + 1) ts (m + 1) .WHITESPACE n) '|'
      = .ok (some (mk_loop (cs ++ [closed_command ts m]) k [] 10 .PIPE n)) := by
  have hne : ¬ ('|' = ' ') := by decide
  simp only [transition, mk_loop, hne, if_true, if_false, close_command_mk, bind, Except.bind,
    mk_loop_next]

theorem transition_white_quote (cs : List Command) (k : Nat) (ts : List Token) (m n : Nat) :
    transition (mk_loop cs k ts (m + 1) .WHITESPACE n) '"'
      = .ok (some (mk_loop cs k (ts ++ [new_token]) m .IN_WORD_QUOTED 0)) := by
  have h1 : ¬ ('"' = ' ') := by decide
  have h2 : ¬ ('"' = '|') := by decide
  simp only [transition, mk_loop, h1, h2, if_true, if_false, cur_command_succ]
  simp

theorem transition_white_other (cs : List Command) (k : Nat) (ts : List Token) (m n : Nat)
    (c : Char) (h1 : c ≠ ' ') (h2 : c ≠ '|') (h3 : c ≠ '"') :
    transition (mk_loop cs k ts (m + 1) .WHITESPACE n) c
      = .ok (some (mk_loop cs k
          (ts ++ [{ new_token with buffer := new_token.buffer.set 0 (some c) }]) m .IN_WORD 1)) := by
  simp only [transition, mk_loop, h1, h2, h3, if_false, write_char_new, bind, Except.bind]
  simp

theorem transition_pipe_space (cs : List Command) (k : Nat) (ts : List Token) (m n : Nat) :
    transition (mk_loop cs k ts m .PIPE n) ' '
      = .ok (some (mk_loop cs k ts m .WHITESPACE n)) := by
  simp only [transition, mk_loop, if_true]

theorem transition_pipe_pipe (s : Loop) (h : s.next_state = .PIPE) :
    transition s '|' = .ok none := by
  have hne : ¬ ('|' = ' ') := by decide
  simp only [transition, h, hne, if_true, if_false]

theorem transition_pipe_quote (cs : List Command) (k : Nat) (ts : List Token) (m n : Nat) :
    transition (mk_loop cs k ts (m + 1) .PIPE n) '"'
      = .ok (some (mk_loop cs k (ts ++ [new_token]) m .IN_WORD_QUOTED 0)) := by
  have h1 : ¬ ('"' = ' ') := by decide
  have h2 : ¬ ('"' = '|') := by decide
  simp only [transition, mk_loop, h1, h2, if_true, if_false, cur_command_succ]
  simp

theorem transition_pipe_other (cs : List Command) (k : Nat) (ts : List Token) (m n : Nat)
    (c : Char) (h1 : c ≠ ' ') (h2 : c ≠ '|') (h3 : c ≠ '"') :
    transition (mk_loop cs k ts (m + 1) .PIPE n) c
      = .ok (some (mk_loop cs k
          (ts ++ [{ new_token with buffer := new_token.buffer.set 0 (some c) }]) m .IN_WORD 1)) := by
  simp only [transition, mk_loop, h1, h2, h3, if_false, write_char_new, bind, Except.bind]
  simp

/-! ## Simulation -/

theorem step_eq (s s1 : Loop) (c : Char) (h : grow s = .ok s1) :
    step s c = transition s1 c := by
  simp only [step, h, bind, Except.bind]

theorem closed_of_holds (ts : List Token) (m : Nat) (stage : List (List Char))
    (h : List.Forall₂ Token.holds ts stage) : (closed_command ts m).closed stage :=
  ⟨ts, m, rfl, h⟩

theorem forall₂_snoc_left {α β : Type} (R : α → β → Prop) (x : α) : ∀ (xs : List α)
    (ys : List β), List.Forall₂ R (xs ++ [x]) ys →
    ∃ ys0 y, ys = ys0 ++ [y] ∧ List.Forall₂ R xs ys0 ∧ R x y := by
  intro xs
  induction xs with
  | nil =>
    intro ys h
    cases h with
    | cons hxy hnil =>
      cases hnil
      exact ⟨[], _, rfl, List.Forall₂.nil, hxy⟩
  | cons a xs ih =>
    intro ys h
    cases h with
    | cons hab htl =>
      obtain ⟨ys0, y, rfl, h0, hxy⟩ := ih _ htl
      exact ⟨_ :: ys0, y, rfl, List.Forall₂.cons hab h0, hxy⟩

/-- Every iteration on a character other than the terminator is matched by a step of
the word-level automaton. -/
theorem step_sim (s : Loop) (a : Scan) (c : Char) (h : Rep s a) (hc : c ≠ NUL) :
    match a.step c with
    | none => step s c = .ok none
    | some a' => ∃ s', step s c = .ok (some s') ∧ Rep s' a' := by
  cases a with
  | inWord done ws w =>
    obtain ⟨cs, k, ts, t, m, n, rfl, hcs, hts, ht⟩ := h
    obtain ⟨k', m', hg⟩ := grow_snoc cs k ts t m .IN_WORD n
    obtain ⟨ht', hn'⟩ := opened_grow t w n ht
    have hlt := opened_lt _ _ _ ht'
    rw [step_eq _ _ _ hg]
    by_cases h1 : c = ' '
    · subst h1
      simp only [Scan.step, if_true]
      exact ⟨_, transition_inWord_space _ _ _ _ _ _ hlt, _, _, _, _, _, rfl, by simp,
        hcs, forall₂_snoc _ _ _ _ _ hts (opened_close _ _ _ ht')⟩
    by_cases h2 : c = '|'
    · subst h2
      simp only [Scan.step, h1, if_true, if_false]
      refine ⟨_, transition_inWord_pipe _ _ _ _ _ _ hlt, _, _, _, _, rfl, by decide, ?_⟩
      exact forall₂_snoc _ _ _ _ _ hcs
        (closed_of_holds _ _ _ (forall₂_snoc _ _ _ _ _ hts (opened_close _ _ _ ht')))
    by_cases h3 : c = '"'
    · subst h3
      simp only [Scan.step, h1, h2, if_true, if_false]
      exact ⟨_, transition_inWord_quote _ _ _ _ _, _, _, _, _, _, _, rfl, hcs, hts, ht'⟩
    · simp only [Scan.step, h1, h2, h3, if_false]
      exact ⟨_, transition_inWord_other _ _ _ _ _ _ _ hlt h1 h2 h3 hc, _, _, _, _, _, _, rfl,
        hcs, hts, opened_write _ _ _ _ ht' hn' hc⟩
  | inQuoted done ws w =>
    obtain ⟨cs, k, ts, t, m, n, rfl, hcs, hts, ht⟩ := h
    obtain ⟨k', m', hg⟩ := grow_snoc cs k ts t m .IN_WORD_QUOTED n
    obtain ⟨ht', hn'⟩ := opened_grow t w n ht
    have hlt := opened_lt _ _ _ ht'
    rw [step_eq _ _ _ hg]
    by_cases h3 : c = '"'
    · subst h3
      simp only [Scan.step, if_true]
      exact ⟨_, transition_inQuoted_quote _ _ _ _ _, _, _, _, _, _, _, rfl, hcs, hts, ht'⟩
    · simp only [Scan.step, h3, if_false]
      exact ⟨_, transition_inQuoted_other _ _ _ _ _ _ _ hlt h3 hc, _, _, _, _, _, _, rfl,
        hcs, hts, opened_write _ _ _ _ ht' hn' hc⟩
  | white done ws =>
    obtain ⟨cs, k, ts, m, n, rfl, hm, hcs, hts⟩ := h
    have hg : ∃ k' ts' m', grow (mk_loop cs k ts m .WHITESPACE n)
        = .ok (mk_loop cs (k' + 1) ts' (m' + 1) .WHITESPACE n) ∧
        List.Forall₂ Token.holds ts' ws := by
      rcases eq_nil_or_snoc ts with rfl | ⟨ts0, t, rfl⟩
      · obtain ⟨k', hg⟩ := grow_nil cs k m .WHITESPACE n (by simpa using hm)
        obtain ⟨m', rfl⟩ : ∃ m', m = m' + 1 := ⟨m - 1, by simp at hm; omega⟩
        exact ⟨k', [], m', hg, hts⟩
      · obtain ⟨k', m', hg⟩ := grow_snoc cs k ts0 t m .WHITESPACE n
        refine ⟨k', _, m', hg, ?_⟩
        obtain ⟨ws0, w0, rfl, h0, hx⟩ := forall₂_snoc_left _ _ _ _ hts
        exact forall₂_snoc _ _ _ _ _ h0 (holds_grow _ _ n hx)
    obtain ⟨k', ts', m', hg, hts'⟩ := hg
    rw [step_eq _ _ _ hg]
    by_cases h1 : c = ' '
    · subst h1
      simp only [Scan.step, if_true]
      exact ⟨_, transition_white_space _ rfl, _, _, _, _, _, rfl, by omega, hcs, hts'⟩
    by_cases h2 : c = '|'
    · subst h2
      simp only [Scan.step, h1, if_true, if_false]
      exact ⟨_, transition_white_pipe _ _ _ _ _, _, _, _, _, rfl, by decide,
        forall₂_snoc _ _ _ _ _ hcs (closed_of_holds _ _ _ hts')⟩
    by_cases h3 : c = '"'
    · subst h3
      simp only [Scan.step, h1, h2, if_true, if_false]
      exact ⟨_, transition_white_quote _ _ _ _ _, _, _, _, _, _, _, rfl, hcs, hts',
        new_token_opened⟩
    · simp only [Scan.step, h1, h2, h3, if_false]
      exact ⟨_, transition_white_other _ _ _ _ _ _ h1 h2 h3, _, _, _, _, _, _, rfl, hcs, hts',
        new_token_write c hc⟩
  | pipe done =>
    obtain ⟨cs, k, m, n, rfl, hm, hcs⟩ := h
    obtain ⟨k', hg⟩ := grow_nil cs k m .PIPE n hm
    obtain ⟨m', rfl⟩ : ∃ m', m = m' + 1 := ⟨m - 1, by omega⟩
    rw [step_eq _ _ _ hg]
    by_cases h1 : c = ' '
    · subst h1
      simp only [Scan.step, if_true]
      exact ⟨_, transition_pipe_space _ _ _ _ _, _, _, _, _, _, rfl, by simp, hcs,
        List.Forall₂.nil⟩
    by_cases h2 : c = '|'
    · subst h2
      simp only [Scan.step, h1, if_true, if_false]
      exact transition_pipe_pipe _ rfl
    by_cases h3 : c = '"'
    · subst h3
      simp only [Scan.step, h1, h2, if_true, if_false]
      exact ⟨_, transition_pipe_quote _ _ _ _ _, _, _, _, _, _, _, rfl, hcs, List.Forall₂.nil,
        new_token_opened⟩
    · simp only [Scan.step, h1, h2, h3, if_false]
      exact ⟨_, transition_pipe_other _ _ _ _ _ _ h1 h2 h3, _, _, _, _, _, _, rfl, hcs,
        List.Forall₂.nil, new_token_write c hc⟩

theorem run_sim (input rest : List Char) (hnul : NUL ∉ input) : ∀ (s : Loop) (a : Scan),
    Rep s a →
    match a.run input with
    | none => run s (input ++ rest) = .ok none
    | some a' => ∃ s', Rep s' a' ∧ run s (input ++ rest) = run s' rest := by
  induction input with
  | nil => intro s a h; exact ⟨s, h, rfl⟩
  | cons c cs ih =>
    intro s a h
    simp only [List.mem_cons, not_or] at hnul
    have hc : c ≠ NUL := fun e => hnul.1 e.symm
    have hstep := step_sim s a c h hc
    simp only [Scan.run, List.cons_append, run]
    cases hs : a.step c with
    | none =>
      rw [hs] at hstep
      simp only [hstep, Option.bind, bind, Except.bind]
    | some a' =>
      rw [hs] at hstep
      obtain ⟨s', hs', hrep⟩ := hstep
      have := ih hnul.2 s' a' hrep
      simp only [hs', Option.bind, bind, Except.bind]
      exact this

/-! ## Reading the result -/

theorem collect_holds (ts : List Token) (ws : List (List Char))
    (h : List.Forall₂ Token.holds ts ws) :
    collect (ts.map Token.str) = some ws := by
  induction h with
  | nil => rfl
  | cons hx _ ih => simp [collect, hx.2, ih]

theorem words_closed (c : Command) (stage : List (List Char)) (h : c.closed stage) :
    c.words = some stage := by
  obtain ⟨ts, m, rfl, hts⟩ := h
  have hlen : ts.length ≤ (closed_command ts m).tokens.length := by
    simp [closed_command]
  have htake : (closed_command ts m).tokens.take ts.length = ts.map some := by
    have : ts.length = (ts.map some).length := by simp
    simp only [closed_command]
    rw [this, List.take_left']
    rfl
  simp only [Command.words]
  rw [if_pos (by simp [closed_command])]
  simp only [closed_command] at htake ⊢
  rw [htake, List.map_map]
  exact collect_holds ts stage hts

theorem words_cur (ts : List Token) (m : Nat) : (cur_command ts m).words = some [] := by
  simp [Command.words, cur_command, collect]

theorem collect_closed (cs : List Command) (done : List (List (List Char)))
    (h : List.Forall₂ Command.closed cs done) (c : Command) (st : List (List Char))
    (hc : c.words = some st) :
    collect ((cs ++ [c]).map Command.words) = some (done ++ [st]) := by
  induction h with
  | nil => simp [collect, hc]
  | cons hx _ ih =>
    simp only [List.cons_append, List.map_cons, words_closed _ _ hx, collect, ih]
    rfl

theorem stages_mk (cs : List Command) (done : List (List (List Char)))
    (h : List.Forall₂ Command.closed cs done) (c : Command) (st : List (List Char))
    (hc : c.words = some st) (k : Nat) :
    ParsedInput.stages { mk_input cs c k with len := cs.length + 1 } = some (done ++ [st]) := by
  have htake : (cs ++ c :: List.replicate k new_command).take (cs.length + 1) = cs ++ [c] := by
    have : cs.length + 1 = (cs ++ [c]).length := by simp
    rw [this, show cs ++ c :: List.replicate k new_command
      = (cs ++ [c]) ++ List.replicate k new_command by simp, List.take_left']
    rfl
  simp only [ParsedInput.stages, mk_input]
  rw [if_pos (by simp), htake]
  exact collect_closed cs done h c st hc

/-- The shape of the pipeline `parse_trimmed` returns on a non-empty string, by
the word-level state reached at the end of the string. -/
theorem parse_trimmed_shape (input : List Char) (hne : input ≠ []) (hnul : NUL ∉ input) :
    match Scan.run (.inWord [] [] []) input with
    | none => parse_trimmed input = .ok none
    | some (.inQuoted _ _ _) => parse_trimmed input = .ok none
    | some (.inWord done ws w) => ∃ cs ts m k,
        parse_trimmed input
          = .ok (some { mk_input cs (closed_command ts m) k with len := cs.length + 1 }) ∧
        List.Forall₂ Command.closed cs done ∧ List.Forall₂ Token.holds ts (ws ++ [w])
    | some (.white done _) => ∃ cs ts t m k,
        parse_trimmed input
          = .ok (some { mk_input cs (cur_command (ts ++ [t]) m) k with len := cs.length + 1 }) ∧
        List.Forall₂ Command.closed cs done
    | some (.pipe done) => ∃ cs t m k,
        parse_trimmed input
          = .ok (some { mk_input cs (cur_command [t] m) k with len := cs.length + 1 }) ∧
        List.Forall₂ Command.closed cs done := by
  have hlen : ¬ (input.length = 0) := by
    intro h; exact hne (List.length_eq_zero.mp h)
  have h0 : Rep
      { parsed_input := new_parsed_input, next_state := .IN_WORD,
        n_command := 0, n_token := 0, n_token_char := 0 }
      (.inWord [] [] []) := by
    refine ⟨[], 9, [], new_token, 9, 0, ?_, List.Forall₂.nil, List.Forall₂.nil, new_token_opened⟩
    simp [mk_loop, mk_input, cur_command, new_parsed_input, new_command, List.replicate_succ]
  have hrun := run_sim input [NUL] hnul _ _ h0
  simp only [parse_trimmed, hlen, if_false]
  cases ha : Scan.run (.inWord [] [] []) input with
  | none =>
    rw [ha] at hrun
    simp only [hrun, bind, Except.bind]
  | some a =>
    rw [ha] at hrun
    obtain ⟨s, hrep, hrun⟩ := hrun
    simp only [hrun, run]
    cases a with
    | inQuoted done ws w =>
      obtain ⟨cs, k, ts, t, m, n, rfl, hcs, hts, ht⟩ := hrep
      obtain ⟨k', m', hg⟩ := grow_snoc cs k ts t m .IN_WORD_QUOTED n
      rw [step_eq _ _ _ hg, transition_inQuoted_nul _ rfl]
      rfl
    | inWord done ws w =>
      obtain ⟨cs, k, ts, t, m, n, rfl, hcs, hts, ht⟩ := hrep
      obtain ⟨k', m', hg⟩ := grow_snoc cs k ts t m .IN_WORD n
      obtain ⟨ht', _⟩ := opened_grow t w n ht
      rw [step_eq _ _ _ hg, transition_inWord_nul _ _ _ _ _ _ (opened_lt _ _ _ ht')]
      exact ⟨cs, _, m', k' + 1, rfl, hcs, forall₂_snoc _ _ _ _ _ hts (opened_close _ _ _ ht')⟩
    | white done ws =>
      obtain ⟨cs, k, ts, m, n, rfl, hm, hcs, hts⟩ := hrep
      have hg : ∃ k' ts' m', grow (mk_loop cs k ts m .WHITESPACE n)
          = .ok (mk_loop cs k' ts' (m' + 1) .WHITESPACE n) := by
        rcases eq_nil_or_snoc ts with rfl | ⟨ts0, t, rfl⟩
        · obtain ⟨k', hg⟩ := grow_nil cs k m .WHITESPACE n (by simpa using hm)
          obtain ⟨m', rfl⟩ : ∃ m', m = m' + 1 := ⟨m - 1, by simp at hm; omega⟩
          exact ⟨_, [], m', hg⟩
        · obtain ⟨k', m', hg⟩ := grow_snoc cs k ts0 t m .WHITESPACE n
          exact ⟨_, _, m', hg⟩
      obtain ⟨k', ts', m', hg⟩ := hg
      rw [step_eq _ _ _ hg, transition_white_other _ _ _ _ _ NUL (by decide) (by decide)
        (by decide)]
      exact ⟨cs, ts', _, m', k', rfl, hcs⟩
    | pipe done =>
      obtain ⟨cs, k, m, n, rfl, hm, hcs⟩ := hrep
      obtain ⟨k', hg⟩ := grow_nil cs k m .PIPE n hm
      obtain ⟨m', rfl⟩ : ∃ m', m = m' + 1 := ⟨m - 1, by omega⟩
      rw [step_eq _ _ _ hg, transition_pipe_other _ _ _ _ _ NUL (by decide) (by decide)
        (by decide)]
      exact ⟨cs, _, m', k' + 1, rfl, hcs⟩

/-- On a non-empty string without terminator inside, `parse_trimmed` never faults:
it returns `NULL` exactly when the word-level reading fails, and otherwise a
pipeline whose stages are those of the word-level reading. -/
theorem parse_trimmed_refines (input : List Char) (hne : input ≠ []) (hnul : NUL ∉ input) :
    (split_line input = none ∧ parse_trimmed input = .ok none) ∨
    ∃ p r, split_line input = some r ∧ parse_trimmed input = .ok (some p) ∧
      p.stages = some r ∧ p.len = r.length := by
  have h := parse_trimmed_shape input hne hnul
  unfold split_line
  cases ha : Scan.run (.inWord [] [] []) input with
  | none =>
    rw [ha] at h
    exact Or.inl ⟨rfl, h⟩
  | some a =>
    rw [ha] at h
    cases a with
    | inQuoted done ws w => exact Or.inl ⟨rfl, h⟩
    | inWord done ws w =>
      obtain ⟨cs, ts, m, k, hp, hcs, hts⟩ := h
      refine Or.inr ⟨_, _, rfl, hp, stages_mk cs done hcs _ _
        (words_closed _ _ (closed_of_holds ts m _ hts)) k, ?_⟩
      simp [hcs.length_eq]
    | white done ws =>
      obtain ⟨cs, ts, t, m, k, hp, hcs⟩ := h
      refine Or.inr ⟨_, _, rfl, hp, stages_mk cs done hcs _ _ (words_cur _ _) k, ?_⟩
      simp [hcs.length_eq]
    | pipe done =>
      obtain ⟨cs, t, m, k, hp, hcs⟩ := h
      refine Or.inr ⟨_, _, rfl, hp, stages_mk cs done hcs _ _ (words_cur _ _) k, ?_⟩
      simp [hcs.length_eq]

/-! ## `trim` -/

theorem isspace_nul : isspace NUL = false := by decide

theorem ne_nul_of_isspace (c : Char) (h : isspace c = true) : c ≠ NUL := by
  intro e; rw [e, isspace_nul] at h; exact Bool.noConfusion h

theorem left_trim_loop_spaces (pre : List Char) (hpre : ∀ c ∈ pre, isspace c = true) :
    ∀ (tl : List Char) (ptr : Nat),
      left_trim_loop (pre ++ tl) ptr = left_trim_loop tl (ptr + pre.length) := by
  induction pre with
  | nil => intro tl ptr; rfl
  | cons c cs ih =>
    intro tl ptr
    have hc : isspace c = true := hpre c (List.mem_cons_self _ _)
    have hn : c ≠ NUL := ne_nul_of_isspace c hc
    have ih' := ih (fun x hx => hpre x (List.mem_cons_of_mem _ hx)) tl (ptr + 1)
    have hlen : ptr + 1 + cs.length = ptr + (c :: cs).length := by
      simp only [List.length_cons]; omega
    simp [left_trim_loop, hc, hn, ih', hlen]

theorem left_trim_loop_stop (a : Char) (tl : List Char) (ptr : Nat) (ha : isspace a = false) :
    left_trim_loop (a :: tl) ptr = .ok ptr := by
  simp [left_trim_loop, ha]

theorem strlen_from_append (xs : List Char) (hx : NUL ∉ xs) (tl : List Char) :
    strlen_from (xs ++ NUL :: tl) = .ok xs.length := by
  induction xs with
  | nil => simp [strlen_from]
  | cons c cs ih =>
    simp only [List.mem_cons, not_or] at hx
    have hc : c ≠ NUL := fun e => hx.1 e.symm
    simp [strlen_from, hc, ih hx.2, Except.map]

theorem right_trim_loop_skip (buf : List Char) (lo : Nat) : ∀ (k : Nat),
    (∀ i, lo ≤ i → i < lo + k → ∃ c, buf[i]? = some c ∧ isspace c = true) →
    right_trim_loop buf (lo + k) = right_trim_loop buf lo := by
  intro k
  induction k with
  | zero => intro _; rfl
  | succ k ih =>
    intro h
    obtain ⟨c, hc, hsp⟩ := h (lo + k) (by omega) (by omega)
    have : lo + (k + 1) = (lo + k) + 1 := by omega
    rw [this]
    simp only [right_trim_loop, hc, hsp, if_true]
    exact ih (fun i h1 h2 => h i h1 (by omega))

theorem getElem?_mid (xs post tl : List Char) (i : Nat) (h1 : xs.length ≤ i)
    (h2 : i < xs.length + post.length) :
    ∃ c, (xs ++ post ++ tl)[i]? = some c ∧ c ∈ post := by
  have hi : i - xs.length < post.length := by omega
  refine ⟨post[i - xs.length], ?_, List.getElem_mem _⟩
  rw [List.append_assoc, List.getElem?_append_right h1, List.getElem?_append_left hi,
    List.getElem?_eq_getElem hi]

theorem right_trim_loop_spaces (xs post tl : List Char) (hpost : ∀ c ∈ post, isspace c = true) :
    right_trim_loop (xs ++ post ++ tl) (xs.length + post.length)
      = right_trim_loop (xs ++ post ++ tl) xs.length := by
  apply right_trim_loop_skip
  intro i h1 h2
  obtain ⟨c, hc, hmem⟩ := getElem?_mid xs post tl i h1 h2
  exact ⟨c, hc, hpost c hmem⟩

theorem right_trim_loop_stop (init : List Char) (b : Char) (tl : List Char)
    (hb : isspace b = false) :
    right_trim_loop (init ++ b :: tl) (init.length + 1) = .ok init.length := by
  simp only [right_trim_loop, getElem?_append_cons, hb]
  rfl

/-- On a buffer that holds only `isspace` characters before its terminator, `trim`
reads the byte before the buffer. -/
theorem trim_spaces (s : List Char) (hs : ∀ c ∈ s, isspace c = true) (tl : List Char) :
    trim (s ++ NUL :: tl) = .error .outOfBounds := by
  have h1 : left_trim (s ++ NUL :: tl) 0 = .ok s.length := by
    simp only [left_trim, List.drop_zero]
    rw [left_trim_loop_spaces s hs, left_trim_loop_stop _ _ _ isspace_nul]
    simp
  have h2 : strlen (s ++ NUL :: tl) s.length = .ok 0 := by
    simp [strlen, strlen_from]
  have h3 : right_trim_loop (s ++ NUL :: tl) (s.length + 0) = .error .outOfBounds := by
    have := right_trim_loop_spaces [] s (NUL :: tl) hs
    simp only [List.nil_append, List.length_nil, Nat.zero_add] at this
    rw [Nat.add_zero, this]
    rfl
  simp only [trim, h1, right_trim, h2, h3, bind, Except.bind]

/-- On a buffer `pre ++ core ++ post ++ '\0' :: tl`, where `pre` and `post` are
`isspace` characters and `core` begins and ends with another character, `trim`
returns the pointer to `core` and writes one terminator, right after `core`. -/
theorem trim_core (pre core post tl : List Char)
    (hpre : ∀ c ∈ pre, isspace c = true) (hpost : ∀ c ∈ post, isspace c = true)
    (hnul : NUL ∉ core)
    (a : Char) (core' : List Char) (hhead : core = a :: core') (ha : isspace a = false)
    (init : List Char) (b : Char) (hlast : core = init ++ [b]) (hb : isspace b = false) :
    trim (pre ++ core ++ post ++ NUL :: tl)
      = .ok (pre ++ core ++ NUL :: (post ++ NUL :: tl).tail, pre.length) := by
  have hnulpost : NUL ∉ post := fun h => by
    have := hpost NUL h; rw [isspace_nul] at this; exact Bool.noConfusion this
  have h1 : left_trim (pre ++ core ++ post ++ NUL :: tl) 0 = .ok pre.length := by
    simp only [left_trim, List.drop_zero, List.append_assoc]
    rw [left_trim_loop_spaces pre hpre, hhead]
    simp only [List.cons_append, left_trim_loop_stop _ _ _ ha]
    simp
  have h2 : strlen (pre ++ core ++ post ++ NUL :: tl) pre.length
      = .ok (core ++ post).length := by
    simp only [strlen, List.append_assoc, List.drop_left]
    rw [← List.append_assoc]
    exact strlen_from_append (core ++ post)
      (by simp only [List.mem_append, not_or]; exact ⟨hnul, hnulpost⟩) tl
  have h3 : right_trim_loop (pre ++ core ++ post ++ NUL :: tl) (pre.length + (core ++ post).length)
      = .ok (pre.length + init.length) := by
    have e1 : pre.length + (core ++ post).length = (pre ++ core).length + post.length := by
      simp only [List.length_append]; omega
    have e2 : pre ++ core ++ post ++ NUL :: tl = (pre ++ core) ++ post ++ (NUL :: tl) := rfl
    rw [e1, e2, right_trim_loop_spaces (pre ++ core) post (NUL :: tl) hpost, hlast]
    have e3 : pre ++ (init ++ [b]) ++ post ++ NUL :: tl
        = (pre ++ init) ++ b :: (post ++ NUL :: tl) := by simp
    have e4 : (pre ++ (init ++ [b])).length = (pre ++ init).length + 1 := by
      simp only [List.length_append, List.length_cons, List.length_nil]; omega
    rw [e3, e4, right_trim_loop_stop _ _ _ hb]
    simp
  have h4 : pre.length + init.length + 1 < (pre ++ core ++ post ++ NUL :: tl).length := by
    rw [hlast]
    simp only [List.length_append, List.length_cons, List.length_nil]; omega
  have h5 : (pre ++ core ++ post ++ NUL :: tl).set (pre.length + init.length + 1) NUL
      = pre ++ core ++ NUL :: (post ++ NUL :: tl).tail := by
    have e : pre.length + init.length + 1 = (pre ++ core).length := by
      rw [hlast]; simp only [List.length_append, List.length_cons, List.length_nil]; omega
    rw [e]
    cases post with
    | nil =>
      simp only [List.append_nil, List.nil_append, List.tail_cons]
      exact set_append_cons (pre ++ core) NUL NUL tl
    | cons p ps =>
      simp only [List.cons_append, List.tail_cons]
      have := set_append_cons (pre ++ core) p NUL (ps ++ NUL :: tl)
      simp only [List.append_assoc] at this ⊢
      exact this
  simp only [trim, h1, right_trim, h2, h3, h4, h5, if_true, bind, Except.bind]

theorem c_str_core (pre core tl : List Char) (hnul : NUL ∉ core) :
    c_str (pre ++ core ++ NUL :: tl) pre.length = core := by
  simp only [c_str, List.append_assoc, List.drop_left]
  rw [List.takeWhile_append_of_pos]
  · simp [NUL]
  · intro c hc
    simp only [bne_iff_ne, ne_eq]
    intro e; subst e; exact hnul hc

theorem dropWhile_head_false {α : Type} (p : α → Bool) : ∀ (l : List α) (x : α) (xs : List α),
    l.dropWhile p = x :: xs → p x = false := by
  intro l
  induction l with
  | nil => intro x xs h; simp at h
  | cons y ys ih =>
    intro x xs h
    rw [List.dropWhile_cons] at h
    by_cases hy : p y = true
    · rw [if_pos hy] at h; exact ih x xs h
    · rw [if_neg hy] at h
      simp only [List.cons.injEq] at h
      rw [← h.1]; simpa using hy

theorem dropWhile_append_of_ne_nil {α : Type} (p : α → Bool) : ∀ (xs ys : List α),
    xs.dropWhile p ≠ [] → (xs ++ ys).dropWhile p = xs.dropWhile p ++ ys := by
  intro xs
  induction xs with
  | nil => intro ys h; simp at h
  | cons x xs ih =>
    intro ys h
    by_cases hx : p x = true
    · simp only [List.cons_append, List.dropWhile_cons, hx, if_true] at h ⊢
      exact ih ys h
    · simp [List.dropWhile_cons, hx]

/-- A line whose trimmed text is not empty is that text between two runs of
`isspace` characters; the text begins and ends with another character. -/
theorem trimmed_decomp (s : List Char) (h : trimmed s ≠ []) :
    ∃ pre post a core' init b, s = pre ++ trimmed s ++ post ∧
      (∀ c ∈ pre, isspace c = true) ∧ (∀ c ∈ post, isspace c = true) ∧
      trimmed s = a :: core' ∧ isspace a = false ∧
      trimmed s = init ++ [b] ∧ isspace b = false := by
  have hs : s.takeWhile isspace ++ s.dropWhile isspace = s := List.takeWhile_append_dropWhile _ _
  have hr : (s.dropWhile isspace).reverse.takeWhile isspace
      ++ (s.dropWhile isspace).reverse.dropWhile isspace = (s.dropWhile isspace).reverse :=
    List.takeWhile_append_dropWhile _ _
  have hd : ∃ post, post = ((s.dropWhile isspace).reverse.takeWhile isspace).reverse ∧
      s.dropWhile isspace = trimmed s ++ post := by
    have := congrArg List.reverse hr
    rw [List.reverse_append, List.reverse_reverse] at this
    exact ⟨_, rfl, this.symm⟩
  obtain ⟨post, hpost, hd⟩ := hd
  have he : (s.dropWhile isspace).reverse.dropWhile isspace ≠ [] := by
    intro e; apply h; unfold trimmed; rw [e]; rfl
  obtain ⟨b, e', hbe⟩ := List.exists_cons_of_ne_nil he
  have hb := dropWhile_head_false isspace _ b e' hbe
  obtain ⟨a, core', hac⟩ := List.exists_cons_of_ne_nil h
  have ha : isspace a = false := by
    apply dropWhile_head_false isspace s a (core' ++ post)
    rw [hd, hac]; rfl
  refine ⟨s.takeWhile isspace, post, a, core', e'.reverse, b, ?_, ?_, ?_, hac, ha, ?_, hb⟩
  · rw [List.append_assoc, ← hd, hs]
  · intro c hc; exact List.mem_takeWhile_imp hc
  · intro c hc; rw [hpost] at hc; exact List.mem_takeWhile_imp (List.mem_reverse.mp hc)
  · unfold trimmed; rw [hbe]; simp

theorem trimmed_not_mem (s : List Char) (c : Char) (h : c ∉ s) : c ∉ trimmed s := by
  intro hc
  apply h
  unfold trimmed at hc
  have h1 := (List.dropWhile_sublist isspace).subset (List.mem_reverse.mp hc)
  exact (List.dropWhile_sublist isspace).subset (List.mem_reverse.mp h1)

/-- On a line whose trimmed text is not empty, `parse_input` is `parse_trimmed` of
the trimmed text. -/
theorem parse_input_line (s : List Char) (hnul : NUL ∉ s) (hne : trimmed s ≠ []) :
    parse_input (line_buffer s) = parse_trimmed (trimmed s) := by
  obtain ⟨pre, post, a, core', init, b, hs, hpre, hpost, hhead, ha, hlast, hb⟩ :=
    trimmed_decomp s hne
  have hn : NUL ∉ trimmed s := trimmed_not_mem s NUL hnul
  have ht := trim_core pre (trimmed s) post [] hpre hpost hn a core' hhead ha init b hlast hb
  have hbuf : line_buffer s = pre ++ trimmed s ++ post ++ [NUL] := by
    unfold line_buffer; rw [← hs]
  rw [hbuf]
  simp only [parse_input, ht, bind, Except.bind, c_str_core _ _ _ hn]

/-- On a line of `isspace` characters only (the empty line included),
`parse_input` reads the byte before the buffer. -/
theorem parse_input_blank (s : List Char) (hs : ∀ c ∈ s, isspace c = true) :
    parse_input (line_buffer s) = .error .outOfBounds := by
  simp only [parse_input, line_buffer, trim_spaces s hs [], bind, Except.bind]

theorem trimmed_eq_nil_iff (s : List Char) : trimmed s = [] ↔ ∀ c ∈ s, isspace c = true := by
  unfold trimmed
  rw [List.reverse_eq_nil_iff, List.dropWhile_eq_nil_iff]
  constructor
  · intro h c hc
    by_contra hcs
    have hd : s.dropWhile isspace ≠ [] := by
      intro e
      exact hcs (List.dropWhile_eq_nil_iff.mp e c hc)
    obtain ⟨x, xs, hx⟩ := List.exists_cons_of_ne_nil hd
    have := h x (by rw [hx]; simp)
    rw [dropWhile_head_false isspace s x xs hx] at this
    exact Bool.noConfusion this
  · intro h c hc
    exact h c ((List.dropWhile_sublist isspace).subset (List.mem_reverse.mp hc))

theorem trimmed_pad (l s r : List Char) (hl : ∀ c ∈ l, isspace c = true)
    (hr : ∀ c ∈ r, isspace c = true) (hne : trimmed s ≠ []) :
    trimmed (l ++ s ++ r) = trimmed s := by
  have hd : s.dropWhile isspace ≠ [] := by
    intro e; apply hne; unfold trimmed; rw [e]; rfl
  unfold trimmed
  rw [List.append_assoc, List.dropWhile_append_of_pos hl,
    dropWhile_append_of_ne_nil isspace s r hd, List.reverse_append,
    List.dropWhile_append_of_pos (fun c hc => hr c (List.mem_reverse.mp hc))]

theorem trimmed_self (s : List Char) (a : Char) (s' : List Char) (hhead : s = a :: s')
    (ha : isspace a = false) (init : List Char) (b : Char) (hlast : s = init ++ [b])
    (hb : isspace b = false) : trimmed s = s := by
  have h1 : s.dropWhile isspace = s := by
    rw [hhead, List.dropWhile_cons, if_neg (by simp [ha])]
  unfold trimmed
  rw [h1, hlast, List.reverse_append]
  simp only [List.reverse_cons, List.reverse_nil, List.nil_append, List.singleton_append]
  rw [List.dropWhile_cons, if_neg (by simp [hb])]
  simp

/-! ## The word-level automaton on lines built from words -/

theorem Scan.run_append (xs ys : List Char) : ∀ (a : Scan),
    a.run (xs ++ ys) = (a.run xs).bind (fun a' => a'.run ys) := by
  induction xs with
  | nil => intro a; rfl
  | cons c cs ih =>
    intro a
    simp only [List.cons_append, Scan.run]
    cases a.step c with
    | none => rfl
    | some a' => exact ih a'

theorem plain_char_ne (c : Char) (h : plain_char c = true) :
    c ≠ ' ' ∧ c ≠ '|' ∧ c ≠ '"' ∧ c ≠ NUL ∧ isspace c = false := by
  simp only [plain_char, Bool.and_eq_true, Bool.not_eq_true', bne_iff_ne, ne_eq] at h
  obtain ⟨⟨⟨h1, h2⟩, h3⟩, h4⟩ := h
  refine ⟨?_, h2, h3, h4, h1⟩
  intro e; subst e
  exact absurd h1 (by decide)

theorem plain_word_spec (w : List Char) (h : plain_word w = true) :
    w ≠ [] ∧ ∀ c ∈ w, plain_char c = true := by
  simp only [plain_word, Bool.and_eq_true, Bool.not_eq_true', List.all_eq_true] at h
  refine ⟨?_, h.2⟩
  intro e; subst e
  exact absurd h.1 (by decide)

theorem run_inWord_plain (w : List Char) (hw : ∀ c ∈ w, plain_char c = true) :
    ∀ (done : List (List (List Char))) (ws : List (List Char)) (u : List Char),
      (Scan.inWord done ws u).run w = some (.inWord done ws (u ++ w)) := by
  induction w with
  | nil => intro done ws u; simp [Scan.run]
  | cons c cs ih =>
    intro done ws u
    obtain ⟨h1, h2, h3, _, _⟩ := plain_char_ne c (hw c (List.mem_cons_self _ _))
    simp only [Scan.run, Scan.step, h1, h2, h3, if_false, Option.bind]
    rw [ih (fun x hx => hw x (List.mem_cons_of_mem _ hx))]
    simp

theorem run_white_spaces (n : Nat) (done : List (List (List Char))) (ws : List (List Char)) :
    (Scan.white done ws).run (List.replicate n ' ') = some (.white done ws) := by
  induction n with
  | zero => rfl
  | succ n ih => simp only [List.replicate_succ, Scan.run, Scan.step, if_true, Option.bind, ih]

theorem run_inWord_spaces (n : Nat) (done : List (List (List Char))) (ws : List (List Char))
    (u : List Char) :
    (Scan.inWord done ws u).run (List.replicate (n + 1) ' ') = some (.white done (ws ++ [u])) := by
  simp only [List.replicate_succ, Scan.run, Scan.step, if_true, Option.bind, run_white_spaces]

theorem run_white_word (w : List Char) (hw : plain_word w = true)
    (done : List (List (List Char))) (ws : List (List Char)) :
    (Scan.white done ws).run w = some (.inWord done ws w) := by
  obtain ⟨hne, hall⟩ := plain_word_spec w hw
  obtain ⟨c, cs, rfl⟩ := List.exists_cons_of_ne_nil hne
  obtain ⟨h1, h2, h3, _, _⟩ := plain_char_ne c (hall c (List.mem_cons_self _ _))
  simp only [Scan.run, Scan.step, h1, h2, h3, if_false, Option.bind]
  rw [run_inWord_plain cs (fun x hx => hall x (List.mem_cons_of_mem _ hx))]
  rfl

theorem run_pipe_word (w : List Char) (hw : plain_word w = true)
    (done : List (List (List Char))) :
    (Scan.pipe done).run w = some (.inWord done [] w) := by
  obtain ⟨hne, hall⟩ := plain_word_spec w hw
  obtain ⟨c, cs, rfl⟩ := List.exists_cons_of_ne_nil hne
  obtain ⟨h1, h2, h3, _, _⟩ := plain_char_ne c (hall c (List.mem_cons_self _ _))
  simp only [Scan.run, Scan.step, h1, h2, h3, if_false, Option.bind]
  rw [run_inWord_plain cs (fun x hx => hall x (List.mem_cons_of_mem _ hx))]
  rfl

theorem run_spaced (rest : List (Nat × List Char)) :
    (∀ gw ∈ rest, plain_word gw.2 = true) →
    ∀ (done : List (List (List Char))) (ws : List (List Char)) (u : List Char),
      ∃ ws' u', (Scan.inWord done ws u).run (spaced rest) = some (.inWord done ws' u') ∧
        ws' ++ [u'] = ws ++ u :: rest.map Prod.snd := by
  induction rest with
  | nil => intro _ done ws u; exact ⟨ws, u, rfl, rfl⟩
  | cons gw rest ih =>
    intro h done ws u
    obtain ⟨g, w⟩ := gw
    have hw : plain_word w = true := h (g, w) (List.mem_cons_self _ _)
    obtain ⟨ws', u', hrun, heq⟩ :=
      ih (fun x hx => h x (List.mem_cons_of_mem _ hx)) done (ws ++ [u]) w
    refine ⟨ws', u', ?_, ?_⟩
    · simp only [spaced, List.append_assoc, Scan.run_append, run_inWord_spaces, Option.bind,
        run_white_word w hw, hrun]
    · simp [heq]

theorem run_ready_word (w : List Char) (hw : plain_word w = true)
    (done : List (List (List Char))) (a : Scan) (ha : a.ready done) :
    a.run w = some (.inWord done [] w) := by
  rcases ha with rfl | rfl | rfl
  · rw [run_inWord_plain w (plain_word_spec w hw).2]; rfl
  · exact run_pipe_word w hw done
  · exact run_white_word w hw done []

theorem run_stage (st : List Char × List (Nat × List Char))
    (h : ∀ w ∈ stage_words st, plain_word w = true)
    (done : List (List (List Char))) (a : Scan) (ha : a.ready done) :
    ∃ ws' u', a.run (stage_text st) = some (.inWord done ws' u') ∧
      ws' ++ [u'] = stage_words st := by
  obtain ⟨w, rest⟩ := st
  have hw : plain_word w = true := h w (by simp [stage_words])
  have hrest : ∀ gw ∈ rest, plain_word gw.2 = true := by
    intro gw hgw
    apply h
    simp only [stage_words, List.mem_cons, List.mem_map]
    exact Or.inr ⟨gw, hgw, rfl⟩
  obtain ⟨ws', u', hrun, heq⟩ := run_spaced rest hrest done [] w
  refine ⟨ws', u', ?_, by simpa [stage_words] using heq⟩
  simp only [stage_text, Scan.run_append, run_ready_word w hw done a ha, Option.bind, hrun]

theorem run_separator (a b : Nat) (done : List (List (List Char))) (ws : List (List Char))
    (u : List Char) :
    ∃ a', (Scan.inWord done ws u).run (List.replicate a ' ' ++ '|' :: List.replicate b ' ')
        = some a' ∧ a'.ready (done ++ [ws ++ [u]]) := by
  have hne : ¬ ('|' = ' ') := by decide
  have hafter : ∀ (d : List (List (List Char))),
      ∃ a', (Scan.pipe d).run (List.replicate b ' ') = some a' ∧ a'.ready d := by
    intro d
    cases b with
    | zero => exact ⟨_, rfl, Or.inr (Or.inl rfl)⟩
    | succ b =>
      refine ⟨.white d [], ?_, Or.inr (Or.inr rfl)⟩
      simp only [List.replicate_succ, Scan.run, Scan.step, if_true, Option.bind,
        run_white_spaces]
  obtain ⟨a', hrun, hready⟩ := hafter (done ++ [ws ++ [u]])
  refine ⟨a', ?_, hready⟩
  cases a with
  | zero =>
    simp only [List.replicate_zero, List.nil_append, Scan.run, Scan.step, hne, if_true,
      if_false, Option.bind, hrun]
  | succ a =>
    rw [Scan.run_append, run_inWord_spaces]
    simp only [Option.bind, Scan.run, Scan.step, hne, if_true, if_false, hrun]

/-- The word-level reading of a line built from plain words gives back the words. -/
theorem run_pipeline (a b : Nat) : ∀ (stages : List (List Char × List (Nat × List Char))),
    stages ≠ [] → (∀ st ∈ stages, ∀ w ∈ stage_words st, plain_word w = true) →
    ∀ (done : List (List (List Char))) (s : Scan), s.ready done →
      (s.run (pipeline_text a b stages)).bind Scan.finish
        = some (done ++ stages.map stage_words) := by
  intro stages
  induction stages with
  | nil => intro h; exact absurd rfl h
  | cons st rest ih =>
    intro _ hplain done s hs
    obtain ⟨ws', u', hrun, heq⟩ := run_stage st (hplain st (List.mem_cons_self _ _)) done s hs
    cases rest with
    | nil =>
      simp only [pipeline_text, List.map_cons, List.map_nil, join_with, hrun, Option.bind,
        Scan.finish, heq]
    | cons st2 rest2 =>
      obtain ⟨a', hsep, hready⟩ := run_separator a b done ws' u'
      have := ih (by simp) (fun x hx => hplain x (List.mem_cons_of_mem _ hx))
        (done ++ [ws' ++ [u']]) a' hready
      simp only [pipeline_text, List.map_cons, join_with] at this ⊢
      rw [List.append_assoc (stage_text st), Scan.run_append, hrun, Option.some_bind,
        Scan.run_append, hsep, Option.some_bind, this, heq]
      simp

theorem split_line_pipeline (a b : Nat) (stages : List (List Char × List (Nat × List Char)))
    (hne : stages ≠ []) (hplain : ∀ st ∈ stages, ∀ w ∈ stage_words st, plain_word w = true) :
    split_line (pipeline_text a b stages) = some (stages.map stage_words) := by
  have := run_pipeline a b stages hne hplain [] (.inWord [] [] []) (Or.inl rfl)
  simpa [split_line] using this

/-! ## The characters of a line built from words -/

theorem word_starts_plain (w : List Char) (hw : plain_word w = true) :
    ∃ a w', w = a :: w' ∧ isspace a = false := by
  obtain ⟨hne, hall⟩ := plain_word_spec w hw
  obtain ⟨a, w', rfl⟩ := List.exists_cons_of_ne_nil hne
  exact ⟨a, w', rfl, (plain_char_ne a (hall a (List.mem_cons_self _ _))).2.2.2.2⟩

theorem word_ends_plain (w : List Char) (hw : plain_word w = true) :
    ∃ init b, w = init ++ [b] ∧ isspace b = false := by
  obtain ⟨hne, hall⟩ := plain_word_spec w hw
  rcases eq_nil_or_snoc w with rfl | ⟨init, b, rfl⟩
  · exact absurd rfl hne
  · exact ⟨init, b, rfl, (plain_char_ne b (hall b (by simp))).2.2.2.2⟩

theorem ends_plain_append (xs ys : List Char)
    (h : ∃ init b, ys = init ++ [b] ∧ isspace b = false) :
    ∃ init b, xs ++ ys = init ++ [b] ∧ isspace b = false := by
  obtain ⟨init, b, rfl, hb⟩ := h
  exact ⟨xs ++ init, b, by simp, hb⟩

theorem spaced_ends_plain (rest : List (Nat × List Char)) (hne : rest ≠ [])
    (h : ∀ gw ∈ rest, plain_word gw.2 = true) :
    ∃ init b, spaced rest = init ++ [b] ∧ isspace b = false := by
  induction rest with
  | nil => exact absurd rfl hne
  | cons gw rest ih =>
    obtain ⟨g, w⟩ := gw
    cases rest with
    | nil =>
      simp only [spaced, List.append_nil]
      exact ends_plain_append _ _ (word_ends_plain w (h (g, w) (List.mem_cons_self _ _)))
    | cons gw2 rest2 =>
      simp only [spaced] at ih ⊢
      exact ends_plain_append _ _
        (ih (by simp) (fun x hx => h x (List.mem_cons_of_mem _ hx)))

theorem stage_starts_plain (st : List Char × List (Nat × List Char))
    (h : ∀ w ∈ stage_words st, plain_word w = true) :
    ∃ a l, stage_text st = a :: l ∧ isspace a = false := by
  obtain ⟨a, w', hw, ha⟩ := word_starts_plain st.1 (h st.1 (by simp [stage_words]))
  exact ⟨a, w' ++ spaced st.2, by simp [stage_text, hw], ha⟩

theorem stage_ends_plain (st : List Char × List (Nat × List Char))
    (h : ∀ w ∈ stage_words st, plain_word w = true) :
    ∃ init b, stage_text st = init ++ [b] ∧ isspace b = false := by
  obtain ⟨w, rest⟩ := st
  have hrest : ∀ gw ∈ rest, plain_word gw.2 = true := by
    intro gw hgw
    apply h
    simp only [stage_words, List.mem_cons, List.mem_map]
    exact Or.inr ⟨gw, hgw, rfl⟩
  cases rest with
  | nil =>
    simp only [stage_text, spaced, List.append_nil]
    exact word_ends_plain w (h w (by simp [stage_words]))
  | cons gw rest2 => exact ends_plain_append _ _ (spaced_ends_plain _ (by simp) hrest)

theorem join_with_starts (sep x : List Char) (xs : List (List Char)) :
    ∃ l, join_with sep (x :: xs) = x ++ l := by
  cases xs with
  | nil => exact ⟨[], by simp [join_with]⟩
  | cons y ys => exact ⟨sep ++ join_with sep (y :: ys), by simp [join_with]⟩

theorem join_with_ends_plain (sep : List Char) (xs : List (List Char)) (hne : xs ≠ [])
    (h : ∀ x ∈ xs, ∃ init b, x = init ++ [b] ∧ isspace b = false) :
    ∃ init b, join_with sep xs = init ++ [b] ∧ isspace b = false := by
  induction xs with
  | nil => exact absurd rfl hne
  | cons x xs ih =>
    cases xs with
    | nil => simpa [join_with] using h x (List.mem_cons_self _ _)
    | cons y ys =>
      simp only [join_with]
      exact ends_plain_append _ _ (ih (by simp) (fun z hz => h z (List.mem_cons_of_mem _ hz)))

theorem mem_spaced (rest : List (Nat × List Char)) (c : Char) (hc : c ∈ spaced rest) :
    c = ' ' ∨ ∃ gw ∈ rest, c ∈ gw.2 := by
  induction rest with
  | nil => simp [spaced] at hc
  | cons gw rest ih =>
    obtain ⟨g, w⟩ := gw
    simp only [spaced, List.mem_append] at hc
    rcases hc with (hc | hc) | hc
    · exact Or.inl (List.eq_of_mem_replicate hc)
    · exact Or.inr ⟨(g, w), List.mem_cons_self _ _, hc⟩
    · rcases ih hc with h | ⟨gw, hgw, hcw⟩
      · exact Or.inl h
      · exact Or.inr ⟨gw, List.mem_cons_of_mem _ hgw, hcw⟩

theorem mem_join_with (sep : List Char) (xs : List (List Char)) (c : Char)
    (hc : c ∈ join_with sep xs) : c ∈ sep ∨ ∃ x ∈ xs, c ∈ x := by
  induction xs with
  | nil => simp [join_with] at hc
  | cons x xs ih =>
    cases xs with
    | nil => exact Or.inr ⟨x, List.mem_cons_self _ _, by simpa [join_with] using hc⟩
    | cons y ys =>
      simp only [join_with, List.mem_append] at hc
      rcases hc with (hc | hc) | hc
      · exact Or.inr ⟨x, List.mem_cons_self _ _, hc⟩
      · exact Or.inl hc
      · rcases ih hc with h | ⟨z, hz, hcz⟩
        · exact Or.inl h
        · exact Or.inr ⟨z, List.mem_cons_of_mem _ hz, hcz⟩

theorem mem_stage_text (st : List Char × List (Nat × List Char)) (c : Char)
    (hc : c ∈ stage_text st) : c = ' ' ∨ ∃ w ∈ stage_words st, c ∈ w := by
  simp only [stage_text, List.mem_append] at hc
  rcases hc with hc | hc
  · exact Or.inr ⟨st.1, by simp [stage_words], hc⟩
  · rcases mem_spaced _ _ hc with h | ⟨gw, hgw, hcw⟩
    · exact Or.inl h
    · refine Or.inr ⟨gw.2, ?_, hcw⟩
      simp only [stage_words, List.mem_cons, List.mem_map]
      exact Or.inr ⟨gw, hgw, rfl⟩

theorem mem_pipeline_text (a b : Nat) (stages : List (List Char × List (Nat × List Char)))
    (hplain : ∀ st ∈ stages, ∀ w ∈ stage_words st, plain_word w = true) (c : Char)
    (hc : c ∈ pipeline_text a b stages) : c = ' ' ∨ c = '|' ∨ plain_char c = true := by
  rcases mem_join_with _ _ _ hc with h | ⟨x, hx, hcx⟩
  · simp only [List.mem_append, List.mem_cons] at h
    rcases h with h | h | h
    · exact Or.inl (List.eq_of_mem_replicate h)
    · exact Or.inr (Or.inl h)
    · exact Or.inl (List.eq_of_mem_replicate h)
  · obtain ⟨st, hst, rfl⟩ := List.mem_map.mp hx
    rcases mem_stage_text st c hcx with h | ⟨w, hw, hcw⟩
    · exact Or.inl h
    · exact Or.inr (Or.inr ((plain_word_spec w (hplain st hst w hw)).2 c hcw))

/-- A line built from plain words is parsed into these words, whatever the
number of spaces around the pipes. -/
theorem parse_pipeline (a b : Nat) (stages : List (List Char × List (Nat × List Char)))
    (hne : stages ≠ []) (hplain : ∀ st ∈ stages, ∀ w ∈ stage_words st, plain_word w = true) :
    ∃ p, parse_input (line_buffer (pipeline_text a b stages)) = .ok (some p) ∧
      p.stages = some (stages.map stage_words) ∧ p.len = stages.length := by
  obtain ⟨st, rest, rfl⟩ := List.exists_cons_of_ne_nil hne
  have hnul : NUL ∉ pipeline_text a b (st :: rest) := by
    intro h
    rcases mem_pipeline_text a b _ hplain NUL h with h | h | h
    · exact absurd h (by decide)
    · exact absurd h (by decide)
    · exact absurd h (by decide)
  obtain ⟨c, l, hcl, hc⟩ := stage_starts_plain st (hplain st (List.mem_cons_self _ _))
  obtain ⟨l', hl'⟩ := join_with_starts (List.replicate a ' ' ++ '|' :: List.replicate b ' ')
    (stage_text st) (rest.map stage_text)
  have hhead : pipeline_text a b (st :: rest) = c :: (l ++ l') := by
    simp only [pipeline_text, List.map_cons]
    rw [hl', hcl, List.cons_append]
  obtain ⟨init, e, hlast, he⟩ := join_with_ends_plain
    (List.replicate a ' ' ++ '|' :: List.replicate b ' ') ((st :: rest).map stage_text)
    (by simp) (by
      intro x hx
      obtain ⟨st', hst', rfl⟩ := List.mem_map.mp hx
      exact stage_ends_plain st' (hplain st' hst'))
  have htrim : trimmed (pipeline_text a b (st :: rest)) = pipeline_text a b (st :: rest) :=
    trimmed_self _ c _ hhead hc init e hlast he
  have hne' : pipeline_text a b (st :: rest) ≠ [] := by rw [hhead]; simp
  rw [parse_input_line _ hnul (by rw [htrim]; exact hne'), htrim]
  rcases parse_trimmed_refines _ hne' hnul with ⟨hnone, _⟩ | ⟨p, r, hsplit, hp, hstages, hlen⟩
  · rw [split_line_pipeline a b _ hne hplain] at hnone
    exact Option.noConfusion hnone
  · rw [split_line_pipeline a b _ hne hplain] at hsplit
    have hr : r = (st :: rest).map stage_words := (Option.some.inj hsplit).symm
    subst hr
    exact ⟨p, hp, hstages, by simpa using hlen⟩

/-! ## Quoted words -/

theorem run_inQuoted (q : List Char) (hq : '"' ∉ q) :
    ∀ (done : List (List (List Char))) (ws : List (List Char)) (u : List Char),
      (Scan.inQuoted done ws u).run q = some (.inQuoted done ws (u ++ q)) := by
  induction q with
  | nil => intro done ws u; simp [Scan.run]
  | cons c cs ih =>
    intro done ws u
    simp only [List.mem_cons, not_or] at hq
    have hc : c ≠ '"' := fun e => hq.1 e.symm
    simp only [Scan.run, Scan.step, hc, if_false, Option.bind]
    rw [ih hq.2]
    simp

theorem split_line_quoted (w q v : List Char) (hw : plain_word w = true)
    (hv : plain_word v = true) (hq : '"' ∉ q) :
    split_line (w ++ [' ', '"'] ++ q ++ ['"', ' '] ++ v) = some [[w, q, v]] := by
  have h1 : ¬ ('"' = ' ') := by decide
  have h2 : ¬ ('"' = '|') := by decide
  have e : w ++ [' ', '"'] ++ q ++ ['"', ' '] ++ v
      = w ++ (' ' :: '"' :: (q ++ ('"' :: ' ' :: v))) := by simp
  rw [e]
  simp only [split_line, Scan.run_append, run_inWord_plain w (plain_word_spec w hw).2,
    Option.some_bind, Scan.run, Scan.step, if_true, if_false, h1, h2, run_inQuoted q hq,
    List.nil_append, run_white_word v hv, Scan.finish]
  rfl

/-- A line `w "q" v` is parsed into the single stage `[w, q, v]`. -/
theorem parse_quoted (w q v : List Char) (hw : plain_word w = true) (hv : plain_word v = true)
    (hq : '"' ∉ q) (hqn : NUL ∉ q) :
    ∃ p, parse_input (line_buffer (w ++ [' ', '"'] ++ q ++ ['"', ' '] ++ v)) = .ok (some p) ∧
      p.stages = some [[w, q, v]] ∧ p.len = 1 := by
  have hwn : NUL ∉ w := fun h =>
    absurd ((plain_char_ne NUL ((plain_word_spec w hw).2 NUL h)).2.2.2.1 rfl) (by simp)
  have hvn : NUL ∉ v := fun h =>
    absurd ((plain_char_ne NUL ((plain_word_spec v hv).2 NUL h)).2.2.2.1 rfl) (by simp)
  have hnul : NUL ∉ w ++ [' ', '"'] ++ q ++ ['"', ' '] ++ v := by
    simp only [List.mem_append, List.mem_cons, List.mem_singleton, not_or, List.mem_nil_iff,
      or_false]
    exact ⟨⟨⟨⟨hwn, ⟨by decide, by decide⟩⟩, hqn⟩, ⟨by decide, by decide⟩⟩, hvn⟩
  obtain ⟨a, w', hwa, ha⟩ := word_starts_plain w hw
  obtain ⟨init, b, hvb, hb⟩ := word_ends_plain v hv
  have htrim : trimmed (w ++ [' ', '"'] ++ q ++ ['"', ' '] ++ v)
      = w ++ [' ', '"'] ++ q ++ ['"', ' '] ++ v :=
    trimmed_self _ a (w' ++ [' ', '"'] ++ q ++ ['"', ' '] ++ v) (by rw [hwa]; simp) ha
      (w ++ [' ', '"'] ++ q ++ ['"', ' '] ++ init) b (by rw [hvb]; simp) hb
  have hne : w ++ [' ', '"'] ++ q ++ ['"', ' '] ++ v ≠ [] := by rw [hwa]; simp
  rw [parse_input_line _ hnul (by rw [htrim]; exact hne), htrim]
  rcases parse_trimmed_refines _ hne hnul with ⟨hnone, _⟩ | ⟨p, r, hsplit, hp, hstages, hlen⟩
  · rw [split_line_quoted w q v hw hv hq] at hnone
    exact Option.noConfusion hnone
  · rw [split_line_quoted w q v hw hv hq] at hsplit
    have hr : r = [[w, q, v]] := (Option.some.inj hsplit).symm
    subst hr
    exact ⟨p, hp, hstages, by simpa using hlen⟩

/-! ## Unterminated quotes -/

theorem step_quoted (a a' : Scan) (c : Char) (h : a.step c = some a') :
    a'.quoted = xor a.quoted (decide (c = '"')) := by
  have h1 : ¬ ('"' = ' ') := by decide
  have h2 : ¬ ('"' = '|') := by decide
  cases a with
  | inWord done ws w =>
    by_cases hq : c = '"'
    · subst hq
      simp only [Scan.step, h1, h2, if_true, if_false, Option.some.injEq] at h
      subst h; rfl
    · simp only [Scan.step, hq, if_false] at h
      split_ifs at h <;> (simp only [Option.some.injEq] at h; subst h; simp [Scan.quoted, hq])
  | inQuoted done ws w =>
    by_cases hq : c = '"'
    · subst hq
      simp only [Scan.step, if_true, Option.some.injEq] at h
      subst h; rfl
    · simp only [Scan.step, hq, if_false, Option.some.injEq] at h
      subst h; simp [Scan.quoted, hq]
  | white done ws =>
    by_cases hq : c = '"'
    · subst hq
      simp only [Scan.step, h1, h2, if_true, if_false, Option.some.injEq] at h
      subst h; rfl
    · simp only [Scan.step, hq, if_false] at h
      split_ifs at h <;> (simp only [Option.some.injEq] at h; subst h; simp [Scan.quoted, hq])
  | pipe done =>
    by_cases hq : c = '"'
    · subst hq
      simp only [Scan.step, h1, h2, if_true, if_false, Option.some.injEq] at h
      subst h; rfl
    · simp only [Scan.step, hq, if_false] at h
      split_ifs at h <;> (simp only [Option.some.injEq] at h; subst h; simp [Scan.quoted, hq])

theorem run_quoted (l : List Char) : ∀ (a a' : Scan), a.run l = some a' →
    a'.quoted = xor a.quoted (decide (l.count '"' % 2 = 1)) := by
  induction l with
  | nil =>
    intro a a' h
    simp only [Scan.run, Option.some.injEq] at h
    subst h; simp
  | cons c cs ih =>
    intro a a' h
    simp only [Scan.run] at h
    cases hs : a.step c with
    | none => rw [hs] at h; exact Option.noConfusion h
    | some a1 =>
      rw [hs, Option.some_bind] at h
      rw [ih a1 a' h, step_quoted a a1 c hs]
      by_cases hq : c = '"'
      · subst hq
        simp only [List.count_cons_self, decide_True, Bool.xor_true]
        rcases Nat.mod_two_eq_zero_or_one (List.count '"' cs) with h0 | h0
        · have : (List.count '"' cs + 1) % 2 = 1 := by omega
          simp [h0, this]
        · have : (List.count '"' cs + 1) % 2 = 0 := by omega
          simp [h0, this]
      · have hq' : ¬ ('"' = c) := fun e => hq e.symm
        simp [List.count_cons, hq, hq']

theorem split_line_odd_quotes (input : List Char) (h : input.count '"' % 2 = 1) :
    split_line input = none := by
  unfold split_line
  cases hr : Scan.run (.inWord [] [] []) input with
  | none => rfl
  | some a =>
    have := run_quoted input _ a hr
    simp only [Scan.quoted, h, decide_True, Bool.false_xor] at this
    cases a with
    | inQuoted done ws w => rfl
    | inWord done ws w => exact Bool.noConfusion this
    | white done ws => exact Bool.noConfusion this
    | pipe done => exact Bool.noConfusion this

/-- A line whose trimmed text holds an odd number of double quotes is rejected. -/
theorem parse_odd_quotes (s : List Char) (hnul : NUL ∉ s)
    (hodd : (trimmed s).count '"' % 2 = 1) : parse_input (line_buffer s) = .ok none := by
  have hne : trimmed s ≠ [] := by
    intro e; rw [e] at hodd; simp at hodd
  rw [parse_input_line s hnul hne]
  rcases parse_trimmed_refines _ hne (trimmed_not_mem s NUL hnul) with
    ⟨_, h⟩ | ⟨p, r, hsplit, _, _, _⟩
  · exact h
  · rw [split_line_odd_quotes _ hodd] at hsplit
    exact Option.noConfusion hsplit

/-! ## Zero stages -/

theorem parse_trimmed_len (input : List Char) (p : ParsedInput)
    (h : parse_trimmed input = .ok (some p)) : p.len = 0 ↔ input = [] := by
  by_cases he : input = []
  · subst he
    simp only [parse_trimmed, List.length_nil, if_true, Except.ok.injEq,
      Option.some.injEq] at h
    subst h
    simp [new_parsed_input]
  · have hlen : ¬ (input.length = 0) := fun e => he (List.length_eq_zero.mp e)
    simp only [parse_trimmed, hlen, if_false, bind, Except.bind] at h
    constructor
    · intro h0
      split at h
      · exact Except.noConfusion h
      · split at h
        · simp only [Except.ok.injEq] at h; exact Option.noConfusion h
        · simp only [Except.ok.injEq, Option.some.injEq] at h
          subst h
          simp at h0
    · intro e; exact absurd e he

theorem trimmed_ne_nil_of_parse (s : List Char) (r : Option ParsedInput)
    (h : parse_input (line_buffer s) = .ok r) : trimmed s ≠ [] := by
  intro e
  rw [parse_input_blank s ((trimmed_eq_nil_iff s).mp e)] at h
  exact Except.noConfusion h

/-! ## Padding and parsing again -/

theorem parse_input_pad (s l r : List Char) (hnul : NUL ∉ s)
    (hl : ∀ c ∈ l, isspace c = true) (hr : ∀ c ∈ r, isspace c = true)
    (hne : trimmed s ≠ []) :
    parse_input (line_buffer (l ++ s ++ r)) = parse_input (line_buffer s) := by
  have hnul' : NUL ∉ l ++ s ++ r := by
    simp only [List.mem_append, not_or]
    exact ⟨⟨fun h => ne_nul_of_isspace _ (hl _ h) rfl, hnul⟩,
      fun h => ne_nul_of_isspace _ (hr _ h) rfl⟩
  have ht := trimmed_pad l s r hl hr hne
  rw [parse_input_line _ hnul' (by rw [ht]; exact hne), ht, parse_input_line s hnul hne]

theorem parse_input_again (s : List Char) (hnul : NUL ∉ s) (hne : trimmed s ≠ []) :
    ∃ buf ptr, trim (line_buffer s) = .ok (buf, ptr) ∧
      parse_input buf = parse_input (line_buffer s) := by
  obtain ⟨pre, post, a, core', init, b, hs, hpre, hpost, hhead, ha, hlast, hb⟩ :=
    trimmed_decomp s hne
  have hn : NUL ∉ trimmed s := trimmed_not_mem s NUL hnul
  have ht := trim_core pre (trimmed s) post [] hpre hpost hn a core' hhead ha init b hlast hb
  have hbuf : line_buffer s = pre ++ trimmed s ++ post ++ [NUL] := by
    unfold line_buffer; rw [← hs]
  refine ⟨_, _, by rw [hbuf]; exact ht, ?_⟩
  have ht2 := trim_core pre (trimmed s) [] (post ++ [NUL]).tail hpre (by simp) hn
    a core' hhead ha init b hlast hb
  simp only [List.append_nil, List.nil_append, List.tail_cons] at ht2
  rw [parse_input_line s hnul hne]
  simp only [parse_input, ht2, bind, Except.bind, c_str_core _ _ _ hn]

/-! ## Tokens are cut out of the line -/

theorem cut_closing (t l w suf : List Char) (c : Char) (ht : t = l ++ w ++ c :: suf)
    (hw : ∀ x ∈ w, x ≠ ' ' ∧ x ≠ '|') (hemp : w = [] → l ++ w = [])
    (hc : t.head? ≠ some c ∨ c = '|') : cut_from t w := by
  refine ⟨⟨l, c :: suf, ht⟩, hw, ?_⟩
  intro hhead hwe
  have hl := hemp hwe
  subst hwe
  simp only [List.append_nil] at hl
  subst hl
  simp only [List.nil_append] at ht
  rcases hc with hc | hc
  · apply hc; rw [ht]; rfl
  · subst hc; apply hhead; rw [ht]; rfl

theorem step_cuts (t pre suf : List Char) (c : Char) (a a' : Scan) (ht : t = pre ++ c :: suf)
    (hsp : t.head? ≠ some ' ') (hq : c ≠ '"') (h : a.cuts t pre) (hs : a.step c = some a') :
    a'.cuts t (pre ++ [c]) := by
  cases a with
  | inQuoted done ws w => exact absurd h (by simp [Scan.cuts])
  | inWord done ws w =>
    obtain ⟨hd, hws, ⟨l, hl⟩, hw, hemp⟩ := h
    subst hl
    by_cases h1 : c = ' '
    · subst h1
      simp only [Scan.step, if_true, Option.some.injEq] at hs
      subst hs
      refine ⟨hd, ?_⟩
      intro tok htok
      rcases List.mem_append.mp htok with h | h
      · exact hws tok h
      · rw [List.mem_singleton.mp h]
        exact cut_closing t l w suf ' ' ht hw hemp (Or.inl hsp)
    by_cases h2 : c = '|'
    · subst h2
      simp only [Scan.step, h1, if_true, if_false, Option.some.injEq] at hs
      subst hs
      intro st hst tok htok
      rcases List.mem_append.mp hst with h | h
      · exact hd st h tok htok
      · rw [List.mem_singleton.mp h] at htok
        rcases List.mem_append.mp htok with h | h
        · exact hws tok h
        · rw [List.mem_singleton.mp h]
          exact cut_closing t l w suf '|' ht hw hemp (Or.inr rfl)
    · simp only [Scan.step, h1, h2, hq, if_false, Option.some.injEq] at hs
      subst hs
      refine ⟨hd, hws, ⟨l, by simp⟩, ?_, by simp⟩
      intro x hx
      rcases List.mem_append.mp hx with h | h
      · exact hw x h
      · rw [List.mem_singleton.mp h]; exact ⟨h1, h2⟩
  | white done ws =>
    obtain ⟨hd, hws⟩ := h
    by_cases h1 : c = ' '
    · subst h1
      simp only [Scan.step, if_true, Option.some.injEq] at hs
      subst hs
      exact ⟨hd, hws⟩
    by_cases h2 : c = '|'
    · subst h2
      simp only [Scan.step, h1, if_true, if_false, Option.some.injEq] at hs
      subst hs
      intro st hst tok htok
      rcases List.mem_append.mp hst with h | h
      · exact hd st h tok htok
      · rw [List.mem_singleton.mp h] at htok
        exact hws tok htok
    · simp only [Scan.step, h1, h2, hq, if_false, Option.some.injEq] at hs
      subst hs
      refine ⟨hd, hws, ⟨pre, rfl⟩, ?_, by simp⟩
      intro x hx
      rw [List.mem_singleton.mp hx]; exact ⟨h1, h2⟩
  | pipe done =>
    by_cases h1 : c = ' '
    · subst h1
      simp only [Scan.step, if_true, Option.some.injEq] at hs
      subst hs
      exact ⟨h, by simp⟩
    by_cases h2 : c = '|'
    · subst h2
      simp only [Scan.step, h1, if_true, if_false] at hs
      exact Option.noConfusion hs
    · simp only [Scan.step, h1, h2, hq, if_false, Option.some.injEq] at hs
      subst hs
      refine ⟨h, by simp, ⟨pre, rfl⟩, ?_, by simp⟩
      intro x hx
      rw [List.mem_singleton.mp hx]; exact ⟨h1, h2⟩

theorem run_cuts (t : List Char) (hsp : t.head? ≠ some ' ') : ∀ (suf pre : List Char)
    (a a' : Scan), t = pre ++ suf → '"' ∉ suf → a.cuts t pre → a.run suf = some a' →
    a'.cuts t t := by
  intro suf
  induction suf with
  | nil =>
    intro pre a a' ht _ h hr
    simp only [Scan.run, Option.some.injEq] at hr
    subst hr
    rw [List.append_nil] at ht
    rw [ht]; rw [ht] at h; exact h
  | cons c cs ih =>
    intro pre a a' ht hq h hr
    simp only [List.mem_cons, not_or] at hq
    simp only [Scan.run] at hr
    cases hs : a.step c with
    | none => rw [hs] at hr; exact Option.noConfusion hr
    | some a1 =>
      rw [hs, Option.some_bind] at hr
      have h1 := step_cuts t pre cs c a a1 ht hsp (fun e => hq.1 e.symm) h hs
      exact ih (pre ++ [c]) a1 a' (by rw [ht]; simp) hq.2 h1 hr

theorem split_line_cuts (t : List Char) (hne : t ≠ []) (hsp : t.head? ≠ some ' ')
    (hq : '"' ∉ t) (r : List (List (List Char))) (h : split_line t = some r) :
    ∀ st ∈ r, ∀ tok ∈ st, cut_from t tok := by
  unfold split_line at h
  cases hr : Scan.run (.inWord [] [] []) t with
  | none => rw [hr] at h; exact Option.noConfusion h
  | some a =>
    rw [hr, Option.some_bind] at h
    have h0 : (Scan.inWord [] [] []).cuts t [] :=
      ⟨by simp, by simp, ⟨[], rfl⟩, by simp, by simp⟩
    have hc := run_cuts t hsp t [] _ a rfl hq h0 hr
    cases a with
    | inQuoted done ws w => exact absurd hc (by simp [Scan.cuts])
    | inWord done ws w =>
      obtain ⟨hd, hws, ⟨l, hl⟩, hw, hemp⟩ := hc
      simp only [Scan.finish, Option.some.injEq] at h
      subst h
      intro st hst tok htok
      rcases List.mem_append.mp hst with h | h
      · exact hd st h tok htok
      · rw [List.mem_singleton.mp h] at htok
        rcases List.mem_append.mp htok with h | h
        · exact hws tok h
        · rw [List.mem_singleton.mp h]
          exact ⟨⟨l, [], by simpa using hl⟩, hw, fun _ hwe => hne (hemp hwe)⟩
    | white done ws =>
      simp only [Scan.finish, Option.some.injEq] at h
      subst h
      intro st hst tok htok
      rcases List.mem_append.mp hst with h | h
      · exact hc.1 st h tok htok
      · rw [List.mem_singleton.mp h] at htok; simp at htok
    | pipe done =>
      simp only [Scan.finish, Option.some.injEq] at h
      subst h
      intro st hst tok htok
      rcases List.mem_append.mp hst with h | h
      · exact hc st h tok htok
      · rw [List.mem_singleton.mp h] at htok; simp at htok

/-- On a line without double quote, the tokens of a pipeline that `parse_input`
returns are cut out of the trimmed text. -/
theorem parse_cuts (s : List Char) (p : ParsedInput) (hnul : NUL ∉ s) (hq : '"' ∉ s)
    (hp : parse_input (line_buffer s) = .ok (some p)) :
    ∃ st, p.stages = some st ∧ ∀ stage ∈ st, ∀ tok ∈ stage, cut_from (trimmed s) tok := by
  have hne := trimmed_ne_nil_of_parse s _ hp
  obtain ⟨pre, post, a, core', init, b, hs, hpre, hpost, hhead, ha, hlast, hb⟩ :=
    trimmed_decomp s hne
  have hsp : (trimmed s).head? ≠ some ' ' := by
    rw [hhead]
    simp only [List.head?_cons, ne_eq, Option.some.injEq]
    intro e; subst e; exact absurd ha (by decide)
  rw [parse_input_line s hnul hne] at hp
  rcases parse_trimmed_refines _ hne (trimmed_not_mem s NUL hnul) with
    ⟨_, h⟩ | ⟨p', r, hsplit, hp', hstages, _⟩
  · rw [h] at hp; simp at hp
  · rw [hp'] at hp
    simp only [Except.ok.injEq, Option.some.injEq] at hp
    subst hp
    exact ⟨r, hstages, split_line_cuts _ hne hsp (trimmed_not_mem s '"' hq) r hsplit⟩

/-! ## The properties `C1` .. `C10` -/

/-- C1. For every non-empty list of stages, each a non-empty list of plain words
(non-empty, without `isspace` character, pipe, double quote or terminator), the line
made of the words of each stage joined by one or more spaces and of the stages
joined by " | " is parsed successfully, and the pipeline returned has exactly these
stages, in order, each with exactly these words as its tokens, in order. -/
theorem C1_words_roundtrip (stages : List (List Char × List (Nat × List Char)))
    (hne : stages ≠ []) (hplain : ∀ st ∈ stages, ∀ w ∈ stage_words st, plain_word w = true) :
    ∃ p, parse_input (line_buffer (join_with [' ', '|', ' '] (stages.map stage_text)))
        = .ok (some p) ∧
      p.stages = some (stages.map stage_words) ∧ p.len = stages.length :=
  parse_pipeline 1 1 stages hne hplain

/-- C1 at the lines `ls -la` and `a | b | c`. -/
theorem C1_words_roundtrip_witness :
    (∃ p, parse_input (line_buffer "ls -la".toList) = .ok (some p) ∧
      p.stages = some [["ls".toList, "-la".toList]] ∧ p.len = 1) ∧
    (∃ p, parse_input (line_buffer "a | b | c".toList) = .ok (some p) ∧
      p.stages = some [["a".toList], ["b".toList], ["c".toList]] ∧ p.len = 3) :=
  ⟨C1_words_roundtrip [("ls".toList, [(0, "-la".toList)])] (by decide) (by decide),
   C1_words_roundtrip [("a".toList, []), ("b".toList, []), ("c".toList, [])]
     (by decide) (by decide)⟩

/-- C2. For every string `q` without double quote and terminator (it may be empty
and may hold spaces and pipes) and all plain words `w` and `v`, the line `w "q" v` is
parsed successfully into exactly one stage whose tokens are `w`, `q`, `v`: the
quoted run is one token, equal to `q` character for character, and the quote
characters are not stored. -/
theorem C2_quoted_token (w q v : List Char) (hw : plain_word w = true)
    (hv : plain_word v = true) (hq : '"' ∉ q) (hqn : NUL ∉ q) :
    ∃ p, parse_input (line_buffer (w ++ [' ', '"'] ++ q ++ ['"', ' '] ++ v)) = .ok (some p) ∧
      p.stages = some [[w, q, v]] ∧ p.len = 1 :=
  parse_quoted w q v hw hv hq hqn

/-- C2 at the line `echo "a b" c`. -/
theorem C2_quoted_token_witness :
    ∃ p, parse_input (line_buffer ("echo".toList ++ [' ', '"'] ++ "a b".toList ++ ['"', ' ']
        ++ "c".toList)) = .ok (some p) ∧
      p.stages = some [["echo".toList, "a b".toList, "c".toList]] ∧ p.len = 1 :=
  C2_quoted_token "echo".toList "a b".toList "c".toList (by decide) (by decide) (by decide)
    (by decide)

/-- C3. For every line whose trimmed text holds an odd number of double quotes (a
quote is opened and the end of the line is reached before it is closed),
`parse_input` returns `NULL`: no pipeline, partial or not, reaches the caller. -/
theorem C3_unterminated_quote (s : List Char) (hnul : NUL ∉ s)
    (hodd : (trimmed s).count '"' % 2 = 1) : parse_input (line_buffer s) = .ok none :=
  parse_odd_quotes s hnul hodd

/-- C3 at the line `echo "unterminated`. -/
theorem C3_unterminated_quote_witness :
    parse_input (line_buffer ("echo ".toList ++ '"' :: "unterminated".toList)) = .ok none :=
  C3_unterminated_quote ("echo ".toList ++ '"' :: "unterminated".toList) (by decide)
    (by decide)

/-- C4 (the code departs from the specification). On the line `a | | b`, where two pipes
outside quotes have only a space between them, `parse_input` does not fail: it
returns a pipeline of three stages whose middle stage has no token. Only pipes that
touch, as in `a || b`, are rejected. -/
theorem C4_spaced_pipes_accepted :
    stages_of (parse_input (line_buffer "a | | b".toList))
        = some [["a".toList], [], ["b".toList]] ∧
      stage_count (parse_input (line_buffer "a | | b".toList)) = some 3 ∧
      parse_input (line_buffer "a || b".toList) = .ok none :=
  ⟨by decide, by decide, by rfl⟩

/-- C5 (the code departs from the specification). On the line `a |`, which ends with a
pipe, `parse_input` returns a pipeline of two stages whose second stage has the
recorded token count `0`; the same holds for the middle stage of `a | | b`. -/
theorem C5_stage_without_token :
    stage_lens (parse_input (line_buffer "a |".toList)) = some [1, 0] ∧
      stage_lens (parse_input (line_buffer "a | | b".toList)) = some [1, 0, 1] :=
  ⟨by decide, by decide⟩

/-- C6 (the code departs from the specification). On every line that is empty or holds only
`isspace` characters, `right_trim` reads the byte before the line buffer, so that
`parse_input` has undefined behaviour instead of returning a pipeline of zero
stages. -/
theorem C6_blank_line_out_of_bounds (s : List Char) (hs : ∀ c ∈ s, isspace c = true) :
    parse_input (line_buffer s) = .error .outOfBounds :=
  parse_input_blank s hs

/-- C6 at the line of three spaces and at the empty line. -/
theorem C6_blank_line_out_of_bounds_witness :
    parse_input (line_buffer "   ".toList) = .error .outOfBounds ∧
      parse_input (line_buffer []) = .error .outOfBounds :=
  ⟨C6_blank_line_out_of_bounds "   ".toList (by decide),
   C6_blank_line_out_of_bounds [] (by decide)⟩

/-- C7. Whenever `parse_input` returns a pipeline, it has zero stages if and only if
the trimmed line is empty; the same holds of the code after the call of `trim`,
applied to the trimmed text. In particular a non-empty trimmed line that parses has
at least one stage. -/
theorem C7_zero_stages_iff (s : List Char) (n : Nat) (hnul : NUL ∉ s) :
    (stage_count (parse_input (line_buffer s)) = some n → (n = 0 ↔ trimmed s = [])) ∧
    (stage_count (parse_trimmed (trimmed s)) = some n → (n = 0 ↔ trimmed s = [])) := by
  have key : ∀ (r : Except Fault (Option ParsedInput)), stage_count r = some n →
      ∃ p, r = .ok (some p) ∧ p.len = n := by
    intro r hr
    match r, hr with
    | .ok (some p), hr => exact ⟨p, rfl, Option.some.inj hr⟩
  constructor
  · intro h
    obtain ⟨p, hp, hlen⟩ := key _ h
    have hne := trimmed_ne_nil_of_parse s _ hp
    rw [parse_input_line s hnul hne] at hp
    rw [← hlen]
    exact parse_trimmed_len _ p hp
  · intro h
    obtain ⟨p, hp, hlen⟩ := key _ h
    rw [← hlen]
    exact parse_trimmed_len _ p hp

/-- C7 at the line `ls -la | wc`, which has two stages, and after `trim` at the
line of two spaces, which has none. -/
theorem C7_zero_stages_iff_witness :
    ((2 : Nat) = 0 ↔ trimmed "ls -la | wc".toList = []) ∧
      ((0 : Nat) = 0 ↔ trimmed "  ".toList = []) :=
  ⟨(C7_zero_stages_iff "ls -la | wc".toList 2 (by decide)).1 (by decide),
   (C7_zero_stages_iff "  ".toList 0 (by decide)).2 (by decide)⟩

/-- C8. For every list of at least two stages of plain words, the line with the
stages joined by "|" and the line with the stages joined by " | " are both parsed
successfully, into pipelines with the same number of stages and the same tokens in
every stage: spaces around an unquoted pipe do not change the parsed pipeline. -/
theorem C8_pipe_spacing (stages : List (List Char × List (Nat × List Char)))
    (h2 : 2 ≤ stages.length)
    (hplain : ∀ st ∈ stages, ∀ w ∈ stage_words st, plain_word w = true) :
    ∃ p q, parse_input (line_buffer (join_with ['|'] (stages.map stage_text))) = .ok (some p) ∧
      parse_input (line_buffer (join_with [' ', '|', ' '] (stages.map stage_text)))
        = .ok (some q) ∧
      p.len = q.len ∧ p.stages = q.stages ∧ q.stages = some (stages.map stage_words) := by
  have hne : stages ≠ [] := by
    intro e; rw [e] at h2; simp at h2
  obtain ⟨p, hp, hps, hpl⟩ := parse_pipeline 0 0 stages hne hplain
  obtain ⟨q, hq, hqs, hql⟩ := parse_pipeline 1 1 stages hne hplain
  exact ⟨p, q, hp, hq, by rw [hpl, hql], by rw [hps, hqs], hqs⟩

/-- C8 at the lines `a|b` and `a | b`. -/
theorem C8_pipe_spacing_witness :
    ∃ p q, parse_input (line_buffer "a|b".toList) = .ok (some p) ∧
      parse_input (line_buffer "a | b".toList) = .ok (some q) ∧
      p.len = q.len ∧ p.stages = q.stages ∧
      q.stages = some [["a".toList], ["b".toList]] :=
  C8_pipe_spacing [("a".toList, []), ("b".toList, [])] (by decide) (by decide)

/-- C9. `parse_input` depends only on the trimmed text of the line: for every line
`s` whose trimmed text is not empty and all runs `l`, `r` of `isspace` characters,
the result on `l ++ s ++ r` is the result on `s`; and parsing the buffer again, as
the first call has left it after trimming in place, gives the same result. -/
theorem C9_trimmed_text_only (s l r : List Char) (hnul : NUL ∉ s)
    (hl : ∀ c ∈ l, isspace c = true) (hr : ∀ c ∈ r, isspace c = true)
    (hne : trimmed s ≠ []) :
    parse_input (line_buffer (l ++ s ++ r)) = parse_input (line_buffer s) ∧
    ∃ buf ptr, trim (line_buffer (l ++ s ++ r)) = .ok (buf, ptr) ∧
      parse_input buf = parse_input (line_buffer (l ++ s ++ r)) := by
  refine ⟨parse_input_pad s l r hnul hl hr hne, ?_⟩
  have hnul' : NUL ∉ l ++ s ++ r := by
    simp only [List.mem_append, not_or]
    exact ⟨⟨fun h => ne_nul_of_isspace _ (hl _ h) rfl, hnul⟩,
      fun h => ne_nul_of_isspace _ (hr _ h) rfl⟩
  exact parse_input_again (l ++ s ++ r) hnul'
    (by rw [trimmed_pad l s r hl hr hne]; exact hne)

/-- C9 at the line `ls -la` between two spaces and a tab, and a space and a newline. -/
theorem C9_trimmed_text_only_witness :
    parse_input (line_buffer ("  \t".toList ++ "ls -la".toList ++ " \n".toList))
        = parse_input (line_buffer "ls -la".toList) ∧
    ∃ buf ptr, trim (line_buffer ("  \t".toList ++ "ls -la".toList ++ " \n".toList))
        = .ok (buf, ptr) ∧
      parse_input buf
        = parse_input (line_buffer ("  \t".toList ++ "ls -la".toList ++ " \n".toList)) :=
  C9_trimmed_text_only "ls -la".toList "  \t".toList " \n".toList (by decide) (by decide)
    (by decide) (by decide)

theorem stages_of_eq_some (r : Except Fault (Option ParsedInput))
    (st : List (List (List Char))) (h : stages_of r = some st) :
    ∃ p, r = .ok (some p) ∧ p.stages = some st := by
  match r, h with
  | .ok (some p), h => exact ⟨p, rfl, h⟩

/-- C10 as stated fails on the line made of a pipe, `a`, a tab and `b`, which holds no
double quote: the pipeline returned has the stages `[""]` and `["a<tab>b"]`, so that
one token is empty and another holds an `isspace` character. -/
theorem C10_counterexample :
    '"' ∉ ['|', 'a', '\t', 'b'] ∧
    stages_of (parse_input (line_buffer ['|', 'a', '\t', 'b']))
      = some [[[]], [['a', '\t', 'b']]] ∧
    ¬ (∀ p st, parse_input (line_buffer ['|', 'a', '\t', 'b']) = .ok (some p) →
        p.stages = some st → ∀ stage ∈ st, ∀ tok ∈ stage,
          tok ≠ [] ∧ (∃ l r, ['|', 'a', '\t', 'b'] = l ++ tok ++ r) ∧
          ∀ c ∈ tok, isspace c = false ∧ c ≠ '|') := by
  have hst : stages_of (parse_input (line_buffer ['|', 'a', '\t', 'b']))
      = some [[[]], [['a', '\t', 'b']]] := by decide
  refine ⟨by decide, hst, ?_⟩
  intro h
  obtain ⟨p, hp, hps⟩ := stages_of_eq_some _ _ hst
  exact (h p _ hp hps [[]] (by simp) [] (by simp)).1 rfl

/-- C10, amended. For every line without double quote on which `parse_input`
returns a pipeline, the stages of the pipeline can be read back and every token of
every stage is a contiguous run of characters of the line, none of which is a space
or a pipe (a tab or another `isspace` character is an ordinary character); the
token is not empty when the trimmed line does not begin with a pipe. -/
theorem C10_tokens_cut_from_line (s : List Char) (p : ParsedInput) (hnul : NUL ∉ s)
    (hq : '"' ∉ s) (hp : parse_input (line_buffer s) = .ok (some p)) :
    ∃ st, p.stages = some st ∧ ∀ stage ∈ st, ∀ tok ∈ stage,
      (∃ l r, s = l ++ tok ++ r) ∧ (∀ c ∈ tok, c ≠ ' ' ∧ c ≠ '|') ∧
      ((trimmed s).head? ≠ some '|' → tok ≠ []) := by
  obtain ⟨st, hst, hcut⟩ := parse_cuts s p hnul hq hp
  have hne := trimmed_ne_nil_of_parse s _ hp
  obtain ⟨pre, post, _, _, _, _, hs, _⟩ := trimmed_decomp s hne
  refine ⟨st, hst, ?_⟩
  intro stage hstage tok htok
  obtain ⟨⟨l, r, hlr⟩, hchars, hemp⟩ := hcut stage hstage tok htok
  refine ⟨⟨pre ++ l, r ++ post, ?_⟩, hchars, hemp⟩
  conv_lhs => rw [hs, hlr]
  simp

/-- C10, amended, at the line `ls -la`. -/
theorem C10_tokens_cut_from_line_witness :
    ∃ st, ParsedInput.stages
        { max_commands := 10, len := 1,
          commands := closed_command [token_of "ls".toList, token_of "-la".toList] 7
            :: List.replicate 9 new_command } = some st ∧
      ∀ stage ∈ st, ∀ tok ∈ stage,
        (∃ l r, "ls -la".toList = l ++ tok ++ r) ∧ (∀ c ∈ tok, c ≠ ' ' ∧ c ≠ '|') ∧
        ((trimmed "ls -la".toList).head? ≠ some '|' → tok ≠ []) :=
  C10_tokens_cut_from_line "ls -la".toList _ (by decide) (by decide) (by rfl)

/-! ## Strings in token buffers -/

theorem read_cells_of_cells_str : ∀ (cells : List (Option Char)) (s : List Char),
    cells_str cells = some s → read_cells cells = .ok s := by
  intro cells
  induction cells with
  | nil => intro s h; simp [cells_str] at h
  | cons x xs ih =>
    intro s h
    cases x with
    | none => simp [cells_str] at h
    | some c =>
      by_cases hc : c = NUL
      · simp only [cells_str, hc, if_true, Option.some.injEq] at h
        subst h
        simp [read_cells, hc]
      · simp only [cells_str, hc, if_false, Option.map_eq_some'] at h
        obtain ⟨v, hv, rfl⟩ := h
        simp [read_cells, hc, ih v hv, Except.map]

theorem cells_str_cons (cells : List (Option Char)) (c : Char) (s : List Char)
    (h : cells_str cells = some (c :: s)) :
    ∃ rest, cells = some c :: rest ∧ c ≠ NUL ∧ cells_str rest = some s := by
  cases cells with
  | nil => simp [cells_str] at h
  | cons x xs =>
    cases x with
    | none => simp [cells_str] at h
    | some d =>
      by_cases hd : d = NUL
      · simp [cells_str, hd] at h
      · simp only [cells_str, hd, if_false, Option.map_eq_some', List.cons.injEq] at h
        obtain ⟨v, hv, rfl, rfl⟩ := h
        exact ⟨xs, rfl, hd, hv⟩

theorem cells_str_terminated (v : List Char) (hv : NUL ∉ v) (tl : List (Option Char)) :
    cells_str ((v ++ [NUL]).map some ++ tl) = some v := by
  induction v with
  | nil => simp [cells_str]
  | cons c cs ih =>
    simp only [List.mem_cons, not_or] at hv
    have hc : c ≠ NUL := fun e => hv.1 e.symm
    show cells_str (some c :: ((cs ++ [NUL]).map some ++ tl)) = _
    simp only [cells_str, hc, if_false, ih hv.2]
    rfl

theorem get_token_iff (command : Command) (i : Nat) (token : Token) :
    get_token command (i : Int) = .ok token ↔ command.tokens[i]? = some (some token) := by
  have h0 : ¬ ((i : Int) < 0) := by omega
  simp only [get_token, get_slot, h0, if_false, Int.toNat_ofNat, bind, Except.bind]
  cases h : command.tokens[i]? with
  | none => simp
  | some slot =>
    cases slot with
    | none => simp
    | some t => simp

/-! ## `resolve_token` -/

theorem resolve_token_other (getenv : List Char → Option (List Char)) (token token' : Token)
    (h : resolve_token getenv token = .ok token')
    (hfirst : token.buffer[0]? ≠ some (some '$')) : token' = token := by
  simp only [resolve_token, read_cell, bind, Except.bind] at h
  cases hb : token.buffer[0]? with
  | none => rw [hb] at h; simp at h
  | some cell =>
    cases cell with
    | none => rw [hb] at h; simp at h
    | some c =>
      rw [hb] at h hfirst
      have hc : c ≠ '$' := fun e => hfirst (by rw [e])
      simp only [hc, if_false, Except.ok.injEq] at h
      exact h.symm

theorem read_dollar (token : Token) (name : List Char)
    (h : token.str = some ('$' :: name)) :
    read_cell token.buffer 0 = .ok '$' ∧ read_str token.buffer 1 = .ok name := by
  obtain ⟨rest, hbuf, _, hrest⟩ := cells_str_cons token.buffer '$' name h
  constructor
  · simp [read_cell, hbuf]
  · simp only [read_str, hbuf, List.drop_succ_cons, List.drop_zero]
    exact read_cells_of_cells_str rest name hrest

/-- A token `$name` whose variable is set to a value of another length than the
capacity of the token holds the value after `resolve_token`. -/
theorem resolve_token_value (getenv : List Char → Option (List Char)) (token : Token)
    (name v : List Char) (h : token.holds ('$' :: name)) (hv : getenv name = some v)
    (hnul : NUL ∉ v) (hlen : v.length ≠ token.max_len) :
    ∃ token', resolve_token getenv token = .ok token' ∧ token'.holds v := by
  obtain ⟨hwf, hstr⟩ := h
  obtain ⟨h1, h2⟩ := read_dollar token name hstr
  by_cases hlt : token.max_len < v.length
  · have hle : token.buffer.length ≤ v.length + 1 := by omega
    have hfit : v.length + 1 ≤ (realloc token.buffer (v.length + 1) none).length := by
      rw [realloc_grow _ _ _ hle]; simp; omega
    refine ⟨Token.mk ((v ++ [NUL]).map some
        ++ (realloc token.buffer (v.length + 1) none).drop (v.length + 1)) (v.length + 1),
      ?_, ?_⟩
    · simp only [resolve_token, h1, h2, hv, hlt, if_true, bind, Except.bind, strcpy,
        resize_token, hfit]
    · refine ⟨?_, cells_str_terminated v hnul _⟩
      simp only [resize_token, List.length_append, List.length_map, List.length_cons,
        List.length_nil, List.length_drop, realloc_grow _ _ _ hle, List.length_replicate]
      omega
  · have hfit : v.length + 1 ≤ token.buffer.length := by omega
    refine ⟨Token.mk ((v ++ [NUL]).map some ++ token.buffer.drop (v.length + 1))
      token.max_len, ?_, ?_⟩
    · simp only [resolve_token, h1, h2, hv, hlt, if_true, if_false, bind, Except.bind, strcpy,
        hfit]
    · refine ⟨?_, cells_str_terminated v hnul _⟩
      simp only [List.length_append, List.length_map, List.length_cons,
        List.length_nil, List.length_drop]
      omega

/-- A token `$name` whose variable is not set holds the empty string after
`resolve_token`. -/
theorem resolve_token_unset (getenv : List Char → Option (List Char)) (token : Token)
    (name : List Char) (h : token.holds ('$' :: name)) (hv : getenv name = none) :
    ∃ token', resolve_token getenv token = .ok token' ∧ token'.holds [] := by
  obtain ⟨hwf, hstr⟩ := h
  obtain ⟨h1, h2⟩ := read_dollar token name hstr
  obtain ⟨rest, hbuf, _, _⟩ := cells_str_cons token.buffer '$' name hstr
  refine ⟨{ token with buffer := token.buffer.set 0 (some NUL) }, ?_, ?_⟩
  · simp only [resolve_token, h1, h2, hv, if_true, bind, Except.bind]
  · refine ⟨by simpa using hwf, ?_⟩
    simp [Token.str, hbuf, cells_str]

/-- A token `$name` whose variable is set to a value as long as the capacity of the
token: `strcpy` writes the terminator one byte after the buffer. -/
theorem resolve_token_overflow (getenv : List Char → Option (List Char)) (token : Token)
    (name v : List Char) (h : token.holds ('$' :: name)) (hv : getenv name = some v)
    (hlen : v.length = token.max_len) :
    resolve_token getenv token = .error .outOfBounds := by
  obtain ⟨hwf, hstr⟩ := h
  obtain ⟨h1, h2⟩ := read_dollar token name hstr
  have hlt : ¬ (token.max_len < v.length) := by omega
  have hfit : ¬ (v.length + 1 ≤ token.buffer.length) := by omega
  simp only [resolve_token, h1, h2, hv, hlt, if_true, if_false, bind, Except.bind, strcpy,
    hfit]

/-! ## `resolve_env_variables` -/

theorem resolve_env_from_succ (getenv : List Char → Option (List Char)) (n i : Nat)
    (command command' : Command)
    (h : resolve_env_from getenv (n + 1) i command = .ok command') :
    ∃ token token', command.tokens[i]? = some (some token) ∧
      resolve_token getenv token = .ok token' ∧
      resolve_env_from getenv n (i + 1) (set_slot command (i : Int) (some token'))
        = .ok command' := by
  simp only [resolve_env_from, bind, Except.bind] at h
  cases h1 : get_token command (i : Int) with
  | error e => rw [h1] at h; exact Except.noConfusion h
  | ok token =>
    rw [h1] at h
    simp only at h
    cases h2 : resolve_token getenv token with
    | error e => rw [h2] at h; exact Except.noConfusion h
    | ok token' =>
      rw [h2] at h
      exact ⟨token, token', (get_token_iff command i token).mp h1, h2, h⟩

/-- The loop of `resolve_env_variables` on the cells `i .. i + n`: the command keeps
its lengths, the other cells are not touched, and each cell of the range holds the
result of `resolve_token` on the token it held. -/
theorem resolve_env_from_spec (getenv : List Char → Option (List Char)) :
    ∀ (n i : Nat) (command command' : Command),
    resolve_env_from getenv n i command = .ok command' →
    command'.len = command.len ∧ command'.max_tokens = command.max_tokens ∧
    command'.tokens.length = command.tokens.length ∧
    (∀ j, (j < i ∨ i + n ≤ j) → command'.tokens[j]? = command.tokens[j]?) ∧
    (∀ j, i ≤ j → j < i + n → ∃ t t', command.tokens[j]? = some (some t) ∧
      command'.tokens[j]? = some (some t') ∧ resolve_token getenv t = .ok t') := by
  intro n
  induction n with
  | zero =>
    intro i command command' h
    simp only [resolve_env_from, Except.ok.injEq] at h
    subst h
    exact ⟨rfl, rfl, rfl, fun _ _ => rfl, fun j h1 h2 => by omega⟩
  | succ n ih =>
    intro i command command' h
    obtain ⟨token, token', hget, hres, hrec⟩ := resolve_env_from_succ getenv n i command command' h
    obtain ⟨hlen, hmax, htl, hout, hin⟩ := ih (i + 1) _ command' hrec
    have hset : ∀ j, j ≠ i →
        (set_slot command (i : Int) (some token')).tokens[j]? = command.tokens[j]? := by
      intro j hj
      simp only [set_slot, Int.toNat_ofNat, List.getElem?_set]
      rw [if_neg (fun e => hj e.symm)]
    have hi : i < command.tokens.length := by
      rcases List.getElem?_eq_some.mp hget with ⟨hlt, _⟩
      exact hlt
    have hseti : (set_slot command (i : Int) (some token')).tokens[i]? = some (some token') := by
      simp only [set_slot, Int.toNat_ofNat, List.getElem?_set, if_true, hi]
    refine ⟨by rw [hlen]; rfl, by rw [hmax]; rfl, by rw [htl]; simp [set_slot], ?_, ?_⟩
    · intro j hj
      rw [hout j (by omega), hset j (by omega)]
    · intro j h1 h2
      by_cases hji : j = i
      · subst hji
        exact ⟨token, token', hget, by rw [hout j (by omega), hseti], hres⟩
      · obtain ⟨t, t', ht, ht', hr⟩ := hin j (by omega) (by omega)
        exact ⟨t, t', by rw [← hset j hji]; exact ht, ht', hr⟩

theorem get_token_closed (pre : List Token) (t : Token) (post : List Token) (m : Nat) :
    get_token (closed_command (pre ++ t :: post) m) (pre.length : Int) = .ok t := by
  rw [get_token_iff]
  have := getElem?_append_cons (pre.map some) (some t)
    (post.map some ++ none :: List.replicate m (some new_token))
  simpa [closed_command] using this

theorem set_slot_closed (pre : List Token) (t t' : Token) (post : List Token) (m : Nat) :
    set_slot (closed_command (pre ++ t :: post) m) (pre.length : Int) (some t')
      = closed_command (pre ++ t' :: post) m := by
  have := set_append_cons (pre.map some) (some t) (some t')
    (post.map some ++ none :: List.replicate m (some new_token))
  simp only [List.length_map] at this
  simp [set_slot, closed_command, this]

/-- On a closed command whose tokens all pass `resolve_token`, the loop of
`resolve_env_variables` returns the closed command of the resulting tokens. -/
theorem resolve_env_from_closed (getenv : List Char → Option (List Char)) (m : Nat) :
    ∀ (post post' : List Token),
    List.Forall₂ (fun t t' => resolve_token getenv t = .ok t') post post' →
    ∀ (pre : List Token),
    resolve_env_from getenv post.length pre.length (closed_command (pre ++ post) m)
      = .ok (closed_command (pre ++ post') m) := by
  intro post post' h
  induction h with
  | nil => intro pre; rfl
  | @cons t t' ts ts' hx _ ih =>
    intro pre
    have := ih (pre ++ [t'])
    simp only [List.length_append, List.length_cons, List.length_nil, List.append_assoc,
      List.singleton_append] at this
    simp only [List.length_cons, resolve_env_from, get_token_closed, hx, set_slot_closed,
      bind, Except.bind]
    exact this

theorem resolve_env_closed (getenv : List Char → Option (List Char)) (m : Nat)
    (ts ts' : List Token)
    (h : List.Forall₂ (fun t t' => resolve_token getenv t = .ok t') ts ts') :
    resolve_env_variables getenv (closed_command ts m) = .ok (closed_command ts' m) := by
  have := resolve_env_from_closed getenv m ts ts' h []
  simpa [resolve_env_variables, closed_command] using this

theorem resolve_env_from_fail (getenv : List Char → Option (List Char)) (n i : Nat)
    (command : Command) (token : Token) (e : Fault)
    (h1 : get_token command (i : Int) = .ok token) (h2 : resolve_token getenv token = .error e) :
    resolve_env_from getenv (n + 1) i command = .error e := by
  simp only [resolve_env_from, h1, h2, bind, Except.bind]

/-! ## The properties `C11` .. `C13` -/

/-- C11 (the code departs from the specification). The line `echo $BIG` is parsed
into one command with the tokens `echo` and `$BIG`, of capacity 100; when the value
of `BIG` has 100 characters, `resolve_env_variables` does not leave the value in the
token: the capacity is not raised and `strcpy` writes the terminator after the end
of the buffer. -/
theorem C11_value_as_long_as_capacity :
    parse_input (line_buffer "echo $BIG".toList)
      = .ok (some (ParsedInput.mk 10 1
          (closed_command [token_of "echo".toList, token_of "$BIG".toList] 7
            :: List.replicate 9 new_command))) ∧
    example_env "BIG".toList = some (List.replicate 100 'v') ∧
    resolve_env_variables example_env
        (closed_command [token_of "echo".toList, token_of "$BIG".toList] 7)
      = .error .outOfBounds :=
  ⟨by rfl, by rfl, by rfl⟩

/-- C12. Whenever `resolve_env_variables` returns, the command has the same number
of tokens in the same cells; every token that does not start with `$` is the same
token as before (same content, same capacity); the token of each cell below `len`
is the result of the substitution on the token of that cell; the cells from `len`
on are not touched. -/
theorem C12_other_tokens_unchanged (getenv : List Char → Option (List Char))
    (command command' : Command)
    (h : resolve_env_variables getenv command = .ok command') :
    command'.len = command.len ∧ command'.tokens.length = command.tokens.length ∧
    (∀ (i : Nat) (token : Token), command.tokens[i]? = some (some token) →
      token.buffer[0]? ≠ some (some '$') → command'.tokens[i]? = some (some token)) ∧
    (∀ (i : Nat), i < command.len → ∃ t t', command.tokens[i]? = some (some t) ∧
      command'.tokens[i]? = some (some t') ∧ resolve_token getenv t = .ok t') ∧
    (∀ (i : Nat), command.len ≤ i → command'.tokens[i]? = command.tokens[i]?) := by
  obtain ⟨hlen, _, htl, hout, hin⟩ := resolve_env_from_spec getenv _ _ _ _ h
  refine ⟨hlen, htl, ?_, ?_, ?_⟩
  · intro i token hi hfirst
    by_cases hlt : i < command.len
    · obtain ⟨t, t', ht, ht', hr⟩ := hin i (by omega) (by omega)
      rw [hi] at ht
      simp only [Option.some.injEq] at ht
      subst ht
      rw [ht', resolve_token_other getenv token t' hr hfirst]
    · rw [hout i (by omega), hi]
  · intro i hi
    exact hin i (by omega) (by omega)
  · intro i hi
    exact hout i (by omega)

/-- C12 at the command `echo $HOME x` with `HOME=/home/u`: the tokens `echo` and `x`
are unchanged. -/
theorem C12_other_tokens_unchanged_witness :
    resolve_env_variables example_env
        (closed_command [token_of "echo".toList, token_of "$HOME".toList, token_of "x".toList] 6)
      = .ok (closed_command
          [token_of "echo".toList, token_of "/home/u".toList, token_of "x".toList] 6) ∧
    (closed_command
        [token_of "echo".toList, token_of "/home/u".toList, token_of "x".toList] 6).tokens[2]?
      = some (some (token_of "x".toList)) :=
  ⟨by rfl,
   (C12_other_tokens_unchanged example_env
      (closed_command [token_of "echo".toList, token_of "$HOME".toList, token_of "x".toList] 6)
      (closed_command [token_of "echo".toList, token_of "/home/u".toList, token_of "x".toList] 6)
      (by rfl)).2.2.1 2 (token_of "x".toList) (by rfl) (by decide)⟩

/-- C13 (the code departs from the specification). For every token `$name` that
satisfies the invariant (its buffer has `max_len` cells and holds a terminated
string) and every environment in which the value of `name` has exactly `max_len`
characters, `resolve_env_variables` does not resize the token (`max_len < strlen`
is false) and `strcpy` writes `max_len + 1` bytes into the `max_len` cells: the
terminator is written outside the buffer. -/
theorem C13_capacity_overflow (getenv : List Char → Option (List Char)) (token : Token)
    (name v : List Char) (m : Nat) (h : token.holds ('$' :: name))
    (hv : getenv name = some v) (hlen : v.length = token.max_len) :
    resolve_token getenv token = .error .outOfBounds ∧
    resolve_env_variables getenv (closed_command [token] m) = .error .outOfBounds := by
  have h1 := resolve_token_overflow getenv token name v h hv hlen
  refine ⟨h1, ?_⟩
  have hget : get_token (closed_command [token] m) ((0 : Nat) : Int) = .ok token :=
    get_token_closed [] token [] m
  exact resolve_env_from_fail getenv 0 0 _ token _ hget h1

/-- C13 at the token `$BIG` of capacity 100 with a value of 100 characters. -/
theorem C13_capacity_overflow_witness :
    resolve_token example_env (token_of "$BIG".toList) = .error .outOfBounds ∧
    resolve_env_variables example_env (closed_command [token_of "$BIG".toList] 8)
      = .error .outOfBounds :=
  C13_capacity_overflow example_env (token_of "$BIG".toList) "BIG".toList
    (List.replicate 100 'v') 8 ⟨by rfl, by rfl⟩ (by rfl) (by rfl)

/-! ## `resolve_path` -/

theorem strtok_from_append (d : List Char) (hd : ':' ∉ d) : ∀ (cur rest : List Char),
    strtok_from cur (d ++ rest) = strtok_from (cur ++ d) rest := by
  induction d with
  | nil => intro cur rest; simp
  | cons c cs ih =>
    intro cur rest
    simp only [List.mem_cons, not_or] at hd
    have hc : c ≠ ':' := fun e => hd.1 e.symm
    show strtok_from cur (c :: (cs ++ rest)) = _
    simp only [strtok_from, hc, if_false]
    rw [ih hd.2]
    simp

/-- The tokens of `strtok` on fields joined by colons are the non-empty fields. -/
theorem strtok_all_join : ∀ (fields : List (List Char)), (∀ f ∈ fields, ':' ∉ f) →
    strtok_all (join_with [':'] fields) = fields.filter (· ≠ []) := by
  intro fields
  induction fields with
  | nil => intro _; rfl
  | cons f rest ih =>
    intro h
    have hf : ':' ∉ f := h f (List.mem_cons_self _ _)
    have hrest := ih (fun g hg => h g (List.mem_cons_of_mem _ hg))
    cases rest with
    | nil =>
      have := strtok_from_append f hf [] []
      simp only [List.append_nil, List.nil_append] at this
      simp only [strtok_all, join_with, this, strtok_from]
      by_cases he : f = []
      · simp [he]
      · simp [he]
    | cons g rest2 =>
      have := strtok_from_append f hf [] (':' :: join_with [':'] (g :: rest2))
      simp only [List.nil_append] at this
      simp only [strtok_all] at hrest
      simp only [strtok_all, join_with, List.append_assoc, List.singleton_append, this,
        strtok_from, if_true, hrest]
      by_cases he : f = []
      · simp [he]
      · simp [he]

theorem make_full_path_ok (ptr executable : List Char) (h : ptr ≠ []) :
    make_full_path ptr executable
      = .ok (if ptr.getLast? = some '/' then ptr ++ executable
             else ptr ++ '/' :: executable) := by
  rcases eq_nil_or_snoc ptr with rfl | ⟨init, last, rfl⟩
  · exact absurd rfl h
  · simp only [make_full_path, List.getLast?_append, List.getLast?_singleton, Option.or_some]
    by_cases hl : last = '/'
    · subst hl
      simp
      omega
    · have : ¬ (some last = some '/') := fun e => hl (Option.some.inj e)
      simp [hl, this]
      omega

theorem search_path_spec (access : List Char → Bool) (executable : List Char) :
    ∀ (dirs : List (List Char)), (∀ d ∈ dirs, d ≠ []) →
    search_path access executable dirs
      = .ok ((dirs.map (fun d => if d.getLast? = some '/' then d ++ executable
                                 else d ++ '/' :: executable)).find? access) := by
  intro dirs
  induction dirs with
  | nil => intro _; rfl
  | cons d rest ih =>
    intro h
    have hd := make_full_path_ok d executable (h d (List.mem_cons_self _ _))
    have hrest := ih (fun g hg => h g (List.mem_cons_of_mem _ hg))
    simp only [search_path, hd, bind, Except.bind, List.map_cons, List.find?_cons]
    cases ha : access (if d.getLast? = some '/' then d ++ executable
        else d ++ '/' :: executable) with
    | true => simp
    | false => simp [hrest]

/-- C14. For every command name that is not a built-in and holds no `'/'`, every
value of `PATH`, given by its fields between colons, and every file-existence
predicate, `resolve_path` returns the first of the paths `d/name` (`d name` when
`d` ends with `'/'`) that exists, `d` ranging over the non-empty fields of `PATH`
in order, and `NULL` when none exists. -/
theorem C14_path_search (getenv : List Char → Option (List Char))
    (realpath : List Char → Option (List Char)) (access : List Char → Bool)
    (executable : List Char) (fields : List (List Char))
    (hfields : ∀ f ∈ fields, ':' ∉ f) (hb : executable ∉ builtins)
    (hs : '/' ∉ executable) (hpath : getenv "PATH".toList = some (join_with [':'] fields)) :
    resolve_path getenv realpath access executable
      = .ok (((fields.filter (· ≠ [])).map
          (fun d => if d.getLast? = some '/' then d ++ executable
                    else d ++ '/' :: executable)).find? access) := by
  simp only [resolve_path, hb, hs, if_false, hpath, strtok_all_join fields hfields]
  apply search_path_spec
  intro d hd
  simpa using (List.mem_filter.mp hd).2

/-- C14 at the name `ls` with `PATH=/usr/bin:/bin/`, when only `/bin/ls` exists, and
at the name `zz`, which exists nowhere. -/
theorem C14_path_search_witness :
    resolve_path example_env (fun path => some path) (fun path => path == "/bin/ls".toList)
        "ls".toList = .ok (some "/bin/ls".toList) ∧
    resolve_path example_env (fun path => some path) (fun _ => false) "zz".toList
      = .ok none :=
  ⟨C14_path_search example_env (fun path => some path) (fun path => path == "/bin/ls".toList)
      "ls".toList ["/usr/bin".toList, "/bin/".toList] (by decide) (by decide) (by decide)
      (by rfl),
   C14_path_search example_env (fun path => some path) (fun _ => false)
      "zz".toList ["/usr/bin".toList, "/bin/".toList] (by decide) (by decide) (by decide)
      (by rfl)⟩

/-! ## The pipes -/

/-- The loop that creates the pipes keeps the length of `pipefds`, leaves the cells
outside its range as they are and stores the two ends of the pipe `j` in the cells
`2 * j` and `2 * j + 1`. -/
theorem setup_pipes_from_spec : ∀ (fuel n : Nat) (pipefds : List (Option Fd)),
    (setup_pipes_from fuel n pipefds).length = pipefds.length ∧
    (∀ i, (i < 2 * n ∨ 2 * (n + fuel) ≤ i) →
      (setup_pipes_from fuel n pipefds)[i]? = pipefds[i]?) ∧
    (∀ j, n ≤ j → j < n + fuel → 2 * j + 1 < pipefds.length →
      (setup_pipes_from fuel n pipefds)[2 * j]? = some (some ⟨j, .read⟩) ∧
      (setup_pipes_from fuel n pipefds)[2 * j + 1]? = some (some ⟨j, .write⟩)) := by
  intro fuel
  induction fuel with
  | zero =>
    intro n pipefds
    exact ⟨rfl, fun _ _ => rfl, fun j h1 h2 => by omega⟩
  | succ fuel ih =>
    intro n pipefds
    obtain ⟨hlen, hout, hin⟩ := ih (n + 1)
      ((pipefds.set (n * 2) (some ⟨n, .read⟩)).set (n * 2 + 1) (some ⟨n, .write⟩))
    simp only [List.length_set] at hlen hin
    refine ⟨hlen, ?_, ?_⟩
    · intro i hi
      simp only [setup_pipes_from]
      rw [hout i (by omega)]
      simp only [List.getElem?_set]
      rw [if_neg (by omega), if_neg (by omega)]
    · intro j h1 h2 h3
      simp only [setup_pipes_from]
      by_cases hj : j = n
      · subst hj
        rw [hout (2 * j) (by omega), hout (2 * j + 1) (by omega)]
        simp only [List.getElem?_set, List.length_set]
        constructor
        · rw [if_neg (by omega), if_pos (by omega), if_pos (by omega)]
        · rw [if_pos (by omega), if_pos (by omega)]
      · exact hin j (by omega) (by omega) h3

/-- C15. In a pipeline of `N >= 2` stages, for every `k` with `1 <= k <= N - 1`, the
slot the stage `k` duplicates onto its standard input, `pipefds[2k - 2]`, and the
slot the stage `k - 1` duplicates onto its standard output, `pipefds[2(k - 1) + 1]`,
hold the read end and the write end of the same pipe, the pipe `k - 1` of the
`N - 1` pipes created before the loop; both slots lie in the array of `2(N - 1)`
descriptors; the first stage redirects no input and the last stage no output. -/
theorem C15_pipe_slots (N k : Nat) (hN : 2 ≤ N) (hk1 : 1 ≤ k) (hk : k ≤ N - 1) :
    child_stdin k = some (2 * k - 2) ∧ child_stdout N (k - 1) = some (2 * (k - 1) + 1) ∧
    (setup_pipes (N - 1))[2 * k - 2]? = some (some ⟨k - 1, .read⟩) ∧
    (setup_pipes (N - 1))[2 * (k - 1) + 1]? = some (some ⟨k - 1, .write⟩) ∧
    (setup_pipes (N - 1)).length = 2 * (N - 1) ∧
    2 * k - 2 < 2 * (N - 1) ∧ 2 * (k - 1) + 1 < 2 * (N - 1) ∧
    child_stdin 0 = none ∧ child_stdout N (N - 1) = none := by
  obtain ⟨hlen, _, hin⟩ := setup_pipes_from_spec (N - 1) 0 (List.replicate (2 * (N - 1)) none)
  simp only [List.length_replicate] at hlen hin
  obtain ⟨hr, hw⟩ := hin (k - 1) (by omega) (by omega) (by omega)
  have e : 2 * k - 2 = 2 * (k - 1) := by omega
  refine ⟨?_, ?_, ?_, hw, hlen, by omega, by omega, ?_, ?_⟩
  · simp only [child_stdin]; rw [if_pos (by omega)]
  · simp only [child_stdout]; rw [if_pos (by omega)]
  · rw [e]; exact hr
  · simp [child_stdin]
  · simp only [child_stdout]; rw [if_neg (by omega)]

/-- C15 at the second and third stages of a pipeline of three stages. -/
theorem C15_pipe_slots_witness :
    child_stdin 2 = some 2 ∧ child_stdout 3 1 = some 3 ∧
    (setup_pipes 2)[2]? = some (some ⟨1, .read⟩) ∧
    (setup_pipes 2)[3]? = some (some ⟨1, .write⟩) ∧
    (setup_pipes 2).length = 4 ∧ 2 < 4 ∧ 3 < 4 ∧
    child_stdin 0 = none ∧ child_stdout 3 2 = none :=
  C15_pipe_slots 3 2 (by decide) (by decide) (by decide)

/-! ## The argument vector and the sentinel of a closed command -/

theorem get_slot_closed_token (pre : List Token) (t : Token) (post : List Token) (m : Nat) :
    get_slot (closed_command (pre ++ t :: post) m) (pre.length : Int) = .ok (some t) := by
  have h0 : ¬ ((pre.length : Int) < 0) := by omega
  have := getElem?_append_cons (pre.map some) (some t)
    (post.map some ++ none :: List.replicate m (some new_token))
  simp only [List.length_map] at this
  simp only [get_slot, h0, if_false, Int.toNat_ofNat, closed_command, List.map_append,
    List.map_cons, List.append_assoc, List.cons_append, this]

theorem get_slot_closed_null (ts : List Token) (m : Nat) :
    get_slot (closed_command ts m) (ts.length : Int) = .ok none := by
  have h0 : ¬ ((ts.length : Int) < 0) := by omega
  have := getElem?_append_cons (ts.map some) none (List.replicate m (some new_token))
  simp only [List.length_map] at this
  simp only [get_slot, h0, if_false, Int.toNat_ofNat, closed_command, this]

theorem build_argv_step (command : Command) (n i : Nat) (tokens : List Arg) (token : Token)
    (h : get_slot command (i : Int) = .ok (some token)) :
    build_argv_from command (n + 1) i tokens
      = build_argv_from command n (i + 1) (tokens.set i (.buffer token.buffer)) := by
  simp only [build_argv_from, h, bind, Except.bind]

theorem execve_argv_buffer (cells : List (Option Char)) (rest : List Arg) (s : List Char)
    (ss : List (List Char)) (h1 : read_cells cells = .ok s) (h2 : execve_argv rest = .ok ss) :
    execve_argv (Arg.buffer cells :: rest) = .ok (s :: ss) := by
  simp only [execve_argv, h1, h2, bind, Except.bind]

theorem build_argv_from_closed (m : Nat) : ∀ (post pre : List Token),
    build_argv_from (closed_command (pre ++ post) m) (post.length + 1) pre.length
        (pre.map (fun t => Arg.buffer t.buffer)
          ++ List.replicate (post.length + 1) Arg.unwritten)
      = .ok (pre.map (fun t => Arg.buffer t.buffer)
          ++ post.map (fun t => Arg.buffer t.buffer) ++ [Arg.null]) := by
  intro post
  induction post with
  | nil =>
    intro pre
    have hs := set_append_cons (pre.map (fun t => Arg.buffer t.buffer)) Arg.unwritten
      Arg.null []
    simp only [List.length_map] at hs
    simp only [List.append_nil, List.length_nil, Nat.zero_add, build_argv_from,
      get_slot_closed_null, bind, Except.bind, List.replicate_one, hs, List.map_nil]
  | cons t post ih =>
    intro pre
    have hs := set_append_cons (pre.map (fun t => Arg.buffer t.buffer)) Arg.unwritten
      (Arg.buffer t.buffer) (List.replicate (post.length + 1) Arg.unwritten)
    simp only [List.length_map] at hs
    have h := ih (pre ++ [t])
    simp only [List.append_assoc, List.singleton_append, List.length_append,
      List.length_cons, List.length_nil, Nat.zero_add, List.map_append, List.map_cons,
      List.map_nil] at h
    rw [List.length_cons, build_argv_step _ _ _ _ _ (get_slot_closed_token pre t post m),
      List.replicate_succ, hs]
    simp only [List.map_cons, List.append_assoc, List.cons_append]
    exact h

theorem execve_argv_holds (ts : List Token) (stage : List (List Char))
    (h : List.Forall₂ Token.holds ts stage) :
    execve_argv (ts.map (fun t => Arg.buffer t.buffer) ++ [Arg.null]) = .ok stage := by
  induction h with
  | nil => rfl
  | cons hx _ ih =>
    exact execve_argv_buffer _ _ _ _ (read_cells_of_cells_str _ _ hx.2) ih

/-- The program of a closed command receives the words of the command. -/
theorem child_argv_closed (ts : List Token) (m : Nat) (stage : List (List Char))
    (h : List.Forall₂ Token.holds ts stage) :
    child_argv (closed_command ts m) = .ok stage := by
  have hb := build_argv_from_closed m ts []
  simp only [List.nil_append, List.length_nil, List.map_nil] at hb
  have hlen : (closed_command ts m).len = ts.length := rfl
  simp only [child_argv, build_argv, hlen, hb, bind, Except.bind]
  exact execve_argv_holds ts stage h

theorem indexOf_none_map_some (xs : List Token) (tl : List (Option Token)) :
    (xs.map some ++ none :: tl).indexOf none = xs.length := by
  induction xs with
  | nil => simp [List.indexOf_cons]
  | cons x xs ih =>
    simp only [List.map_cons, List.cons_append, List.length_cons, List.indexOf_cons, ih]
    rfl

/-- The sentinel of a closed command is at its recorded length. -/
theorem sentinel_closed (ts : List Token) (m : Nat) :
    (closed_command ts m).sentinel = some (closed_command ts m).len := by
  have h := indexOf_none_map_some ts (List.replicate m (some new_token))
  simp only [Command.sentinel, closed_command, h, List.length_append, List.length_map,
    List.length_cons, List.length_replicate]
  rw [if_pos (by omega)]

/-! ## The properties `C16` and `C20` -/

/-- C16 (the code departs from the specification). On the line `a |`, with a `PATH`
in which both names resolve, `execute_input` creates two children; the first
receives the argument vector `["a"]`, but the array built for the second, whose
command has the recorded length `0` and a first token that is not `NULL`, has one
cell, the pointer to the empty token, and no terminating `NULL`: `execve` reads
after the end of the array. -/
theorem C16_argv_without_terminator :
    forked_argvs (execute_input example_os (line_buffer "a |".toList) example_world)
      = some [.ok ["a".toList], .error .outOfBounds] :=
  by rfl

/-- C20 (the code departs from the specification). On the line `a |`, the second
stage of the pipeline returned has the recorded length `0` and no `NULL` cell at
all in its array of tokens, while the first stage has length `1` and its sentinel
in the cell `1`. -/
theorem C20_unclosed_last_stage :
    stage_sentinels (parse_input (line_buffer "a |".toList))
      = some [(1, some 1), (0, none)] :=
  by decide

/-! ## The loop over the stages -/

/-- The first `a` iterations, then the following ones when these all reach the end
of the body. -/
theorem execute_stages_add (os : OS) (p : ParsedInput) : ∀ (a b n : Nat) (w : World),
    execute_stages os p (a + b) n w =
      (match execute_stages os p a n w with
       | .ok (w', .next) => execute_stages os p b (n + a) w'
       | r => r) := by
  intro a
  induction a with
  | zero => intro b n w; simp [execute_stages]
  | succ a ih =>
    intro b n w
    have e : a + 1 + b = (a + b) + 1 := by omega
    rw [e]
    simp only [execute_stages, bind, Except.bind]
    cases hs : execute_stage os p n w with
    | error err => rfl
    | ok r =>
      obtain ⟨w1, step⟩ := r
      cases step with
      | next =>
        simp only
        rw [ih b (n + 1) w1]
        have e2 : n + 1 + a = n + (a + 1) := by omega
        rw [e2]
      | stop => rfl
      | exit status => rfl

/-- The stage `cd` with another number of tokens than 2. -/
theorem execute_stage_cd_skip (os : OS) (p : ParsedInput) (n : Nat) (w : World)
    (c0 command : Command) (first : Token)
    (hc0 : get_command p n = .ok c0) (hcmd : resolve_env_variables w.env c0 = .ok command)
    (hfirst : get_token command 0 = .ok first)
    (hname : read_str first.buffer 0 = .ok "cd".toList) (hlen : command.len ≠ 2) :
    execute_stage os p n w = .ok (w, .next) := by
  have h1 : "cd".toList ≠ "exit".toList := by decide
  simp only [execute_stage, hc0, hcmd, hfirst, hname, h1, hlen, if_true, if_false, bind,
    Except.bind]

/-! ## The properties `C17` .. `C19` -/

/-- What `change_dir` does where it is defined. When `chdir` succeeds, `PWD` being
set and `realpath` having returned the canonical path, `OLDPWD` becomes the
previous value of `PWD`, `PWD` becomes the canonical path, the other variables keep
their values and nothing is printed. When `chdir` fails, the environment and the
working directory are unchanged and exactly one message is printed, chosen by
`errno`. -/
theorem change_dir_defined (os : OS) (dir : List Char) (w : World) :
    (∀ cwd old new, os.chdir w.cwd dir = .ok cwd → w.env "PWD".toList = some old →
      os.realpath w.cwd dir = some new →
      ∃ w', change_dir os dir w = .ok w' ∧ w'.env "OLDPWD".toList = some old ∧
        w'.env "PWD".toList = some new ∧
        (∀ name, name ≠ "OLDPWD".toList → name ≠ "PWD".toList → w'.env name = w.env name) ∧
        w'.cwd = cwd ∧ w'.log = w.log) ∧
    (∀ errno, os.chdir w.cwd dir = .error errno →
      ∃ text, change_dir os dir w = .ok { w with log := w.log ++ [.print text] } ∧
        (errno = ENOTDIR → text = "cd: not a directory: ".toList ++ dir ++ ['\n']) ∧
        (errno = ENOENT → text = "cd: no such file or directory: ".toList ++ dir ++ ['\n']) ∧
        (errno = EACCES → text = "cd: permission denied: ".toList ++ dir ++ ['\n']) ∧
        (errno ≠ ENOTDIR → errno ≠ ENOENT → errno ≠ EACCES →
          text = "cd: error ".toList ++ (Nat.repr errno).toList ++ " occurred: ".toList
            ++ dir ++ ['\n'])) := by
  constructor
  · intro cwd old new hch hpwd hreal
    refine ⟨{ w with
        env := fun n => if n = "PWD".toList then some new
          else if n = "OLDPWD".toList then some old else w.env n
        cwd := cwd }, ?_, ?_, ?_, ?_, rfl, rfl⟩
    · simp only [change_dir, hch, hpwd, hreal, setenv, bind, Except.bind]
    · simp
    · simp
    · intro name h1 h2
      simp only
      rw [if_neg h2, if_neg h1]
  · intro errno hch
    refine ⟨cd_message errno dir, ?_, ?_, ?_, ?_, ?_⟩
    · simp only [change_dir, hch]
    · intro e; subst e; rfl
    · intro e; subst e; rfl
    · intro e; subst e; rfl
    · intro h1 h2 h3
      simp only [cd_message, h1, h2, h3, if_false]

/-- The two defined cases at `cd /tmp` when `chdir` succeeds, and at `cd nowhere`
when it fails with `ENOENT`. -/
theorem change_dir_defined_example :
    (∃ w', change_dir { example_os with chdir := fun _ dir => .ok dir } "/tmp".toList
          example_world = .ok w' ∧
        w'.env "OLDPWD".toList = some "/home/u".toList ∧
        w'.env "PWD".toList = some "/tmp".toList ∧
        w'.env "HOME".toList = some "/home/u".toList ∧
        w'.cwd = "/tmp".toList ∧ w'.log = []) ∧
    change_dir example_os "nowhere".toList example_world
      = .ok { example_world with
          log := [.print "cd: no such file or directory: nowhere\n".toList] } :=
  ⟨match (change_dir_defined { example_os with chdir := fun _ dir => .ok dir } "/tmp".toList
        example_world).1 "/tmp".toList "/home/u".toList "/tmp".toList (by rfl) (by rfl)
        (by rfl) with
    | ⟨w', h1, h2, h3, h4, h5, h6⟩ =>
      ⟨w', h1, h2, h3, (h4 "HOME".toList (by decide) (by decide)).trans (by rfl), h5, h6⟩,
   match (change_dir_defined example_os "nowhere".toList example_world).2 ENOENT (by rfl) with
    | ⟨_, h1, _, h3, _⟩ => h1.trans (by rw [h3 rfl]; rfl)⟩

/-- C18 (the code departs from the specification). Whenever `chdir` succeeds while
`PWD` is unset, or while `realpath` has returned `NULL`, `change_dir` does not
update the environment as described: neither pointer is tested (lines 108-114),
`setenv` is called with a `NULL` value, and the behaviour is undefined, the working
directory having already been changed. -/
theorem C18_chdir_with_null_value (os : OS) (dir : List Char) (w : World) (cwd : List Char)
    (hch : os.chdir w.cwd dir = .ok cwd)
    (hnull : w.env "PWD".toList = none ∨ os.realpath w.cwd dir = none) :
    change_dir os dir w = .error .nullDeref := by
  cases hpwd : w.env "PWD".toList with
  | none => simp only [change_dir, hch, hpwd, setenv, bind, Except.bind]
  | some old =>
    rcases hnull with h | h
    · rw [hpwd] at h; exact Option.noConfusion h
    · simp only [change_dir, hch, hpwd, h, setenv, bind, Except.bind]

/-- C18 at the line `cd /tmp` in an empty environment (the interpreter started by
`env -i`), the directory `/tmp` existing: `change_dir`, and with it
`execute_input`, is undefined. -/
theorem C18_chdir_with_null_value_witness :
    change_dir { example_os with chdir := fun _ dir => .ok dir } "/tmp".toList
        { example_world with env := fun _ => none } = .error .nullDeref ∧
    execute_input { example_os with chdir := fun _ dir => .ok dir }
        (line_buffer "cd /tmp".toList) { example_world with env := fun _ => none }
      = .error .nullDeref :=
  ⟨C18_chdir_with_null_value { example_os with chdir := fun _ dir => .ok dir }
      "/tmp".toList { example_world with env := fun _ => none } "/tmp".toList (by rfl)
      (Or.inl (by rfl)),
   by rfl⟩

/-- C19. A stage whose first token, after the substitution, is `cd` and whose number
of tokens is not 2 leaves the state of the process as it is (working directory,
environment, nothing printed, no child) and the loop goes on with the next stage. -/
theorem C19_cd_other_arity (os : OS) (p : ParsedInput) (n : Nat) (w : World)
    (c0 command : Command) (first : Token)
    (hc0 : get_command p n = .ok c0) (hcmd : resolve_env_variables w.env c0 = .ok command)
    (hfirst : get_token command 0 = .ok first)
    (hname : read_str first.buffer 0 = .ok "cd".toList) (hlen : command.len ≠ 2) :
    execute_stage os p n w = .ok (w, .next) ∧
    ∀ fuel, execute_stages os p (fuel + 1) n w = execute_stages os p fuel (n + 1) w := by
  have h := execute_stage_cd_skip os p n w c0 command first hc0 hcmd hfirst hname hlen
  refine ⟨h, ?_⟩
  intro fuel
  simp only [execute_stages, h, bind, Except.bind]

/-- C19 at the lines `cd` and `cd x y`: nothing is done. -/
theorem C19_cd_other_arity_witness :
    parse_input (line_buffer "cd x y".toList)
      = .ok (some (ParsedInput.mk 10 1
          (closed_command [token_of "cd".toList, token_of "x".toList, token_of "y".toList] 6 ::
            List.replicate 9 new_command))) ∧
    execute_stage example_os
        (ParsedInput.mk 10 1
          (closed_command [token_of "cd".toList, token_of "x".toList, token_of "y".toList] 6 ::
            List.replicate 9 new_command)) 0 example_world
      = .ok (example_world, .next) :=
  ⟨by rfl,
   (C19_cd_other_arity example_os
      (ParsedInput.mk 10 1
        (closed_command [token_of "cd".toList, token_of "x".toList, token_of "y".toList] 6 ::
          List.replicate 9 new_command)) 0 example_world
      (closed_command [token_of "cd".toList, token_of "x".toList, token_of "y".toList] 6)
      (closed_command [token_of "cd".toList, token_of "x".toList, token_of "y".toList] 6)
      (token_of "cd".toList) (by rfl) (by rfl) (by rfl) (by rfl) (by decide)).1⟩

/-! ## The two failures of the parser -/

/-- The word-level automaton rejects a character exactly in the state `PIPE` on a
pipe. -/
theorem step_none_iff (a : Scan) (c : Char) :
    a.step c = none ↔ a.after_pipe = true ∧ c = '|' := by
  cases a with
  | inWord done ws w => simp only [Scan.step, Scan.after_pipe]; split_ifs <;> simp
  | inQuoted done ws w => simp only [Scan.step, Scan.after_pipe]; split_ifs <;> simp
  | white done ws => simp only [Scan.step, Scan.after_pipe]; split_ifs <;> simp
  | pipe done =>
    have h1 : ¬ ('|' = ' ') := by decide
    by_cases hc : c = '|'
    · subst hc; simp [Scan.step, Scan.after_pipe, h1]
    · simp only [Scan.step, Scan.after_pipe, hc, if_false, and_false, iff_false]
      split_ifs <;> simp

/-- The state `PIPE` is reached exactly by a pipe read outside quotes. -/
theorem step_after_pipe (a a' : Scan) (c : Char) (h : a.step c = some a') :
    a'.after_pipe = (decide (c = '|') && !a.quoted) := by
  have h1 : ¬ ('|' = ' ') := by decide
  have h2 : ¬ ('|' = '"') := by decide
  cases a with
  | inWord done ws w =>
    by_cases hc : c = '|'
    · subst hc
      simp only [Scan.step, h1, if_true, if_false, Option.some.injEq] at h
      subst h; rfl
    · simp only [Scan.step, hc, if_false] at h
      split_ifs at h <;>
        (simp only [Option.some.injEq] at h; subst h; simp [Scan.after_pipe, hc])
  | inQuoted done ws w =>
    simp only [Scan.step] at h
    split_ifs at h <;>
      (simp only [Option.some.injEq] at h; subst h; simp [Scan.after_pipe, Scan.quoted])
  | white done ws =>
    by_cases hc : c = '|'
    · subst hc
      simp only [Scan.step, h1, if_true, if_false, Option.some.injEq] at h
      subst h; rfl
    · simp only [Scan.step, hc, if_false] at h
      split_ifs at h <;>
        (simp only [Option.some.injEq] at h; subst h; simp [Scan.after_pipe, hc])
  | pipe done =>
    by_cases hc : c = '|'
    · subst hc
      simp [Scan.step, h1] at h
    · simp only [Scan.step, hc, if_false] at h
      split_ifs at h <;>
        (simp only [Option.some.injEq] at h; subst h; simp [Scan.after_pipe, hc])

/-- The word-level automaton rejects a text exactly when it begins with a pipe
read in the state `PIPE` or holds two adjacent pipes outside quotes. -/
theorem run_none_iff (l : List Char) : ∀ (a : Scan),
    a.run l = none ↔
      (a.after_pipe = true ∧ l.head? = some '|') ∨
        adjacent_pipes_outside_quotes a.quoted l = true := by
  induction l with
  | nil => intro a; simp [Scan.run, adjacent_pipes_outside_quotes]
  | cons c cs ih =>
    intro a
    simp only [Scan.run, List.head?_cons, Option.some.injEq]
    cases hs : a.step c with
    | none =>
      have := (step_none_iff a c).mp hs
      simp [this.1, this.2]
    | some a1 =>
      have hn : ¬ (a.after_pipe = true ∧ c = '|') := by
        intro h
        rw [(step_none_iff a c).mpr h] at hs
        exact Option.noConfusion hs
      have hq := step_quoted a a1 c hs
      have hp := step_after_pipe a a1 c hs
      rw [Option.some_bind, ih a1, hq, hp]
      by_cases hc : c = '"'
      · subst hc
        have h2 : ¬ ('"' = '|') := by decide
        simp [adjacent_pipes_outside_quotes, h2]
      · by_cases hb : c = '|'
        · subst hb
          have hap : a.after_pipe = false := by
            cases hv : a.after_pipe with
            | false => rfl
            | true => exact absurd ⟨hv, rfl⟩ hn
          cases hqa : a.quoted <;>
            simp [adjacent_pipes_outside_quotes, hc, hap, hqa]
        · simp [adjacent_pipes_outside_quotes, hc, hb]

/-- The word-level reading of a text fails exactly in the two cases: two adjacent
pipes outside quotes, or an odd number of double quotes. -/
theorem split_line_none_iff (input : List Char) :
    split_line input = none ↔
      adjacent_pipes_outside_quotes false input = true ∨ input.count '"' % 2 = 1 := by
  unfold split_line
  cases hr : Scan.run (.inWord [] [] []) input with
  | none =>
    have := (run_none_iff input _).mp hr
    simp only [Scan.after_pipe, Scan.quoted, Bool.false_eq_true, false_and, false_or] at this
    simp [this]
  | some a =>
    have hq := run_quoted input _ a hr
    have hnone : ¬ (adjacent_pipes_outside_quotes false input = true) := by
      intro h
      have := (run_none_iff input (.inWord [] [] [])).mpr (Or.inr h)
      rw [this] at hr
      exact Option.noConfusion hr
    simp only [Scan.quoted, Bool.false_xor] at hq
    rw [Option.some_bind]
    cases a with
    | inQuoted done ws w =>
      simp only [Scan.quoted] at hq
      have : input.count '"' % 2 = 1 := by simpa using hq.symm
      simp [Scan.finish, this]
    | inWord done ws w =>
      simp only [Scan.quoted] at hq
      have : ¬ (input.count '"' % 2 = 1) := by simpa using hq.symm
      simp [Scan.finish, this, hnone]
    | white done ws =>
      simp only [Scan.quoted] at hq
      have : ¬ (input.count '"' % 2 = 1) := by simpa using hq.symm
      simp [Scan.finish, this, hnone]
    | pipe done =>
      simp only [Scan.quoted] at hq
      have : ¬ (input.count '"' % 2 = 1) := by simpa using hq.symm
      simp [Scan.finish, this, hnone]

/-! ## The number of stages -/

theorem step_closed_stages (a a' : Scan) (c : Char) (h : a.step c = some a') :
    a'.closed_stages
      = a.closed_stages + (if c = '|' ∧ a.quoted = false then 1 else 0) := by
  have h1 : ¬ ('|' = ' ') := by decide
  cases a with
  | inWord done ws w =>
    by_cases hc : c = '|'
    · subst hc
      simp only [Scan.step, h1, if_true, if_false, Option.some.injEq] at h
      subst h; simp [Scan.closed_stages, Scan.quoted]
    · simp only [Scan.step, hc, if_false] at h
      split_ifs at h <;>
        (simp only [Option.some.injEq] at h; subst h; simp [Scan.closed_stages, hc])
  | inQuoted done ws w =>
    simp only [Scan.step] at h
    split_ifs at h <;>
      (simp only [Option.some.injEq] at h; subst h; simp [Scan.closed_stages, Scan.quoted])
  | white done ws =>
    by_cases hc : c = '|'
    · subst hc
      simp only [Scan.step, h1, if_true, if_false, Option.some.injEq] at h
      subst h; simp [Scan.closed_stages, Scan.quoted]
    · simp only [Scan.step, hc, if_false] at h
      split_ifs at h <;>
        (simp only [Option.some.injEq] at h; subst h; simp [Scan.closed_stages, hc])
  | pipe done =>
    by_cases hc : c = '|'
    · subst hc
      simp [Scan.step, h1] at h
    · simp only [Scan.step, hc, if_false] at h
      split_ifs at h <;>
        (simp only [Option.some.injEq] at h; subst h; simp [Scan.closed_stages, hc])

theorem run_closed_stages (l : List Char) : ∀ (a a' : Scan), a.run l = some a' →
    a'.closed_stages = a.closed_stages + pipes_outside_quotes a.quoted l := by
  induction l with
  | nil =>
    intro a a' h
    simp only [Scan.run, Option.some.injEq] at h
    subst h; simp [pipes_outside_quotes]
  | cons c cs ih =>
    intro a a' h
    simp only [Scan.run] at h
    cases hs : a.step c with
    | none => rw [hs] at h; exact Option.noConfusion h
    | some a1 =>
      rw [hs, Option.some_bind] at h
      rw [ih a1 a' h, step_closed_stages a a1 c hs, step_quoted a a1 c hs]
      by_cases hc : c = '"'
      · subst hc
        have h2 : ¬ ('"' = '|') := by decide
        simp [pipes_outside_quotes, h2]
      · by_cases hb : c = '|' ∧ a.quoted = false
        · simp [pipes_outside_quotes, hc, hb]; omega
        · simp [pipes_outside_quotes, hc, hb]

theorem finish_length (a : Scan) (r : List (List (List Char))) (h : a.finish = some r) :
    r.length = a.closed_stages + 1 := by
  cases a <;> simp only [Scan.finish, Option.some.injEq] at h <;>
    first
    | (subst h; simp [Scan.closed_stages])
    | exact Option.noConfusion h

/-- The word-level reading of a text returns one stage more than the text has pipes
outside quotes. -/
theorem split_line_length (input : List Char) (r : List (List (List Char)))
    (h : split_line input = some r) : r.length = 1 + pipes_outside_quotes false input := by
  unfold split_line at h
  cases hr : Scan.run (.inWord [] [] []) input with
  | none => rw [hr] at h; exact Option.noConfusion h
  | some a =>
    rw [hr, Option.some_bind] at h
    rw [finish_length a r h, run_closed_stages input _ a hr]
    simp [Scan.closed_stages, Scan.quoted]; omega

/-! ## The properties `C21` .. `C23` -/

/-- C21. On every line whose trimmed text is not empty, `parse_input` fails in the two
documented cases only: when the trimmed text has an even number of double quotes
and no two adjacent pipes outside quotes, a pipeline is returned; and `NULL` is
returned exactly when the number of double quotes is odd or two pipes outside
quotes are adjacent. -/
theorem C21_only_documented_failures (s : List Char) (hnul : NUL ∉ s)
    (hne : trimmed s ≠ []) :
    (((trimmed s).count '"' % 2 = 0 ∧
        adjacent_pipes_outside_quotes false (trimmed s) = false) →
      ∃ p, parse_input (line_buffer s) = .ok (some p)) ∧
    (parse_input (line_buffer s) = .ok none ↔
      ((trimmed s).count '"' % 2 = 1 ∨
        adjacent_pipes_outside_quotes false (trimmed s) = true)) := by
  rw [parse_input_line s hnul hne]
  have href := parse_trimmed_refines _ hne (trimmed_not_mem s NUL hnul)
  have hiff := split_line_none_iff (trimmed s)
  constructor
  · intro ⟨heven, hadj⟩
    rcases href with ⟨hsplit, _⟩ | ⟨p, r, _, hp, _, _⟩
    · rcases hiff.mp hsplit with h | h
      · rw [hadj] at h; exact Bool.noConfusion h
      · omega
    · exact ⟨p, hp⟩
  · constructor
    · intro h
      rcases href with ⟨hsplit, _⟩ | ⟨p, r, _, hp, _, _⟩
      · exact (hiff.mp hsplit).symm
      · rw [hp] at h
        simp only [Except.ok.injEq] at h
        exact Option.noConfusion h
    · intro h
      rcases href with ⟨_, hp⟩ | ⟨p, r, hsplit, _, _, _⟩
      · exact hp
      · rw [hiff.mpr h.symm] at hsplit
        exact Option.noConfusion hsplit

/-- C21 at the line `echo "a||b" | wc`, whose two adjacent pipes are inside quotes. -/
theorem C21_only_documented_failures_witness :
    ∃ p, parse_input (line_buffer ("echo ".toList ++ '"' :: "a||b".toList ++ '"' ::
      " | wc".toList)) = .ok (some p) :=
  (C21_only_documented_failures
    ("echo ".toList ++ '"' :: "a||b".toList ++ '"' :: " | wc".toList) (by decide)
    (by decide)).1 ⟨by decide, by decide⟩

/-- C22. Whenever `parse_input` returns a pipeline, the number of its stages is one
plus the number of pipe characters of the trimmed line that lie outside double
quotes: a pipe inside quotes starts no stage. -/
theorem C22_stage_count (s : List Char) (p : ParsedInput) (hnul : NUL ∉ s)
    (h : parse_input (line_buffer s) = .ok (some p)) :
    p.len = 1 + pipes_outside_quotes false (trimmed s) := by
  have hne := trimmed_ne_nil_of_parse s _ h
  rw [parse_input_line s hnul hne] at h
  rcases parse_trimmed_refines _ hne (trimmed_not_mem s NUL hnul) with
    ⟨_, hp⟩ | ⟨p', r, hsplit, hp, _, hlen⟩
  · rw [hp] at h
    simp only [Except.ok.injEq] at h
    exact Option.noConfusion h
  · rw [hp] at h
    simp only [Except.ok.injEq, Option.some.injEq] at h
    subst h
    rw [hlen, split_line_length _ r hsplit]

/-- C22 at the line `echo "a|b" | wc`: two stages, the pipe inside the quotes being
a character of the token `a|b`. -/
theorem C22_stage_count_witness :
    (ParsedInput.mk 10 2
      (closed_command [token_of "echo".toList, token_of "a|b".toList] 7 ::
        closed_command [token_of "wc".toList] 8 :: List.replicate 8 new_command)).len
      = 1 + 1 :=
  C22_stage_count ("echo ".toList ++ '"' :: "a|b".toList ++ '"' :: " | wc".toList)
    (ParsedInput.mk 10 2
      (closed_command [token_of "echo".toList, token_of "a|b".toList] 7 ::
        closed_command [token_of "wc".toList] 8 :: List.replicate 8 new_command))
    (by decide) (by rfl)

/-- C23. For every text without terminator inside, the loop of `parse_input` ends
without a fault: every access it makes (the command `commands[n_command]`, the
tokens `tokens[n_token]` and `tokens[n_token + 1]`, the cell
`buffer[n_token_char]`) is inside the array as allocated at that moment, and no
token is read at the index `-1`, since in the model each of these accesses is a
fault otherwise. The same holds of `parse_input` on every line whose trimmed text
is not empty. -/
theorem C23_accesses_within_capacity (input : List Char) (hnul : NUL ∉ input) :
    (∃ r, parse_trimmed input = .ok r) ∧
    (trimmed input ≠ [] → ∃ r, parse_input (line_buffer input) = .ok r) := by
  have key : ∀ (t : List Char), NUL ∉ t → ∃ r, parse_trimmed t = .ok r := by
    intro t ht
    by_cases he : t = []
    · subst he
      exact ⟨some new_parsed_input, by simp [parse_trimmed]⟩
    · rcases parse_trimmed_refines t he ht with ⟨_, hp⟩ | ⟨p, _, _, hp, _, _⟩
      · exact ⟨none, hp⟩
      · exact ⟨some p, hp⟩
  refine ⟨key input hnul, ?_⟩
  intro hne
  rw [parse_input_line input hnul hne]
  exact key _ (trimmed_not_mem input NUL hnul)

set_option maxRecDepth 100000 in
/-- C23 at a line that outgrows the three initial capacities: a first token of 100
characters (the initial `max_len`), 11 tokens in the first stage (`max_tokens` is
10) and 11 stages (`max_commands` is 10). -/
theorem C23_accesses_within_capacity_witness :
    (∃ r, parse_trimmed (List.replicate 100 'x' ++
      " a a a a a a a a a a | b | b | b | b | b | b | b | b | b | b".toList) = .ok r) ∧
    stage_lens (parse_input (line_buffer (List.replicate 100 'x' ++
      " a a a a a a a a a a | b | b | b | b | b | b | b | b | b | b".toList)))
      = some [11, 1, 1, 1, 1, 1, 1, 1, 1, 1, 1] :=
  ⟨(C23_accesses_within_capacity (List.replicate 100 'x' ++
      " a a a a a a a a a a | b | b | b | b | b | b | b | b | b | b".toList)
      (by decide)).1, by rfl⟩

/-! ## The descriptors the parent closes -/

theorem closed_slots_append (a b : List Event) :
    closed_slots (a ++ b) = closed_slots a ++ closed_slots b := by
  simp only [closed_slots, List.filterMap_append]

theorem closed_slots_pipes (l : List Nat) : closed_slots (l.map Event.pipe) = [] := by
  induction l with
  | nil => rfl
  | cons x xs ih =>
    simp only [closed_slots, List.map_cons, List.filterMap_cons] at ih ⊢
    exact ih

theorem closes_follow_forks_pipes (l : List Nat) (used : List Nat) :
    closes_follow_forks used (l.map Event.pipe) = true := by
  induction l with
  | nil => rfl
  | cons x xs ih => simpa only [List.map_cons, closes_follow_forks] using ih

theorem closes_follow_forks_append (a b : List Event)
    (hb : ∀ used, closes_follow_forks used b = true) : ∀ (used : List Nat),
    closes_follow_forks used a = true → closes_follow_forks used (a ++ b) = true := by
  induction a with
  | nil => intro used _; exact hb used
  | cons e es ih =>
    intro used h
    cases e with
    | fork pid path stdin stdout argv =>
      simp only [List.cons_append, closes_follow_forks] at h ⊢
      exact ih _ h
    | close slot =>
      simp only [List.cons_append, closes_follow_forks, Bool.and_eq_true] at h ⊢
      exact ⟨h.1, ih _ h.2⟩
    | print text =>
      simp only [List.cons_append, closes_follow_forks] at h ⊢
      exact ih _ h
    | perror text =>
      simp only [List.cons_append, closes_follow_forks] at h ⊢
      exact ih _ h
    | pipe n_pipe =>
      simp only [List.cons_append, closes_follow_forks] at h ⊢
      exact ih _ h
    | wait pid =>
      simp only [List.cons_append, closes_follow_forks] at h ⊢
      exact ih _ h

/-- The slots closed after the fork of the stage `n`: the write end of the pipe to
the next stage, if there is one, then the read end of the pipe from the previous
stage, if there is one. -/
theorem closed_slots_parent_closes (N n : Nat) :
    closed_slots (parent_closes N n)
      = (if n + 1 < N then [2 * n + 1] else []) ++ (if n ≠ 0 then [2 * n - 2] else []) := by
  simp only [parent_closes]
  split_ifs <;> rfl

/-- What the parent does for an external stage: the child, the closes, the wait;
the closes come after the creation of the child that uses the closed slots. -/
theorem closes_follow_forks_stage (N n : Nat) (hn : n < N) (pid : Nat) (path : List Char)
    (argv : Except Fault (List (List Char))) (used : List Nat) :
    closes_follow_forks used
      ([Event.fork pid path (child_stdin n) (child_stdout N n) argv] ++ parent_closes N n ++
        [Event.wait pid]) = true := by
  by_cases h1 : n + 1 < N
  · have h1' : n + 1 ≠ N := by omega
    by_cases h0 : n = 0
    · subst h0
      simp [closes_follow_forks, parent_closes, child_stdin, child_stdout, h1, h1']
    · simp [closes_follow_forks, parent_closes, child_stdin, child_stdout, h1, h1', h0]
  · have h1' : n + 1 = N := by omega
    by_cases h0 : n = 0
    · subst h0
      simp [closes_follow_forks, parent_closes, child_stdin, child_stdout, h1, h1']
    · simp [closes_follow_forks, parent_closes, child_stdin, child_stdout, h1, h1', h0]

theorem closed_slots_stage (N n : Nat) (pid : Nat) (path : List Char)
    (stdin stdout : Option Nat) (argv : Except Fault (List (List Char))) :
    closed_slots ([Event.fork pid path stdin stdout argv] ++ parent_closes N n ++
        [Event.wait pid]) = closed_slots (parent_closes N n) := by
  rw [closed_slots_append, closed_slots_append]
  simp [closed_slots]

theorem flatMap_range_succ (f : Nat → List Nat) (k : Nat) :
    (List.range (k + 1)).flatMap f = (List.range k).flatMap f ++ f k := by
  rw [List.range_succ, List.flatMap_append, List.flatMap_singleton]

theorem range_add_two (m : Nat) : List.range (m + 2) = List.range m ++ [m, m + 1] := by
  rw [show m + 2 = (m + 1) + 1 from rfl, List.range_succ, List.range_succ, List.append_assoc]
  rfl

/-- The slots closed during the stages `0 .. j` of a pipeline with at least one
more stage. -/
theorem parent_closes_perm_upto (N : Nat) : ∀ (j : Nat), j + 1 < N →
    ((List.range (j + 1)).flatMap (fun n => closed_slots (parent_closes N n))).Perm
      (List.range (2 * j) ++ [2 * j + 1]) := by
  intro j
  induction j with
  | zero =>
    intro h
    rw [flatMap_range_succ, closed_slots_parent_closes, if_pos h, if_neg (by decide)]
    exact List.Perm.refl _
  | succ j ih =>
    intro h
    have h1 : j + 1 + 1 < N := h
    have hf : closed_slots (parent_closes N (j + 1)) = [2 * j + 3, 2 * j] := by
      rw [closed_slots_parent_closes, if_pos h1, if_pos (by omega)]
      have e1 : 2 * (j + 1) + 1 = 2 * j + 3 := by omega
      have e2 : 2 * (j + 1) - 2 = 2 * j := by omega
      rw [e1, e2]
      rfl
    have hR : List.range (2 * (j + 1)) ++ [2 * (j + 1) + 1]
        = List.range (2 * j) ++ [2 * j, 2 * j + 1, 2 * j + 3] := by
      have e1 : 2 * (j + 1) + 1 = 2 * j + 3 := by omega
      have e2 : 2 * (j + 1) = 2 * j + 2 := by omega
      rw [e1, e2, range_add_two, List.append_assoc]
      rfl
    rw [flatMap_range_succ, hf, hR]
    refine ((ih (by omega)).append_right _).trans ?_
    rw [List.append_assoc]
    apply List.Perm.append_left
    exact (List.perm_append_comm :
      ([2 * j + 1, 2 * j + 3] ++ [2 * j]).Perm ([2 * j] ++ [2 * j + 1, 2 * j + 3]))

/-- Over the stages of a pipeline of `N` stages, the parent closes each of the
`2 (N - 1)` slots once. -/
theorem parent_closes_perm (N : Nat) :
    ((List.range N).flatMap (fun n => closed_slots (parent_closes N n))).Perm
      (List.range (2 * (N - 1))) := by
  match N with
  | 0 => exact List.Perm.refl _
  | 1 => exact List.Perm.refl _
  | j + 2 =>
    have hf : closed_slots (parent_closes (j + 2) (j + 1)) = [2 * j] := by
      rw [closed_slots_parent_closes, if_neg (by omega), if_pos (by omega)]
      have e2 : 2 * (j + 1) - 2 = 2 * j := by omega
      rw [e2]
      rfl
    have hR : List.range (2 * (j + 2 - 1)) = List.range (2 * j) ++ [2 * j, 2 * j + 1] := by
      have e : 2 * (j + 2 - 1) = 2 * j + 2 := by omega
      rw [e, range_add_two]
    rw [flatMap_range_succ, hf, hR]
    refine ((parent_closes_perm_upto (j + 2) j (by omega)).append_right _).trans ?_
    rw [List.append_assoc]
    apply List.Perm.append_left
    exact (List.perm_append_comm : ([2 * j + 1] ++ [2 * j]).Perm ([2 * j] ++ [2 * j + 1]))

/-- An external stage that resolves: the child is created, the parent closes its
descriptors and waits. -/
theorem execute_stage_external (os : OS) (p : ParsedInput) (n : Nat) (w : World)
    (c0 command : Command) (first : Token) (name path : List Char) (pid : Nat)
    (hc0 : get_command p n = .ok c0) (hcmd : resolve_env_variables w.env c0 = .ok command)
    (hfirst : get_token command 0 = .ok first) (hname : read_str first.buffer 0 = .ok name)
    (hnb : name ∉ builtins)
    (hres : resolve_path w.env (os.realpath w.cwd) (os.access w.cwd) name = .ok (some path))
    (hfork : os.fork n = some pid) (hwait : os.waitpid pid = true) :
    execute_stage os p n w
      = .ok ({ w with log := w.log ++
          ([Event.fork pid path (child_stdin n) (child_stdout p.len n) (child_argv command)] ++
            parent_closes p.len n ++ [Event.wait pid]) }, .next) := by
  have h1 : name ≠ "exit".toList := fun e => hnb (by rw [e]; decide)
  have h2 : name ≠ "cd".toList := fun e => hnb (by rw [e]; decide)
  have h3 : name ≠ "pwd".toList := fun e => hnb (by rw [e]; decide)
  simp only [execute_stage, hc0, hcmd, hfirst, hname, h1, h2, h3, if_false, hres, hfork,
    hwait, if_true, bind, Except.bind, List.append_assoc]

/-- The first `k` stages of a pipeline whose stages are external commands that
resolve. -/
theorem execute_stages_external (os : OS) (p : ParsedInput)
    (env : List Char → Option (List Char)) (cwd : List Char)
    (hext : ∀ n, n < p.len → ∃ c0 command first name path pid,
      get_command p n = .ok c0 ∧ resolve_env_variables env c0 = .ok command ∧
      get_token command 0 = .ok first ∧ read_str first.buffer 0 = .ok name ∧
      name ∉ builtins ∧
      resolve_path env (os.realpath cwd) (os.access cwd) name = .ok (some path) ∧
      os.fork n = some pid ∧ os.waitpid pid = true) :
    ∀ (k : Nat), k ≤ p.len → ∀ (log : List Event), ∃ evs,
      execute_stages os p k 0 { env := env, cwd := cwd, log := log }
        = .ok ({ env := env, cwd := cwd, log := log ++ evs }, .next) ∧
      closed_slots evs
        = (List.range k).flatMap (fun n => closed_slots (parent_closes p.len n)) ∧
      ∀ used, closes_follow_forks used evs = true := by
  intro k
  induction k with
  | zero =>
    intro _ log
    exact ⟨[], by simp [execute_stages], rfl, fun _ => rfl⟩
  | succ k ih =>
    intro hk log
    obtain ⟨evs, hrun, hclosed, hcff⟩ := ih (by omega) log
    obtain ⟨c0, command, first, name, path, pid, hc0, hcmd, hfirst, hname, hnb, hres, hfork,
      hwait⟩ := hext k (by omega)
    have hstage := execute_stage_external os p k
      { env := env, cwd := cwd, log := log ++ evs } c0 command first name path pid hc0 hcmd
      hfirst hname hnb hres hfork hwait
    refine ⟨evs ++ ([Event.fork pid path (child_stdin k) (child_stdout p.len k)
      (child_argv command)] ++ parent_closes p.len k ++ [Event.wait pid]), ?_, ?_, ?_⟩
    · rw [execute_stages_add, hrun]
      simp only [Nat.zero_add, execute_stages, hstage, bind, Except.bind, List.append_assoc]
    · rw [closed_slots_append, closed_slots_stage, hclosed, List.range_succ,
        List.flatMap_append, List.flatMap_singleton]
    · intro used
      exact closes_follow_forks_append _ _
        (closes_follow_forks_stage p.len k (by omega) pid path _) used (hcff used)

/-! ## The property `C24` -/

/-- C24. In a pipeline of `N` stages all of which are external commands that resolve
(`fork` and `waitpid` succeeding), `execute_input` runs to the end of its loop and
returns, and over the whole run the parent closes, while it handles the stage `n`
and after the child of that stage has been created, the write end of the pipe `n`
(slot `2n + 1`, when a stage follows) and the read end of the pipe `n - 1` (slot
`2n - 2`, when a stage precedes); the slots closed are, in another order, the slots
`0 .. 2(N - 1) - 1`, each once; and every `close` follows the creation of the child
that duplicates the closed slot onto its standard input or output. -/
theorem C24_parent_closes_each_once (os : OS) (p : ParsedInput) (w : World)
    (hext : ∀ n, n < p.len → ∃ c0 command first name path pid,
      get_command p n = .ok c0 ∧ resolve_env_variables w.env c0 = .ok command ∧
      get_token command 0 = .ok first ∧ read_str first.buffer 0 = .ok name ∧
      name ∉ builtins ∧
      resolve_path w.env (os.realpath w.cwd) (os.access w.cwd) name = .ok (some path) ∧
      os.fork n = some pid ∧ os.waitpid pid = true) :
    ∃ evs, execute_parsed os p w = .ok ({ w with log := w.log ++ evs }, .next) ∧
      closed_slots evs
        = (List.range p.len).flatMap (fun n => closed_slots (parent_closes p.len n)) ∧
      (∀ n, n < p.len →
        closed_slots (parent_closes p.len n)
          = (if n + 1 < p.len then [2 * n + 1] else []) ++
            (if n ≠ 0 then [2 * n - 2] else []) ∧
        (n + 1 < p.len →
          (setup_pipes (p.len - 1))[2 * n + 1]? = some (some ⟨n, .write⟩)) ∧
        (n ≠ 0 → (setup_pipes (p.len - 1))[2 * n - 2]? = some (some ⟨n - 1, .read⟩))) ∧
      (closed_slots evs).Perm (List.range (2 * (p.len - 1))) ∧
      closes_follow_forks [] evs = true := by
  obtain ⟨evs, hrun, hclosed, hcff⟩ := execute_stages_external os p w.env w.cwd hext p.len
    (Nat.le_refl _) (w.log ++ (List.range (p.len - 1)).map Event.pipe)
  have hslots : closed_slots ((List.range (p.len - 1)).map Event.pipe ++ evs)
      = (List.range p.len).flatMap (fun n => closed_slots (parent_closes p.len n)) := by
    rw [closed_slots_append, closed_slots_pipes, List.nil_append, hclosed]
  refine ⟨(List.range (p.len - 1)).map Event.pipe ++ evs, ?_, hslots, ?_, ?_, ?_⟩
  · simp only [execute_parsed]
    rw [hrun, List.append_assoc]
  · intro n hn
    obtain ⟨_, _, hin⟩ := setup_pipes_from_spec (p.len - 1) 0
      (List.replicate (2 * (p.len - 1)) none)
    simp only [List.length_replicate] at hin
    refine ⟨closed_slots_parent_closes p.len n, ?_, ?_⟩
    · intro h1
      exact (hin n (by omega) (by omega) (by omega)).2
    · intro h0
      have e : 2 * n - 2 = 2 * (n - 1) := by omega
      rw [e]
      exact (hin (n - 1) (by omega) (by omega) (by omega)).1
  · rw [hslots]
    exact parent_closes_perm p.len
  · exact closes_follow_forks_append _ _ hcff [] (closes_follow_forks_pipes _ _)

/-- C24 at the line `a | a | a`, where `/bin/a` exists: the parent closes the slots
1, then 3 and 0, then 2, each after the child that uses it has been created. -/
theorem C24_parent_closes_each_once_witness :
    parse_input (line_buffer "a | a | a".toList) = .ok (some
      (ParsedInput.mk 10 3
        (closed_command [token_of "a".toList] 8 :: closed_command [token_of "a".toList] 8 ::
          closed_command [token_of "a".toList] 8 :: List.replicate 7 new_command))) ∧
    ∃ evs, execute_parsed example_os
        (ParsedInput.mk 10 3
        (closed_command [token_of "a".toList] 8 :: closed_command [token_of "a".toList] 8 ::
          closed_command [token_of "a".toList] 8 :: List.replicate 7 new_command)) example_world
        = .ok ({ example_world with log := example_world.log ++ evs }, .next) ∧
      closed_slots evs = [1, 3, 0, 2] ∧ closes_follow_forks [] evs = true :=
  ⟨by rfl,
   match C24_parent_closes_each_once example_os
      (ParsedInput.mk 10 3
        (closed_command [token_of "a".toList] 8 :: closed_command [token_of "a".toList] 8 ::
          closed_command [token_of "a".toList] 8 :: List.replicate 7 new_command)) example_world
      (fun n hn =>
        match n, hn with
        | 0, _ => ⟨closed_command [token_of "a".toList] 8, closed_command [token_of "a".toList] 8,
        token_of "a".toList, "a".toList, "/bin/a".toList, 100, by rfl, by rfl, by rfl, by rfl,
        by decide, by rfl, by rfl, by rfl⟩
        | 1, _ => ⟨closed_command [token_of "a".toList] 8, closed_command [token_of "a".toList] 8,
        token_of "a".toList, "a".toList, "/bin/a".toList, 101, by rfl, by rfl, by rfl, by rfl,
        by decide, by rfl, by rfl, by rfl⟩
        | 2, _ => ⟨closed_command [token_of "a".toList] 8, closed_command [token_of "a".toList] 8,
        token_of "a".toList, "a".toList, "/bin/a".toList, 102, by rfl, by rfl, by rfl, by rfl,
        by decide, by rfl, by rfl, by rfl⟩
        | n + 3, h => absurd h (Nat.not_lt_of_le (Nat.le_add_left 3 n))) with
    | ⟨evs, hrun, hslots, _, _, hcff⟩ => ⟨evs, hrun, hslots.trans (by rfl), hcff⟩⟩

end Picoshell
